import Mathlib

/-!
Writer dispatch and table-of-contents accumulation of gen-apidocs.

A shallow embedding of `gen-apidocs/main.go` and of the package `generators`
(`writer.go`, `md.go`, `tex.go`).

What is represented:
* the table of contents each writer builds.  A `*TOCItem` is an address into the
  list of the items allocated so far (`heap`), so that the aliasing between
  `TOC.Sections`, `CurrentSection` and the local items whose address is taken is
  the one of the Go code;
* every way an operation can stop the process: a nil dereference, an index out
  of range, `os.Exit(1)`, `panic`;
* the text written by `MarkdownWriter.writeOperationSample` and the content
  `MarkdownWriter.Finalize` writes to `_index.md`.

The remaining bytes written to the generated files are not represented: no
control flow depends on them.  A Lean string stands for the Go string that is its
UTF-8 encoding, so the inputs are the Go strings that are valid UTF-8.  Where
the Go code indexes or slices a string (`Finalize`) the model works on the bytes
(`utf8`), and the content of `_index.md` is a list of bytes.  The case mappings
of package `unicode` are a parameter (`Unicode`).  The file system answers by
path, with the same answer throughout a run.
-/

namespace GenApidocs

/-! ## Go run-time failures -/

/-- Ways in which the Go process stops before an operation returns: `panic`
carries the text of a string panic as far as it is known, `panicError` is
`panic(err)` on an error of the library, `missingMethod` a call of a method the
receiver does not declare. -/
inductive Fault where
  | nilDereference
  | indexOutOfRange
  | exit (code : Nat)
  | panic (msg : String)
  | panicError
  | missingMethod (name : String)
deriving DecidableEq, Repr

/-! ## Package `strings` -/

/-- Worker of `strings.Replace` for a non-empty `old`, on characters or on
bytes: `lim` is the number of replacements still allowed (`none`: no limit),
`skip` the number of items of a matched `old` still to be dropped. -/
def replaceGo {α : Type} [BEq α] (old new : List α) : Option Nat → Nat → List α → List α
  | _, _, [] => []
  | lim, skip + 1, _ :: cs => replaceGo old new lim skip cs
  | lim, 0, c :: cs =>
    if lim ≠ some 0 ∧ old.isPrefixOf (c :: cs) = true then
      new ++ replaceGo old new (lim.map (fun k => k - 1)) (old.length - 1) cs
    else
      c :: replaceGo old new lim 0 cs

/-- Worker of `strings.Replace` for an empty `old`: `new` is inserted before
every character and at the end, as long as replacements are allowed. -/
def replaceEmpty (new : List Char) : Option Nat → List Char → List Char
  | lim, [] => if lim ≠ some 0 then new else []
  | lim, c :: cs =>
    if lim ≠ some 0 then new ++ c :: replaceEmpty new (lim.map (fun k => k - 1)) cs
    else c :: cs

/-- Go `strings.Replace(s, old, new, n)`: the first `n` non-overlapping
occurrences of `old` are replaced, all of them when `n < 0`. -/
def stringsReplace (s old new : String) (n : Int) : String :=
  let lim : Option Nat := if n < 0 then none else some n.toNat
  if old.data = [] then ⟨replaceEmpty new.data lim s.data⟩
  else ⟨replaceGo old.data new.data lim 0 s.data⟩

/-- Package `unicode`, whose case tables are not part of the sources: the rune
mappings `unicode.ToLower` and `unicode.ToUpper`. -/
class Unicode where
  ToLower : Char → Char
  ToUpper : Char → Char

/-- Go `strings.ToLower`: `unicode.ToLower` applied to every character. -/
def stringsToLower [Unicode] (s : String) : String := ⟨s.data.map Unicode.ToLower⟩

/-- Go `strings.ToUpper`: `unicode.ToUpper` applied to every character. -/
def stringsToUpper [Unicode] (s : String) : String := ⟨s.data.map Unicode.ToUpper⟩

/-- Worker of `strings.Split` for a one-character separator: `cur` is the
piece being read, reversed. -/
def splitGo (sep : Char) : List Char → List Char → List (List Char)
  | cur, [] => [cur.reverse]
  | cur, c :: cs => if c = sep then cur.reverse :: splitGo sep [] cs else splitGo sep (c :: cur) cs

/-- Go `strings.Split(s, sep)` for a separator of one character. -/
def stringsSplit (s : String) (sep : Char) : List String :=
  (splitGo sep [] s.data).map String.mk

/-- The UTF-8 encoding of a character: one to four bytes. -/
def utf8Char (c : Char) : List Nat :=
  let n := c.toNat
  if n < 0x80 then [n]
  else if n < 0x800 then [0xC0 + n / 64, 0x80 + n % 64]
  else if n < 0x10000 then [0xE0 + n / 4096, 0x80 + n / 64 % 64, 0x80 + n % 64]
  else [0xF0 + n / 262144, 0x80 + n / 4096 % 64, 0x80 + n / 64 % 64, 0x80 + n % 64]

/-- The UTF-8 encoding of a sequence of characters. -/
def utf8Chars : List Char → List Nat
  | [] => []
  | c :: cs => utf8Char c ++ utf8Chars cs

/-- The bytes of the Go string that holds the text `s`. -/
def utf8 (s : String) : List Nat := utf8Chars s.data

/-- Go `strings.Replace(s, old, new, -1)` on the bytes of the strings, for a
non-empty `old`: every non-overlapping occurrence of `old` is replaced. -/
def bytesReplaceAll (s old new : List Nat) (_ : old ≠ []) : List Nat :=
  replaceGo old new none 0 s

/-- Worker of `strings.LastIndex` for a `substr` of one byte: `i` is the index
of the head of the list, `last` the last match seen. -/
def lastIndexGo (sep : Nat) : Nat → Int → List Nat → Int
  | _, last, [] => last
  | i, last, c :: cs => lastIndexGo sep (i + 1) (if c = sep then (i : Int) else last) cs

/-- Go `strings.LastIndex(s, substr)` for a `substr` of the one byte `sep`, on
the bytes of `s`: the index of the last byte equal to `sep`, `-1` when there is
none. -/
def stringsLastIndex (s : List Nat) (sep : Nat) : Int := lastIndexGo sep 0 (-1) s

/-- Go slice expression `s[lo:hi]` on the bytes of a string: it panics unless
`0 ≤ lo ≤ hi ≤ len(s)`, where `len(s)` is the number of bytes. -/
def sliceString (s : List Nat) (lo hi : Int) : Except Fault (List Nat) :=
  if 0 ≤ lo ∧ lo ≤ hi ∧ hi ≤ (s.length : Int) then
    .ok ((s.drop lo.toNat).take (hi.toNat - lo.toNat))
  else .error .indexOutOfRange

/-- Go index expression `xs[i]` on a slice. -/
def indexSlice {α : Type} (xs : List α) (i : Nat) : Except Fault α :=
  match xs[i]? with
  | some x => .ok x
  | none => .error .indexOutOfRange

/-! ## Package `api` (not part of the sources: the fields and method results
the generators read) -/

/-- Type `api.ExampleText`; `Type_` is the field `Type`. -/
structure ExampleText where
  Tab : String
  Type_ : String
  Text : String
  Msg : String
deriving DecidableEq, Repr

/-- Type `api.Operation`: `TypeName` is `o.Type.Name`, `ExampleRequests` and
`ExampleResponses` are the results of `o.GetExampleRequests()` and
`o.GetExampleResponses()`. -/
structure Operation where
  TypeName : String
  ExampleRequests : List ExampleText
  ExampleResponses : List ExampleText
deriving DecidableEq, Repr

/-- Type `api.OperationCategory`. -/
structure OperationCategory where
  Name : String
  Operations : List Operation
deriving DecidableEq, Repr

/-- Type `api.Definition`: `GroupDisplayName` and `LinkID` are the results of
the methods of these names, `SampleSample` is `d.Sample.Sample` and `Samples`
the result of `d.GetSamples()`. -/
structure Definition where
  Name : String
  Version : String
  Group : String
  GroupDisplayName : String
  LinkID : String
  InToc : Bool
  IsInlined : Bool
  IsOldVersion : Bool
  SampleSample : String
  Samples : List ExampleText
  OperationCategories : List OperationCategory
deriving DecidableEq, Repr

/-- Type `api.Resource`; `Definition` is a pointer, `none` is nil. -/
structure Resource where
  Name : String
  Definition : Option Definition
  DescriptionWarning : String
  DescriptionNote : String
deriving DecidableEq, Repr

/-- Type `api.ResourceCategory`. -/
structure ResourceCategory where
  Name : String
  Include : String
  Resources : List Resource
deriving DecidableEq, Repr

/-- Type `api.GroupVersions`, a map from group to versions. -/
abbrev GroupVersions := List (String × List String)

/-- Type `api.Definitions`. -/
structure Definitions where
  All : List Definition
  GroupVersions : GroupVersions
deriving DecidableEq, Repr

/-- Type `api.Config`. -/
structure Config where
  SpecVersion : String
  ResourceCategories : List ResourceCategory
  Definitions : Definitions
deriving DecidableEq, Repr

/-! ## The world outside the process -/

/-- Outcome of `os.Stat`. -/
inductive StatResult where
  | found
  | notExist
  | otherError
deriving DecidableEq, Repr

/-- What the generators take from outside: the variables of package `api`, the
clock, the answers of the file system (one answer per path), and the library and
`api` functions whose code is not part of the sources. -/
structure Env where
  BuildDir : String
  SectionsDir : String
  IncludesDir : String
  ConfigDir : String
  BuildOps : Bool
  Join : String → String → String
  stat : String → StatResult
  createFails : String → Bool
  readFile : String → Option String
  year : String
  timestamp : String
  SortDefinitionsByName : List Definition → List Definition
  PrintInfo : Config → List String

/-! ## `writer.go`: helpers -/

/-- Function `getLink` of `writer.go`. -/
def getLink [Unicode] (s : String) : String :=
  let tmp := stringsReplace s "." "-" (-1)
  stringsToLower (stringsReplace tmp " " "-" (-1))

/-- Function `definitionFileName` of `writer.go`. -/
def definitionFileName [Unicode] (d : Definition) : String :=
  let name := "generated_" ++ stringsToLower (stringsReplace d.Name "." "_" 50)
  name ++ "_" ++ d.Version ++ "_" ++ d.Group ++ "_definition"

/-- Function `conceptFileName` of `writer.go`. -/
def conceptFileName [Unicode] (d : Definition) : String :=
  let name := "generated_" ++ stringsToLower (stringsReplace d.Name "." "_" 50)
  name ++ "_" ++ d.Version ++ "_" ++ d.Group ++ "_concept"

/-- Function `writeStaticFile` of `writer.go`, as far as it can stop the
process: an existing file is linked; a `Stat` error other than "not exist"
panics with a message that starts as below; a failing `Create` panics with the
error; a failing `OpenFile` is printed and the function returns. -/
def writeStaticFile (env : Env) (location : String) : Except Fault Unit :=
  let fn := env.Join env.SectionsDir location
  let to_ := env.Join env.IncludesDir location
  match env.stat fn with
  | .found => .ok ()
  | .otherError => .error (.panic ("Could not stat file " ++ fn))
  | .notExist =>
    if env.createFails to_ = true then .error .panicError
    else .ok ()

/-! ## The table of contents -/

/-- A pointer to a table-of-contents item: its index in the list of allocated
items. -/
abbrev Addr := Nat

/-- Type `TOCItem` as `md.go` uses it; `SubSections` is a slice of
pointers. -/
structure TOCItem where
  Level : Int
  Title : String
  Link : String
  File : String
  SubSections : List Addr
deriving DecidableEq, Repr

/-- Type `TOC` as `md.go` uses it; `Sections` is a slice of pointers. -/
structure TOC where
  Title : String
  Copyright : String
  Sections : List Addr
deriving DecidableEq, Repr

/-- Statement `p.SubSections = append(p.SubSections, q)` for a valid pointer
`p`. -/
def heapAppendSub (heap : List TOCItem) (p q : Addr) : List TOCItem :=
  match heap[p]? with
  | some it => heap.set p { it with SubSections := it.SubSections ++ [q] }
  | none => heap

/-! ## `md.go` -/

/-- Type `MarkdownWriter`, with the items it has allocated (`heap`) and the
content last written to `_index.md` (`IndexFile`). -/
structure MarkdownWriter where
  Config : Config
  TOC : TOC
  CurrentSection : Option Addr
  heap : List TOCItem
  IndexFile : Option (List Nat)
deriving DecidableEq, Repr

/-- Function `NewMarkdownWriter`. -/
def NewMarkdownWriter (config : Config) (copyright title : String) : MarkdownWriter :=
  { Config := config
    TOC := { Copyright := copyright, Title := title, Sections := [] }
    CurrentSection := none
    heap := []
    IndexFile := none }

namespace MarkdownWriter

/-- Method `Extension`. -/
def Extension : String := ".md"

/-- Method `DefaultStaticContent`. -/
def DefaultStaticContent (title : String) : String := "## " ++ title ++ "\n\n"

/-- Statements `m.TOC.Sections = append(m.TOC.Sections, &item)` and
`m.CurrentSection = &item` for a new `item`. -/
def appendSection (m : MarkdownWriter) (item : TOCItem) : MarkdownWriter :=
  { m with
    heap := m.heap ++ [item]
    TOC := { m.TOC with Sections := m.TOC.Sections ++ [m.heap.length] }
    CurrentSection := some m.heap.length }

/-- Statement `m.CurrentSection.SubSections = append(m.CurrentSection.SubSections, &item)`
for a new `item`; a nil `CurrentSection` is a nil dereference. -/
def appendToCurrent (m : MarkdownWriter) (item : TOCItem) : Except Fault MarkdownWriter :=
  match m.CurrentSection with
  | none => .error .nilDereference
  | some cur =>
    .ok { m with heap := heapAppendSub (m.heap ++ [item]) cur m.heap.length }

/-- Method `WriteOverview`. -/
def WriteOverview (env : Env) (m : MarkdownWriter) : Except Fault MarkdownWriter :=
  let fn := env.Join env.SectionsDir "overview.md"
  .ok (m.appendSection
    { Level := 1, Title := "Overview", Link := "overview", File := fn, SubSections := [] })

/-- Method `WriteAPIGroupVersions`. -/
def WriteAPIGroupVersions (env : Env) (_gvs : GroupVersions) (m : MarkdownWriter) :
    Except Fault MarkdownWriter :=
  let fn := "group_versions.md"
  let path := env.Join env.BuildDir fn
  if env.createFails path = true then .error (.exit 1)
  else
    .ok (m.appendSection
      { Level := 1, Title := "API Groups", Link := "api-groups", File := fn, SubSections := [] })

/-- Method `WriteResourceCategory`. -/
def WriteResourceCategory [Unicode] (env : Env) (name file : String) (m : MarkdownWriter) :
    Except Fault MarkdownWriter :=
  let fn := env.Join env.SectionsDir (file ++ ".md")
  let link := stringsReplace (stringsToLower name) " " "-" (-1)
  .ok (m.appendSection
    { Level := 1, Title := stringsToUpper name, Link := link, File := fn, SubSections := [] })

/-- Method `WriteDefinitionsOverview`. -/
def WriteDefinitionsOverview (env : Env) (m : MarkdownWriter) : Except Fault MarkdownWriter := do
  writeStaticFile env "definitions.md"
  .ok (m.appendSection
    { Level := 1, Title := "DEFINITIONS", Link := "definitions", File := "definitions.md",
      SubSections := [] })

/-- The name `fn` of the file `WriteDefinition` and `WriteResource` create. -/
def fileName [Unicode] (d : Definition) : String :=
  let defname := stringsToLower (stringsReplace d.Name "." "-" 50)
  defname ++ "-" ++ d.Version ++ "-" ++ d.Group ++ ".md"

/-- The value `item` of `WriteDefinition`. -/
def definitionItem [Unicode] (d : Definition) : TOCItem :=
  let fn := fileName d
  let nvg := d.Name ++ " (" ++ d.GroupDisplayName ++ "/" ++ d.Version ++ ")"
  let linkID := getLink nvg
  { Level := 2, Title := nvg, Link := linkID, File := fn, SubSections := [] }

/-- Method `WriteDefinition`. -/
def WriteDefinition [Unicode] (env : Env) (d : Definition) (m : MarkdownWriter) :
    Except Fault MarkdownWriter :=
  let fn := fileName d
  let dir := env.Join env.BuildDir "definitions"
  if env.createFails (env.Join dir fn) = true then .error (.exit 1)
  else m.appendToCurrent (definitionItem d)

/-- Method `writeOperationSample`: the text written to `w`. -/
def writeOperationSample (req : Bool) (op : String) : List ExampleText → Except Fault String
  | [] => .ok ""
  | e :: es => do
    let eType ← indexSlice (stringsSplit e.Tab ':') 1
    let btnText := if req = true then eType ++ " request" else eType ++ " response"
    let out1 := "**" ++ btnText ++ " example**\n\n"
    let lType ← indexSlice (stringsSplit e.Type_ ':') 1
    let lang ← indexSlice (stringsSplit lType '_') 1
    let out2 := "```" ++ lang ++ "\n" ++ e.Text ++ "\n```\n\n"
    let rest ← writeOperationSample req op es
    .ok (out1 ++ out2 ++ rest)

/-- The identifier `opID` of `WriteResource`. -/
def opID [Unicode] (d : Definition) (o : Operation) : String :=
  stringsReplace (stringsToLower o.TypeName) " " "-" (-1) ++ "-" ++ d.LinkID

/-- The value `OPItem` of `WriteResource` when it is declared. -/
def OPItem [Unicode] (d : Definition) (o : Operation) : TOCItem :=
  { Level := 2, Title := o.TypeName, Link := opID d o, File := "", SubSections := [] }

/-- The value `OCItem` of `WriteResource` when it is declared. -/
def OCItem [Unicode] (d : Definition) (c : OperationCategory) : TOCItem :=
  let catID := stringsReplace (stringsToLower c.Name) " " "-" (-1) ++ "-" ++ d.LinkID
  { Level := 2, Title := c.Name, Link := catID, File := "", SubSections := [] }

/-- The value `item` of `WriteResource` when it is declared. -/
def resourceItem [Unicode] (r : Resource) (d : Definition) : TOCItem :=
  let fn := fileName d
  let dvg := r.Name ++ " (" ++ d.GroupDisplayName ++ "/" ++ d.Version ++ ")"
  let linkID := getLink dvg
  { Level := 1, Title := dvg, Link := linkID, File := fn, SubSections := [] }

/-- Body of the loop over `c.Operations` in `WriteResource`: `oc` is the
address of `OCItem`. -/
def writeOperation [Unicode] (d : Definition) (oc : Addr) (o : Operation) (m : MarkdownWriter) :
    Except Fault MarkdownWriter := do
  let opID := opID d o
  let m1 := { m with heap := heapAppendSub (m.heap ++ [OPItem d o]) oc m.heap.length }
  let requests := o.ExampleRequests
  if requests.length > 0 then
    let _ ← writeOperationSample true opID requests
  let responses := o.ExampleResponses
  if responses.length > 0 then
    let _ ← writeOperationSample false opID responses
  .ok m1

/-- Loop over `c.Operations` in `WriteResource`. -/
def writeOperations [Unicode] (d : Definition) (oc : Addr) :
    List Operation → MarkdownWriter → Except Fault MarkdownWriter
  | [], m => .ok m
  | o :: os, m => do
    let m1 ← writeOperation d oc o m
    writeOperations d oc os m1

/-- Body of the loop over `r.Definition.OperationCategories` in
`WriteResource`. -/
def writeCategory [Unicode] (d : Definition) (c : OperationCategory) (m : MarkdownWriter) :
    Except Fault MarkdownWriter :=
  if c.Operations.length = 0 then .ok m
  else do
    let oc := m.heap.length
    let m1 ← m.appendToCurrent (OCItem d c)
    writeOperations d oc c.Operations m1

/-- Loop over `r.Definition.OperationCategories` in `WriteResource`. -/
def writeCategories [Unicode] (d : Definition) :
    List OperationCategory → MarkdownWriter → Except Fault MarkdownWriter
  | [], m => .ok m
  | c :: cs, m => do
    let m1 ← writeCategory d c m
    writeCategories d cs m1

/-- Method `WriteResource`. -/
def WriteResource [Unicode] (env : Env) (r : Resource) (m : MarkdownWriter) :
    Except Fault MarkdownWriter :=
  match r.Definition with
  | none => .error .nilDereference
  | some d =>
    let fn := fileName d
    let dir := env.Join env.BuildDir "resources"
    if env.createFails (env.Join dir fn) = true then .error (.exit 1)
    else
      let m1 := m.appendSection (resourceItem r d)
      if d.OperationCategories.length = 0 then .ok m1
      else writeCategories d d.OperationCategories m1

/-- Method `WriteOldVersionsOverview`. -/
def WriteOldVersionsOverview (env : Env) (m : MarkdownWriter) : Except Fault MarkdownWriter := do
  writeStaticFile env "oldversions.md"
  .ok (m.appendSection
    { Level := 1, Title := "Old API Versions", Link := "old-versions", File := "oldversions.md",
      SubSections := [] })

/-- Method `Finalize`: the content of `_index.md`, in bytes; 46 is the byte
of ".".  The error of `ioutil.WriteFile` is dropped: when the file cannot be
written the method returns all the same and nothing is recorded.  The loops over
the table of contents only print. -/
def Finalize (env : Env) (m : MarkdownWriter) : Except Fault MarkdownWriter := do
  let buf : List Nat := match env.readFile (env.Join env.SectionsDir "index.md") with
    | some data => [] ++ utf8 data
    | none => []
  let buf := bytesReplaceAll buf (utf8 "TIMESTAMP") (utf8 env.timestamp) (by decide)
  let pos := stringsLastIndex (utf8 m.Config.SpecVersion) 46
  let release ← sliceString (utf8 m.Config.SpecVersion) 1 pos
  let buf := bytesReplaceAll buf (utf8 "RELEASE") release (by decide)
  if env.createFails (env.Join env.BuildDir "_index.md") = true then .ok m
  else .ok { m with IndexFile := some buf }

end MarkdownWriter

/-! ## `tex.go` -/

/-- Type `tocItem` of `tex.go`: the fields of `TOCItem`. -/
abbrev tocItem := TOCItem

/-- Type `toc` of `tex.go`: the fields of `TOC`. -/
abbrev toc := TOC

/-- Type `TexWriter`, with the items it has allocated (`heap`). -/
structure TexWriter where
  Config : Config
  toc : toc
  CurrentSection : Option Addr
  heap : List tocItem
deriving DecidableEq, Repr

/-- Function `NewTexWriter`. -/
def NewTexWriter (config : Config) (copyright title : String) : TexWriter :=
  { Config := config
    toc := { Copyright := copyright, Title := title, Sections := [] }
    CurrentSection := none
    heap := [] }

namespace TexWriter

/-- Method `Extension`. -/
def Extension : String := ".tex"

/-- Method `DefaultStaticContent`. -/
def DefaultStaticContent [Unicode] (title : String) : String :=
  let titleID := stringsToLower (stringsReplace title " " "-" (-1))
  "\\section\x7b" ++ titleID ++ "\x7d\n\\label\x7b-strong-" ++ title ++ "-strong-\x7d\n"

/-- Statements `h.toc.Sections = append(h.toc.Sections, &item)` and
`h.CurrentSection = &item` for a new `item`. -/
def appendSection (h : TexWriter) (item : tocItem) : TexWriter :=
  { h with
    heap := h.heap ++ [item]
    toc := { h.toc with Sections := h.toc.Sections ++ [h.heap.length] }
    CurrentSection := some h.heap.length }

/-- Statement `h.CurrentSection.SubSections = append(h.CurrentSection.SubSections, &item)`
for a new `item`; a nil `CurrentSection` is a nil dereference. -/
def appendToCurrent (h : TexWriter) (item : tocItem) : Except Fault TexWriter :=
  match h.CurrentSection with
  | none => .error .nilDereference
  | some cur =>
    .ok { h with heap := heapAppendSub (h.heap ++ [item]) cur h.heap.length }

/-- Method `WriteOverview`. -/
def WriteOverview (env : Env) (h : TexWriter) : Except Fault TexWriter := do
  let fn := "_overview.tex"
  writeStaticFile env fn
  .ok (h.appendSection
    { Level := 1, Title := "Overview", Link := "-strong-api-overview-strong-", File := fn,
      SubSections := [] })

/-- Method `WriteResourceCategory`. -/
def WriteResourceCategory [Unicode] (env : Env) (name file : String) (h : TexWriter) :
    Except Fault TexWriter := do
  writeStaticFile env (file ++ ".tex")
  let link := stringsReplace (stringsToLower name) " " "-" (-1)
  .ok (h.appendSection
    { Level := 1, Title := stringsToUpper name, Link := "-strong-" ++ link ++ "-strong-",
      File := file ++ ".tex", SubSections := [] })

/-- Method `WriteDefinitionsOverview`. -/
def WriteDefinitionsOverview (env : Env) (h : TexWriter) : Except Fault TexWriter := do
  writeStaticFile env "_definitions.tex"
  .ok (h.appendSection
    { Level := 1, Title := "DEFINITIONS", Link := "-strong-definitions-strong-",
      File := "_definitions.tex", SubSections := [] })

/-- Method `WriteDefinition`. -/
def WriteDefinition [Unicode] (env : Env) (d : Definition) (h : TexWriter) : Except Fault TexWriter :=
  let fn := "_" ++ definitionFileName d ++ ".tex"
  let path := env.ConfigDir ++ "/includes/" ++ fn
  if env.createFails path = true then .error (.exit 1)
  else
    let nvg := d.Name ++ " " ++ d.Version ++ " " ++ d.GroupDisplayName
    let linkID := getLink nvg
    h.appendToCurrent { Level := 2, Title := nvg, Link := linkID, File := fn, SubSections := [] }

/-- First loop of `writeSample` and of `writeOperationSample`: each example
is indexed at `strings.Split(e.Tab, ":")[1]`. -/
def sampleButtons : List ExampleText → Except Fault Unit
  | [] => .ok ()
  | e :: es => do
    let _ ← indexSlice (stringsSplit e.Tab ':') 1
    sampleButtons es

/-- Second loop of `writeSample` and of `writeOperationSample`: the three
index expressions on the pieces of `Tab` and `Type`. -/
def samplePanels : List ExampleText → Except Fault Unit
  | [] => .ok ()
  | e :: es => do
    let _ ← indexSlice (stringsSplit e.Tab ':') 1
    let lType ← indexSlice (stringsSplit e.Type_ ':') 1
    let _ ← indexSlice (stringsSplit lType '_') 1
    samplePanels es

/-- Method `writeSample`, as far as it can stop the process. -/
def writeSample (d : Definition) : Except Fault Unit :=
  if d.SampleSample = "" then .ok ()
  else do
    sampleButtons d.Samples
    samplePanels d.Samples

/-- Method `writeOperationSample`, as far as it can stop the process. -/
def writeOperationSample (examples : List ExampleText) : Except Fault Unit := do
  sampleButtons examples
  samplePanels examples

/-- Body of the loop over `c.Operations` in `WriteResource`: `oc` is the
address of `ocItem`. -/
def writeOperation [Unicode] (d : Definition) (oc : Addr) (o : Operation) (h : TexWriter) :
    Except Fault TexWriter := do
  let opID := stringsReplace (stringsToLower o.TypeName) " " "-" (-1) ++ "-" ++ d.LinkID
  let opItem : tocItem :=
    { Level := 2, Title := o.TypeName, Link := opID, File := "", SubSections := [] }
  let h1 := { h with heap := heapAppendSub (h.heap ++ [opItem]) oc h.heap.length }
  let requests := o.ExampleRequests
  if requests.length > 0 then
    writeOperationSample requests
  let responses := o.ExampleResponses
  if responses.length > 0 then
    writeOperationSample responses
  .ok h1

/-- Loop over `c.Operations` in `WriteResource`. -/
def writeOperations [Unicode] (d : Definition) (oc : Addr) :
    List Operation → TexWriter → Except Fault TexWriter
  | [], h => .ok h
  | o :: os, h => do
    let h1 ← writeOperation d oc o h
    writeOperations d oc os h1

/-- Body of the loop over `r.Definition.OperationCategories` in
`WriteResource`. -/
def writeCategory [Unicode] (d : Definition) (c : OperationCategory) (h : TexWriter) :
    Except Fault TexWriter :=
  if c.Operations.length = 0 then .ok h
  else do
    let catID := stringsReplace (stringsToLower c.Name) " " "-" (-1) ++ "-" ++ d.LinkID
    let catID := "-strong-" ++ catID ++ "-strong-"
    let ocItem : tocItem :=
      { Level := 2, Title := c.Name, Link := catID, File := "", SubSections := [] }
    let oc := h.heap.length
    let h1 ← h.appendToCurrent ocItem
    writeOperations d oc c.Operations h1

/-- Loop over `r.Definition.OperationCategories` in `WriteResource`. -/
def writeCategories [Unicode] (d : Definition) :
    List OperationCategory → TexWriter → Except Fault TexWriter
  | [], h => .ok h
  | c :: cs, h => do
    let h1 ← writeCategory d c h
    writeCategories d cs h1

/-- Method `WriteResource`. -/
def WriteResource [Unicode] (env : Env) (r : Resource) (h : TexWriter) : Except Fault TexWriter :=
  match r.Definition with
  | none => .error .nilDereference
  | some d =>
    let fn := "_" ++ conceptFileName d ++ ".tex"
    let path := env.ConfigDir ++ "/includes/" ++ fn
    if env.createFails path = true then .error (.exit 1)
    else do
      let dvg := r.Name ++ " " ++ d.Version ++ " " ++ d.GroupDisplayName
      let linkID := getLink dvg
      writeSample d
      let h1 := h.appendSection
        { Level := 1, Title := dvg, Link := linkID, File := fn, SubSections := [] }
      if d.OperationCategories.length = 0 then .ok h1
      else writeCategories d d.OperationCategories h1

/-- Method `WriteOldVersionsOverview`. -/
def WriteOldVersionsOverview (env : Env) (h : TexWriter) : Except Fault TexWriter := do
  writeStaticFile env "_oldversions.tex"
  .ok (h.appendSection
    { Level := 1, Title := "OLD API VERSIONS", Link := "-strong-old-api-versions-strong-",
      File := "_oldversions.tex", SubSections := [] })

/-- Method `Finalize`, as far as it can stop the process: `generateDocument`
exits when `main.tex` cannot be created. -/
def Finalize (env : Env) (h : TexWriter) : Except Fault TexWriter :=
  if env.createFails (env.ConfigDir ++ "/build/main.tex") = true then .error (.exit 1)
  else .ok h

end TexWriter

/-! ## `writer.go`: the `DocWriter` interface and `GenerateFiles` -/

/-- Interface `DocWriter`: the method table of an implementation whose state
has type `W`. -/
structure DocWriter (W : Type) where
  Extension : W → String
  DefaultStaticContent : W → String → String
  WriteOverview : Env → W → Except Fault W
  WriteAPIGroupVersions : Env → GroupVersions → W → Except Fault W
  WriteResourceCategory : Env → String → String → W → Except Fault W
  WriteResource : Env → Resource → W → Except Fault W
  WriteDefinitionsOverview : Env → W → Except Fault W
  WriteDefinition : Env → Definition → W → Except Fault W
  WriteOldVersionsOverview : Env → W → Except Fault W
  Finalize : Env → W → Except Fault W

/-- Method table of `*MarkdownWriter`. -/
def MarkdownWriter.docWriter [Unicode] : DocWriter MarkdownWriter :=
  { Extension := fun _ => MarkdownWriter.Extension
    DefaultStaticContent := fun _ => MarkdownWriter.DefaultStaticContent
    WriteOverview := MarkdownWriter.WriteOverview
    WriteAPIGroupVersions := MarkdownWriter.WriteAPIGroupVersions
    WriteResourceCategory := MarkdownWriter.WriteResourceCategory
    WriteResource := MarkdownWriter.WriteResource
    WriteDefinitionsOverview := MarkdownWriter.WriteDefinitionsOverview
    WriteDefinition := MarkdownWriter.WriteDefinition
    WriteOldVersionsOverview := MarkdownWriter.WriteOldVersionsOverview
    Finalize := MarkdownWriter.Finalize }

/-- Method table of `*TexWriter`; `tex.go` declares no
`WriteAPIGroupVersions`. -/
def TexWriter.docWriter [Unicode] : DocWriter TexWriter :=
  { Extension := fun _ => TexWriter.Extension
    DefaultStaticContent := fun _ => TexWriter.DefaultStaticContent
    WriteOverview := TexWriter.WriteOverview
    WriteAPIGroupVersions := fun _ _ _ => .error (.missingMethod "WriteAPIGroupVersions")
    WriteResourceCategory := TexWriter.WriteResourceCategory
    WriteResource := TexWriter.WriteResource
    WriteDefinitionsOverview := TexWriter.WriteDefinitionsOverview
    WriteDefinition := TexWriter.WriteDefinition
    WriteOldVersionsOverview := TexWriter.WriteOldVersionsOverview
    Finalize := TexWriter.Finalize }

/-- The HTML writer, whose file is not part of the sources: its state, its
constructor `NewHTMLWriter` and its method table. -/
structure HTMLBackend where
  State : Type
  NewHTMLWriter : Config → String → String → State
  docWriter : DocWriter State

/-- A value of interface type `DocWriter`: one of the writers of the
package. -/
inductive Writer (H : Type) where
  | HTMLWriter (h : H)
  | MarkdownWriter (m : GenApidocs.MarkdownWriter)
  | TexWriter (t : GenApidocs.TexWriter)

/-- A method call on an interface value of type `DocWriter`. -/
def Writer.invoke [Unicode] {H : Type} (html : DocWriter H)
    (f : {W : Type} → DocWriter W → W → Except Fault W) : Writer H → Except Fault (Writer H)
  | .HTMLWriter h => (f html h).map Writer.HTMLWriter
  | .MarkdownWriter m => (f MarkdownWriter.docWriter m).map Writer.MarkdownWriter
  | .TexWriter t => (f TexWriter.docWriter t).map Writer.TexWriter

/-- Method table of an interface value of type `DocWriter`. -/
def Writer.docWriter [Unicode] {H : Type} (html : DocWriter H) : DocWriter (Writer H) :=
  { Extension := fun w =>
      match w with
      | .HTMLWriter h => html.Extension h
      | .MarkdownWriter m => MarkdownWriter.docWriter.Extension m
      | .TexWriter t => TexWriter.docWriter.Extension t
    DefaultStaticContent := fun w title =>
      match w with
      | .HTMLWriter h => html.DefaultStaticContent h title
      | .MarkdownWriter m => MarkdownWriter.docWriter.DefaultStaticContent m title
      | .TexWriter t => TexWriter.docWriter.DefaultStaticContent t title
    WriteOverview := fun env => Writer.invoke html (fun dw => dw.WriteOverview env)
    WriteAPIGroupVersions := fun env gvs =>
      Writer.invoke html (fun dw => dw.WriteAPIGroupVersions env gvs)
    WriteResourceCategory := fun env name file =>
      Writer.invoke html (fun dw => dw.WriteResourceCategory env name file)
    WriteResource := fun env r => Writer.invoke html (fun dw => dw.WriteResource env r)
    WriteDefinitionsOverview := fun env =>
      Writer.invoke html (fun dw => dw.WriteDefinitionsOverview env)
    WriteDefinition := fun env d => Writer.invoke html (fun dw => dw.WriteDefinition env d)
    WriteOldVersionsOverview := fun env =>
      Writer.invoke html (fun dw => dw.WriteOldVersionsOverview env)
    Finalize := fun env => Writer.invoke html (fun dw => dw.Finalize env) }

/-- State of a run of `GenerateFiles`: the writer and the lines printed to
standard output. -/
structure Run (W : Type) where
  writer : W
  stdout : List String
deriving DecidableEq, Repr

/-- A call of a writer method from `GenerateFiles`. -/
def Run.call {W : Type} (f : W → Except Fault W) (s : Run W) : Except Fault (Run W) := do
  let w ← f s.writer
  .ok { s with writer := w }

/-- Loop over `c.Resources` in `GenerateFiles` (lines 81-87). -/
def writeResources {W : Type} (dw : DocWriter W) (env : Env) :
    List Resource → Run W → Except Fault (Run W)
  | [], s => .ok s
  | r :: rs, s =>
    match r.Definition with
    | none =>
      writeResources dw env rs
        { s with stdout := s.stdout ++
            ["Warning: Missing definition for item in TOC " ++ r.Name ++ "\n"] }
    | some _ => do
      let s1 ← s.call (dw.WriteResource env r)
      writeResources dw env rs s1

/-- Loop over `config.ResourceCategories` in `GenerateFiles` (lines 79-88). -/
def writeResourceCategories {W : Type} (dw : DocWriter W) (env : Env) :
    List ResourceCategory → Run W → Except Fault (Run W)
  | [], s => .ok s
  | c :: cs, s => do
    let s1 ← s.call (dw.WriteResourceCategory env c.Name c.Include)
    let s2 ← writeResources dw env c.Resources s1
    writeResourceCategories dw env cs s2

/-- The slice `definitions` of `GenerateFiles` after `sort.Sort` (lines 92-100). -/
def sortedDefinitions (env : Env) (config : Config) : List Definition :=
  env.SortDefinitionsByName
    (config.Definitions.All.filter (fun d => !(d.InToc || d.IsInlined || d.IsOldVersion)))

/-- Loop over `definitions` in `GenerateFiles` (lines 101-103). -/
def writeDefinitions {W : Type} (dw : DocWriter W) (env : Env) :
    List Definition → Run W → Except Fault (Run W)
  | [], s => .ok s
  | d :: ds, s => do
    let s1 ← s.call (dw.WriteDefinition env d)
    writeDefinitions dw env ds s1

/-- Lines 90-103 of `GenerateFiles`: the definitions pass. -/
def definitionsPass {W : Type} (dw : DocWriter W) (env : Env) (config : Config) (s : Run W) :
    Except Fault (Run W) := do
  let s1 ← s.call (dw.WriteDefinitionsOverview env)
  writeDefinitions dw env (sortedDefinitions env config) s1

/-- The slice `oldversions` of `GenerateFiles` after `sort.Sort` (lines 106-113). -/
def sortedOldVersions (env : Env) (config : Config) : List Definition :=
  env.SortDefinitionsByName (config.Definitions.All.filter (fun d => d.IsOldVersion))

/-- Loop over `oldversions` in `GenerateFiles` (lines 114-121). -/
def writeOldVersions {W : Type} (dw : DocWriter W) (env : Env) :
    List Definition → Run W → Except Fault (Run W)
  | [], s => .ok s
  | d :: ds, s =>
    if d.IsInlined = true then writeOldVersions dw env ds s
    else do
      let r : Resource :=
        { Definition := some d, Name := d.Name, DescriptionWarning := "", DescriptionNote := "" }
      let s1 ← s.call (dw.WriteResource env r)
      writeOldVersions dw env ds s1

/-- Lines 105-121 of `GenerateFiles`: the old-versions pass. -/
def oldVersionsPass {W : Type} (dw : DocWriter W) (env : Env) (config : Config) (s : Run W) :
    Except Fault (Run W) := do
  let s1 ← s.call (dw.WriteOldVersionsOverview env)
  writeOldVersions dw env (sortedOldVersions env config) s1

/-- Lines 73-123 of `GenerateFiles`: the calls on `writer`. -/
def generate {W : Type} (dw : DocWriter W) (env : Env) (config : Config) (s : Run W) :
    Except Fault (Run W) := do
  let s1 ← s.call (dw.WriteOverview env)
  let s2 ← s1.call (dw.WriteAPIGroupVersions env config.Definitions.GroupVersions)
  let s3 ← writeResourceCategories dw env config.ResourceCategories s2
  let s4 ← definitionsPass dw env config s3
  let s5 ← oldVersionsPass dw env config s4
  s5.call (dw.Finalize env)

/-- The string `copyright` of `GenerateFiles` (lines 52-60). -/
def GenerateFiles.copyright (env : Env) (format : String) : String :=
  if format = "html" then
    "<a href=\"https://github.com/kubernetes/kubernetes\">Copyright 2016-" ++ env.year ++
      " The Kubernetes Authors.</a>"
  else
    "[Copyright 2016-" ++ env.year ++
      " The Kubernetes Authors](https://github.com/kubernetes/kubernetes)"

/-- The string `title` of `GenerateFiles` (lines 61-66). -/
def GenerateFiles.title (env : Env) : String :=
  if env.BuildOps = false then "Kubernetes Resource Reference Docs"
  else "Kubernetes API Reference Docs"

/-- The value `writer` of `GenerateFiles` (lines 67-72). -/
def GenerateFiles.writer (html : HTMLBackend) (env : Env) (config : Config) (format : String) :
    Writer html.State :=
  if format = "html" then
    Writer.HTMLWriter
      (html.NewHTMLWriter config (GenerateFiles.copyright env format) (GenerateFiles.title env))
  else
    Writer.MarkdownWriter
      (NewMarkdownWriter config (GenerateFiles.copyright env format) (GenerateFiles.title env))

/-- Function `GenerateFiles`; `config` is the result of `api.NewConfig()`. -/
def GenerateFiles [Unicode] (html : HTMLBackend) (env : Env) (config : Config) (format : String) :
    Except Fault (Run (Writer html.State)) :=
  generate (Writer.docWriter html.docWriter) env config
    { writer := GenerateFiles.writer html env config format, stdout := env.PrintInfo config }

/-! ## `main.go` -/

/-- What `main` does: it calls `GenerateFiles(format)`, with the given
result, or it panics. -/
inductive MainResult (R : Type) where
  | generated (format : String) (result : R)
  | panicked (msg : String)

/-- Function `main`; `flFormat` is the value of the flag `-f`. -/
def main [Unicode] (html : HTMLBackend) (env : Env) (config : Config) (flFormat : String) :
    MainResult (Except Fault (Run (Writer html.State))) :=
  if flFormat = "html" ∨ flFormat = "markdown" then
    .generated flFormat (GenerateFiles html env config flFormat)
  else
    .panicked ("unsupported format '" ++ flFormat ++ "' specified")

/-! ## The calls a run makes -/

/-- A call of a `DocWriter` method with its arguments. -/
inductive Call where
  | WriteOverview
  | WriteAPIGroupVersions (gvs : GroupVersions)
  | WriteResourceCategory (name file : String)
  | WriteResource (r : Resource)
  | WriteDefinitionsOverview
  | WriteDefinition (d : Definition)
  | WriteOldVersionsOverview
  | Finalize
deriving DecidableEq, Repr

/-- A `DocWriter` that records the calls it receives, in order. -/
def recorder : DocWriter (List Call) :=
  { Extension := fun _ => ""
    DefaultStaticContent := fun _ _ => ""
    WriteOverview := fun _ log => .ok (log ++ [Call.WriteOverview])
    WriteAPIGroupVersions := fun _ gvs log => .ok (log ++ [Call.WriteAPIGroupVersions gvs])
    WriteResourceCategory := fun _ name file log =>
      .ok (log ++ [Call.WriteResourceCategory name file])
    WriteResource := fun _ r log => .ok (log ++ [Call.WriteResource r])
    WriteDefinitionsOverview := fun _ log => .ok (log ++ [Call.WriteDefinitionsOverview])
    WriteDefinition := fun _ d log => .ok (log ++ [Call.WriteDefinition d])
    WriteOldVersionsOverview := fun _ log => .ok (log ++ [Call.WriteOldVersionsOverview])
    Finalize := fun _ log => .ok (log ++ [Call.Finalize]) }

/-- The method of `dw` a call names, applied to its arguments. -/
def Call.run {W : Type} (dw : DocWriter W) (env : Env) : Call → W → Except Fault W
  | .WriteOverview => dw.WriteOverview env
  | .WriteAPIGroupVersions gvs => dw.WriteAPIGroupVersions env gvs
  | .WriteResourceCategory name file => dw.WriteResourceCategory env name file
  | .WriteResource r => dw.WriteResource env r
  | .WriteDefinitionsOverview => dw.WriteDefinitionsOverview env
  | .WriteDefinition d => dw.WriteDefinition env d
  | .WriteOldVersionsOverview => dw.WriteOldVersionsOverview env
  | .Finalize => dw.Finalize env

/-! ## Reading the table of contents -/

/-- Title of the item a pointer designates. -/
def itemTitle (heap : List TOCItem) (a : Addr) : Option String :=
  (heap[a]?).map (fun it => it.Title)

/-- The slice `SubSections` of the item a pointer designates. -/
def itemSubs (heap : List TOCItem) (a : Addr) : List Addr :=
  match heap[a]? with
  | some it => it.SubSections
  | none => []

/-- An item with further pointers appended to its `SubSections`. -/
def TOCItem.addSubs (it : TOCItem) (new : List Addr) : TOCItem :=
  { it with SubSections := it.SubSections ++ new }

/-- The heap `h2` comes from `h1` by allocating items and by appending the
pointers `new`, all of them to new items, to the `SubSections` of the item at
`p`; every other item of `h1` is as it was. -/
structure HeapGrows (h1 h2 : List TOCItem) (p : Addr) (new : List Addr) : Prop where
  le : h1.length ≤ h2.length
  frame : ∀ x, x < h1.length → x ≠ p → h2[x]? = h1[x]?
  at_p : h2[p]? = (h1[p]?).map (fun it => it.addSubs new)
  fresh : ∀ b ∈ new, h1.length ≤ b ∧ b < h2.length

/-! ## Conditions and expected results -/

/-- The three index expressions of `writeOperationSample` succeed on the
example: `Tab` has a second piece between colons, so has `Type`, and that
piece of `Type` has a second piece between underscores. -/
def ExampleText.indexable (e : ExampleText) : Bool :=
  match (stringsSplit e.Tab ':')[1]?, (stringsSplit e.Type_ ':')[1]? with
  | some _, some lType => ((stringsSplit lType '_')[1]?).isSome
  | _, _ => false

/-- Every example request and response of every operation of the definition
is indexable. -/
def Definition.examplesIndexable (d : Definition) : Bool :=
  d.OperationCategories.all (fun c => c.Operations.all (fun o =>
    o.ExampleRequests.all ExampleText.indexable && o.ExampleResponses.all ExampleText.indexable))

/-- The function `writeStaticFile` returns for the location: the file of the
sections directory exists, or it does not and the file of the includes
directory can be created. -/
def staticFileWritable (env : Env) (location : String) : Bool :=
  match env.stat (env.Join env.SectionsDir location) with
  | .found => true
  | .otherError => false
  | .notExist => !env.createFails (env.Join env.IncludesDir location)

/-- Conditions on the environment and the arguments under which a
section-level operation of the Markdown writer returns. -/
def MarkdownWriter.sectionCallReturns [Unicode] (env : Env) : Call → Bool
  | .WriteOverview => true
  | .WriteAPIGroupVersions _ => !env.createFails (env.Join env.BuildDir "group_versions.md")
  | .WriteResourceCategory _ _ => true
  | .WriteResource r =>
    match r.Definition with
    | none => false
    | some d =>
      !env.createFails (env.Join (env.Join env.BuildDir "resources") (MarkdownWriter.fileName d))
        && d.examplesIndexable
  | .WriteDefinitionsOverview => staticFileWritable env "definitions.md"
  | .WriteOldVersionsOverview => staticFileWritable env "oldversions.md"
  | .WriteDefinition _ => false
  | .Finalize => false

/-- The category has at least one operation. -/
def OperationCategory.hasOperations (c : OperationCategory) : Bool :=
  decide (c.Operations.length ≠ 0)

/-- Two writer states differ in their allocated items at most. -/
def MarkdownWriter.SameButHeap (m m' : MarkdownWriter) : Prop :=
  m'.Config = m.Config ∧ m'.TOC = m.TOC ∧ m'.CurrentSection = m.CurrentSection ∧
    m'.IndexFile = m.IndexFile

/-- What the items at the pointers `new` are after the loop over the operation
categories: one per category with operations, each with one sub-section per
operation. -/
def MarkdownWriter.CategoryItems [Unicode] (d : Definition) (heap : List TOCItem) :
    List Nat → List OperationCategory → Prop :=
  List.Forall₂ (fun b c => ∃ subs, heap[b]? = some ((MarkdownWriter.OCItem d c).addSubs subs) ∧
    subs.map (fun x => heap[x]?) = c.Operations.map (fun o => some (MarkdownWriter.OPItem d o)))

/-- Sequential application of calls to a writer, up to the first failure. -/
def Call.runAll {W : Type} (dw : DocWriter W) (env : Env) :
    List Call → Run W → Except Fault (Run W)
  | [], s => .ok s
  | c :: cs, s => do
    let s1 ← s.call (c.run dw env)
    Call.runAll dw env cs s1

/-- Lines appended to standard output. -/
def Run.print {W : Type} (lines : List String) (s : Run W) : Run W :=
  { s with stdout := s.stdout ++ lines }

/-- The warnings for the resources of a category that have no definition. -/
def missingWarnings (rs : List Resource) : List String :=
  (rs.filter (fun r => r.Definition.isNone)).map
    (fun r => "Warning: Missing definition for item in TOC " ++ r.Name ++ "\n")

/-- The calls expected of the resource-category pass: for every category one
`WriteResourceCategory`, then one `WriteResource` per resource with a
definition, in order. -/
def resourceCategoryCalls : List ResourceCategory → List Call
  | [] => []
  | c :: cs =>
    Call.WriteResourceCategory c.Name c.Include ::
      ((c.Resources.filter (fun r => r.Definition.isSome)).map Call.WriteResource ++
        resourceCategoryCalls cs)

/-- The warnings expected of the resource-category pass. -/
def resourceCategoryWarnings : List ResourceCategory → List String
  | [] => []
  | c :: cs => missingWarnings c.Resources ++ resourceCategoryWarnings cs

/-- The resource the old-versions pass builds from a definition. -/
def oldVersionResource (d : Definition) : Resource :=
  { Definition := some d, Name := d.Name, DescriptionWarning := "", DescriptionNote := "" }

/-- The call is one of the section-level operations. -/
def Call.isSectionLevel : Call → Bool
  | .WriteOverview => true
  | .WriteAPIGroupVersions _ => true
  | .WriteResourceCategory _ _ => true
  | .WriteResource _ => true
  | .WriteDefinitionsOverview => true
  | .WriteOldVersionsOverview => true
  | .WriteDefinition _ => false
  | .Finalize => false

/-- An HTML anchor to the Kubernetes repository. -/
def isHTMLAnchor (s : String) : Bool :=
  "<a href=\"https://github.com/kubernetes/kubernetes\">".data.isPrefixOf s.data &&
    "</a>".data.reverse.isPrefixOf s.data.reverse

/-- A Markdown link to the Kubernetes repository. -/
def isMarkdownLink (s : String) : Bool :=
  "[".data.isPrefixOf s.data &&
    "](https://github.com/kubernetes/kubernetes)".data.reverse.isPrefixOf s.data.reverse

/-! ## Sample inputs -/

/-- An HTML writer whose state is the list of the calls it received. -/
def sampleHTML : HTMLBackend :=
  { State := List Call
    NewHTMLWriter := fun _ _ _ => []
    docWriter := recorder }

/-- Lexicographic order on character lists, by code point. -/
def charsLe : List Char → List Char → Bool
  | [], _ => true
  | _ :: _, [] => false
  | a :: as, b :: bs => a.toNat < b.toNat || (a.toNat == b.toNat && charsLe as bs)

/-- An environment in which every file can be created, the static sections
exist, and definitions are sorted by insertion on their names. -/
def sampleEnv : Env :=
  { BuildDir := "build"
    SectionsDir := "sections"
    IncludesDir := "includes"
    ConfigDir := "config"
    BuildOps := true
    Join := fun a b => a ++ "/" ++ b
    stat := fun _ => .found
    createFails := fun _ => false
    readFile := fun _ => some "Release RELEASE, generated TIMESTAMP"
    year := "2020"
    timestamp := "2020-01-01 00:00:00 (UTC)"
    SortDefinitionsByName := fun l => l.insertionSort (fun a b => charsLe a.Name.data b.Name.data = true)
    PrintInfo := fun _ => [] }

/-- An example in the documented shape. -/
def sampleExample : ExampleText :=
  { Tab := "bdocs-tab:kubectl", Type_ := "bdocs-tab:kubectl_shell", Text := "kubectl get pods",
    Msg := "Command" }

/-- A definition with two operation categories with operations and one
without. -/
def sampleDefinition : Definition :=
  { Name := "Pod", Version := "v1", Group := "core", GroupDisplayName := "Core",
    LinkID := "pod-v1-core", InToc := true, IsInlined := false, IsOldVersion := false,
    SampleSample := "", Samples := [],
    OperationCategories :=
      [ { Name := "Write Operations",
          Operations := [ { TypeName := "Create", ExampleRequests := [sampleExample],
                            ExampleResponses := [] },
                          { TypeName := "Patch", ExampleRequests := [], ExampleResponses := [] } ] },
        { Name := "Status Operations", Operations := [] },
        { Name := "Read Operations",
          Operations := [ { TypeName := "Read", ExampleRequests := [],
                            ExampleResponses := [] } ] } ] }

/-- A definition outside the table of contents. -/
def sampleOther : Definition :=
  { sampleDefinition with
    Name := "Binding"
    InToc := false
    OperationCategories := [] }

/-- An old version that is also a top-level resource of the table of
contents. -/
def sampleOld : Definition :=
  { sampleDefinition with
    Name := "Job"
    Version := "v1beta1"
    InToc := true
    IsOldVersion := true
    OperationCategories := [] }

/-- A definition whose name has 51 dots. -/
def sampleDots : Definition :=
  { sampleDefinition with
    Name := "..................................................."
    InToc := false
    OperationCategories := [] }

/-- A resource of the table of contents. -/
def sampleResource : Resource :=
  { Name := "Pod", Definition := some sampleDefinition, DescriptionWarning := "",
    DescriptionNote := "" }

/-- A configuration with one category of two resources, one without
definition. -/
def sampleConfig : Config :=
  { SpecVersion := "v1.20.3"
    ResourceCategories :=
      [ { Name := "Workloads", Include := "workloads",
          Resources :=
            [ sampleResource,
              { Name := "Ghost", Definition := none, DescriptionWarning := "",
                DescriptionNote := "" } ] } ]
    Definitions := { All := [sampleDefinition, sampleOther, sampleOld], GroupVersions := [] } }

/-- A Markdown writer after `WriteOverview`. -/
def sampleWriter : MarkdownWriter :=
  { Config := sampleConfig
    TOC := { Title := "t", Copyright := "c", Sections := [0] }
    CurrentSection := some 0
    heap := [{ Level := 1, Title := "Overview", Link := "overview",
               File := "sections/overview.md", SubSections := [] }]
    IndexFile := none }

/-! ## Conditions and expected results: `Finalize` and `writeOperationSample` -/

/-- The index template `Finalize` starts from, in bytes: the content of
`index.md` in the sections directory, the empty string when it cannot be read. -/
def indexTemplate (env : Env) : List Nat :=
  match env.readFile (env.Join env.SectionsDir "index.md") with
  | some data => utf8 data
  | none => []

/-- The content expected in `_index.md`, in bytes: the index template with
every "TIMESTAMP" replaced by the formatted time, then every "RELEASE" by the
release string. -/
def expectedIndex (env : Env) (release : List Nat) : List Nat :=
  bytesReplaceAll
    (bytesReplaceAll (indexTemplate env) (utf8 "TIMESTAMP") (utf8 env.timestamp) (by decide))
    (utf8 "RELEASE") release (by decide)

/-- The characters before the last '.' of a text; nothing when it has no '.'. -/
def beforeLastDot : List Char → List Char
  | [] => []
  | c :: cs => if '.' ∈ cs then c :: beforeLastDot cs else []

/-- The release string read character by character: the version without its
first character and without its last '.' and everything after it. -/
def releaseByCharacters (version : String) : String :=
  ⟨(beforeLastDot version.data).drop 1⟩

/-- The example has the documented shape: `Tab` is "pre:kind" and `Type` is
"pre:kind_lang", where the pieces are free of the separator that ends them or
follows them. -/
structure ExampleText.HasShape (e : ExampleText) (pre kind lang : String) : Prop where
  tab : e.Tab = pre ++ ":" ++ kind
  type : e.Type_ = pre ++ ":" ++ kind ++ "_" ++ lang
  pre_colon : ':' ∉ pre.data
  kind_colon : ':' ∉ kind.data
  kind_underscore : '_' ∉ kind.data
  lang_colon : ':' ∉ lang.data
  lang_underscore : '_' ∉ lang.data

/-- The text expected of `writeOperationSample`: for each example, in order,
the line "**kind request example**" ("response" when `req` is false), an empty
line, and a fenced code block of language `lang` with the text of the example;
`shapes` gives the pieces (pre, kind, lang) of each example. -/
def expectedSampleText (req : Bool) :
    List ExampleText → List (String × String × String) → String
  | e :: es, (_, kind, lang) :: shapes =>
    "**" ++ kind ++ (if req = true then " request" else " response") ++ " example**\n\n" ++
      "```" ++ lang ++ "\n" ++ e.Text ++ "\n```\n\n" ++ expectedSampleText req es shapes
  | _, _ => ""

/-- A Markdown writer whose configuration has the given version. -/
def sampleWriterOfVersion (v : String) : MarkdownWriter :=
  { sampleWriter with Config := { sampleConfig with SpecVersion := v } }

/-! ## Conditions and expected results: Markdown and TeX side by side -/

/-- Level and sub-section pointers of an item: what the shape of the table of
contents depends on. -/
def TOCItem.skeleton (it : TOCItem) : Int × List Addr := (it.Level, it.SubSections)

/-- Shape of a table-of-contents tree: the level of an item, the number of its
sub-sections and, above the depth where the reading stops, their shapes. -/
inductive Shape where
  | node (level : Int) (count : Nat) (subs : List (Option Shape))

/-- Shape of the tree below a pointer, read down to the given depth; a pointer
to no item has none. -/
def shapeAt (heap : List TOCItem) : Nat → Addr → Option Shape
  | 0, a => (heap[a]?).map (fun it => Shape.node it.Level it.SubSections.length [])
  | depth + 1, a =>
    (heap[a]?).map (fun it =>
      Shape.node it.Level it.SubSections.length (it.SubSections.map (shapeAt heap depth)))

/-- A Markdown writer and a TeX writer are in step: same section pointers, same
current section, and items of the same level and sub-section pointers at every
address. -/
def InSync (m : MarkdownWriter) (t : TexWriter) : Prop :=
  m.TOC.Sections = t.toc.Sections ∧ m.CurrentSection = t.CurrentSection ∧
    m.heap.map TOCItem.skeleton = t.heap.map TOCItem.skeleton

/-- The call is one of the operations both writers declare and that build the
table of contents. -/
def Call.isShared : Call → Bool
  | .WriteOverview => true
  | .WriteResourceCategory _ _ => true
  | .WriteResource _ => true
  | .WriteDefinitionsOverview => true
  | .WriteDefinition _ => true
  | .WriteOldVersionsOverview => true
  | .WriteAPIGroupVersions _ => false
  | .Finalize => false

/-- Sequential application of calls to a writer state, up to the first
failure. -/
def Call.applyAll {W : Type} (dw : DocWriter W) (env : Env) : List Call → W → Except Fault W
  | [], w => .ok w
  | c :: cs, w => do
    let w1 ← c.run dw env w
    Call.applyAll dw env cs w1

/-- Conditions on the environment and the arguments under which a shared
operation of the Markdown writer returns, given a current section. -/
def MarkdownWriter.sharedCallReturns [Unicode] (env : Env) : Call → Bool
  | .WriteDefinition d =>
    !env.createFails (env.Join (env.Join env.BuildDir "definitions") (MarkdownWriter.fileName d))
  | c => MarkdownWriter.sectionCallReturns env c

/-- Conditions on the environment and the arguments under which a shared
operation of the TeX writer returns, given a current section. -/
def TexWriter.sharedCallReturns [Unicode] (env : Env) : Call → Bool
  | .WriteOverview => staticFileWritable env "_overview.tex"
  | .WriteResourceCategory _ file => staticFileWritable env (file ++ ".tex")
  | .WriteResource r =>
    match r.Definition with
    | none => false
    | some d =>
      !env.createFails (env.ConfigDir ++ "/includes/" ++ ("_" ++ conceptFileName d ++ ".tex"))
        && (decide (d.SampleSample = "") || d.Samples.all ExampleText.indexable)
        && d.examplesIndexable
  | .WriteDefinitionsOverview => staticFileWritable env "_definitions.tex"
  | .WriteDefinition d =>
    !env.createFails (env.ConfigDir ++ "/includes/" ++ ("_" ++ definitionFileName d ++ ".tex"))
  | .WriteOldVersionsOverview => staticFileWritable env "_oldversions.tex"
  | .WriteAPIGroupVersions _ => false
  | .Finalize => false

/-! ## Conditions and expected results: the definitions pass -/

/-- Every pointer of an item designates an item allocated after it. -/
def HeapForward (heap : List TOCItem) : Prop :=
  ∀ x it, heap[x]? = some it → ∀ b ∈ it.SubSections, x < b ∧ b < heap.length

/-- The pointers of a Markdown writer are valid: the current section
designates an allocated item and every item points forward. -/
def MarkdownWriter.WellFormed (m : MarkdownWriter) : Prop :=
  HeapForward m.heap ∧ ∀ a, m.CurrentSection = some a → a < m.heap.length

/-- The calls of `GenerateFiles` before the definitions pass (lines 73-88). -/
def callsBeforeDefinitions (config : Config) : List Call :=
  Call.WriteOverview :: Call.WriteAPIGroupVersions config.Definitions.GroupVersions ::
    resourceCategoryCalls config.ResourceCategories

/-- The calls of `GenerateFiles` after the definitions pass (lines 105-123). -/
def callsAfterDefinitions (env : Env) (config : Config) : List Call :=
  Call.WriteOldVersionsOverview ::
    (((sortedOldVersions env config).filter (fun d => !d.IsInlined)).map
      (fun d => Call.WriteResource (oldVersionResource d)) ++ [Call.Finalize])

/-- The calls of `GenerateFiles` on its writer, in order. -/
def generateCalls (env : Env) (config : Config) : List Call :=
  callsBeforeDefinitions config ++
    (Call.WriteDefinitionsOverview :: (sortedDefinitions env config).map Call.WriteDefinition ++
      callsAfterDefinitions env config)

/-- The calls of the sample run of both writers. -/
def sampleCalls : List Call :=
  [Call.WriteResourceCategory "Workloads" "workloads", Call.WriteResource sampleResource,
   Call.WriteDefinitionsOverview, Call.WriteDefinition sampleOther,
   Call.WriteOldVersionsOverview]

/-- The case mappings of the sample runs: they change the case of the ASCII
letters, as `unicode.ToLower` and `unicode.ToUpper` do on the ASCII characters,
the only ones in the sample inputs. -/
instance sampleUnicode : Unicode :=
  { ToLower := Char.toLower
    ToUpper := Char.toUpper }

/-! ## Lemmas on the heap of items -/

theorem length_heapAppendSub (h : List TOCItem) (p q : Nat) :
    (heapAppendSub h p q).length = h.length := by
  unfold heapAppendSub
  cases h[p]? <;> simp

theorem getElem?_heapAppendSub (h : List TOCItem) (p q x : Nat) :
    (heapAppendSub h p q)[x]? =
      if x = p then (h[p]?).map (fun it => it.addSubs [q]) else h[x]? := by
  unfold heapAppendSub
  cases hp : h[p]? with
  | none =>
    by_cases hx : x = p
    · subst hx; simp [hp]
    · simp [hx]
  | some it =>
    by_cases hx : x = p
    · subst hx
      have hlt : x < h.length := by
        rcases List.getElem?_eq_some.mp hp with ⟨hlt, _⟩
        exact hlt
      simp [List.getElem?_set, hlt, TOCItem.addSubs]
    · have hx' : p ≠ x := fun e => hx e.symm
      simp [hx, List.getElem?_set_ne hx']

theorem addSubs_addSubs (it : TOCItem) (a b : List Addr) :
    (it.addSubs a).addSubs b = it.addSubs (a ++ b) := by
  simp [TOCItem.addSubs, List.append_assoc]

theorem addSubs_nil (it : TOCItem) : it.addSubs [] = it := by
  simp [TOCItem.addSubs]

theorem heapGrows_refl (h : List TOCItem) (p : Nat) : HeapGrows h h p [] where
  le := Nat.le_refl _
  frame := fun _ _ _ => rfl
  at_p := by
    cases h[p]? <;> simp [addSubs_nil]
  fresh := by simp

theorem heapGrows_trans {h1 h2 h3 : List TOCItem} {p : Nat} {n1 n2 : List Addr}
    (a : HeapGrows h1 h2 p n1) (b : HeapGrows h2 h3 p n2) : HeapGrows h1 h3 p (n1 ++ n2) where
  le := Nat.le_trans a.le b.le
  frame := fun x hx hne => by
    rw [b.frame x (Nat.lt_of_lt_of_le hx a.le) hne, a.frame x hx hne]
  at_p := by
    rw [b.at_p, a.at_p]
    cases h1[p]? <;> simp [addSubs_addSubs]
  fresh := fun x hx => by
    rcases List.mem_append.mp hx with hx | hx
    · exact ⟨(a.fresh x hx).1, Nat.lt_of_lt_of_le (a.fresh x hx).2 b.le⟩
    · exact ⟨Nat.le_trans a.le (b.fresh x hx).1, (b.fresh x hx).2⟩

/-- Growth at a pointer `q` allocated after `h1` leaves growth at `p` as it is. -/
theorem heapGrows_other {h1 h2 h3 : List TOCItem} {p q : Nat} {n1 n2 : List Addr}
    (a : HeapGrows h1 h2 p n1) (b : HeapGrows h2 h3 q n2)
    (hp : p < h1.length) (hq : h1.length ≤ q) : HeapGrows h1 h3 p n1 where
  le := Nat.le_trans a.le b.le
  frame := fun x hx hne => by
    have hxq : x ≠ q := by omega
    rw [b.frame x (Nat.lt_of_lt_of_le hx a.le) hxq, a.frame x hx hne]
  at_p := by
    have hne : p ≠ q := by omega
    rw [b.frame p (Nat.lt_of_lt_of_le hp a.le) hne, a.at_p]
  fresh := fun x hx => ⟨(a.fresh x hx).1, Nat.lt_of_lt_of_le (a.fresh x hx).2 b.le⟩

theorem heapGrows_alloc (h : List TOCItem) (item : TOCItem) (p : Nat) (hp : p < h.length) :
    HeapGrows h (heapAppendSub (h ++ [item]) p h.length) p [h.length] where
  le := by simp [length_heapAppendSub]
  frame := fun x hx hne => by
    rw [getElem?_heapAppendSub, if_neg hne, List.getElem?_append_left hx]
  at_p := by
    rw [getElem?_heapAppendSub, if_pos rfl, List.getElem?_append_left hp]
  fresh := by
    simp [length_heapAppendSub]

theorem getElem?_alloc (h : List TOCItem) (item : TOCItem) (p : Nat) (hp : p < h.length) :
    (heapAppendSub (h ++ [item]) p h.length)[h.length]? = some item := by
  have hne : h.length ≠ p := by omega
  rw [getElem?_heapAppendSub, if_neg hne, List.getElem?_concat_length]

/-! ## Lemmas on the Markdown writer -/

theorem indexSlice_ok {α : Type} (xs : List α) (i : Nat) (x : α) (h : xs[i]? = some x) :
    indexSlice xs i = .ok x := by
  simp [indexSlice, h]

theorem writeOperationSample_returns (req : Bool) (op : String) (es : List ExampleText)
    (h : ∀ e ∈ es, e.indexable = true) :
    ∃ out, MarkdownWriter.writeOperationSample req op es = .ok out := by
  induction es with
  | nil => exact ⟨"", rfl⟩
  | cons e es ih =>
    have he := h e (List.mem_cons_self _ _)
    obtain ⟨rest, hrest⟩ := ih (fun x hx => h x (List.mem_cons_of_mem _ hx))
    unfold ExampleText.indexable at he
    cases h1 : (stringsSplit e.Tab ':')[1]? with
    | none => simp [h1] at he
    | some eType =>
      cases h2 : (stringsSplit e.Type_ ':')[1]? with
      | none => simp [h1, h2] at he
      | some lType =>
        cases h3 : (stringsSplit lType '_')[1]? with
        | none => simp [h1, h2, h3] at he
        | some lang =>
          simp only [MarkdownWriter.writeOperationSample, indexSlice_ok _ _ _ h1,
            indexSlice_ok _ _ _ h2, indexSlice_ok _ _ _ h3, hrest, bind, Except.bind]
          exact ⟨_, rfl⟩

namespace MarkdownWriter

theorem sameButHeap_refl (m : MarkdownWriter) : SameButHeap m m := ⟨rfl, rfl, rfl, rfl⟩

theorem sameButHeap_trans {a b c : MarkdownWriter} (h1 : SameButHeap a b) (h2 : SameButHeap b c) :
    SameButHeap a c :=
  ⟨h2.1.trans h1.1, h2.2.1.trans h1.2.1, h2.2.2.1.trans h1.2.2.1, h2.2.2.2.trans h1.2.2.2⟩

theorem writeOperation_ok [Unicode] (d : Definition) (oc : Nat) (o : Operation) (m m' : MarkdownWriter)
    (h : writeOperation d oc o m = .ok m') :
    m' = { m with heap := heapAppendSub (m.heap ++ [OPItem d o]) oc m.heap.length } := by
  unfold writeOperation at h
  simp only [bind, Except.bind, pure, Except.pure] at h
  split at h
  · split at h
    · exact absurd h (by simp)
    · split at h
      · split at h
        · exact absurd h (by simp)
        · exact (Except.ok.inj h).symm
      · exact (Except.ok.inj h).symm
  · split at h
    · split at h
      · exact absurd h (by simp)
      · exact (Except.ok.inj h).symm
    · exact (Except.ok.inj h).symm

theorem writeOperation_returns [Unicode] (d : Definition) (oc : Nat) (o : Operation) (m : MarkdownWriter)
    (h1 : ∀ e ∈ o.ExampleRequests, e.indexable = true)
    (h2 : ∀ e ∈ o.ExampleResponses, e.indexable = true) :
    ∃ m', writeOperation d oc o m = .ok m' := by
  obtain ⟨r1, hr1⟩ := writeOperationSample_returns true (opID d o) _ h1
  obtain ⟨r2, hr2⟩ := writeOperationSample_returns false (opID d o) _ h2
  unfold writeOperation
  simp only [bind, Except.bind, pure, Except.pure, hr1, hr2]
  split <;> split <;> exact ⟨_, rfl⟩

end MarkdownWriter

namespace MarkdownWriter

theorem writeOperations_same [Unicode] (d : Definition) (oc : Nat) (ops : List Operation)
    (m m' : MarkdownWriter) (h : writeOperations d oc ops m = .ok m') : SameButHeap m m' := by
  induction ops generalizing m with
  | nil =>
    have e : m = m' := by simpa [writeOperations] using h
    rw [← e]
    exact sameButHeap_refl m
  | cons o os ih =>
    simp only [writeOperations, bind, Except.bind] at h
    cases h1 : writeOperation d oc o m with
    | error e => simp [h1] at h
    | ok m1 =>
      simp only [h1] at h
      have e1 := writeOperation_ok d oc o m m1 h1
      have s1 : SameButHeap m m1 := by subst e1; exact ⟨rfl, rfl, rfl, rfl⟩
      exact sameButHeap_trans s1 (ih m1 h)

theorem writeOperations_heap [Unicode] (d : Definition) (oc : Nat) (ops : List Operation)
    (m m' : MarkdownWriter) (hoc : oc < m.heap.length)
    (h : writeOperations d oc ops m = .ok m') :
    ∃ new, HeapGrows m.heap m'.heap oc new ∧
      new.map (fun b => m'.heap[b]?) = ops.map (fun o => some (OPItem d o)) := by
  induction ops generalizing m with
  | nil =>
    have e : m = m' := by simpa [writeOperations] using h
    rw [← e]
    exact ⟨[], heapGrows_refl _ _, rfl⟩
  | cons o os ih =>
    simp only [writeOperations, bind, Except.bind] at h
    cases h1 : writeOperation d oc o m with
    | error e => simp [h1] at h
    | ok m1 =>
      simp only [h1] at h
      have e1 := writeOperation_ok d oc o m m1 h1
      have hheap : m1.heap = heapAppendSub (m.heap ++ [OPItem d o]) oc m.heap.length := by
        subst e1; rfl
      have hlen : m1.heap.length = m.heap.length + 1 := by
        rw [hheap, length_heapAppendSub]; simp
      obtain ⟨new, g, items⟩ := ih m1 (by omega) h
      have g1 : HeapGrows m.heap m1.heap oc [m.heap.length] := by
        rw [hheap]; exact heapGrows_alloc _ _ _ hoc
      refine ⟨[m.heap.length] ++ new, heapGrows_trans g1 g, ?_⟩
      have hne : m.heap.length ≠ oc := by omega
      have hhead : m'.heap[m.heap.length]? = some (OPItem d o) := by
        rw [g.frame _ (by omega) hne, hheap, getElem?_alloc _ _ _ hoc]
      simp [hhead, items]

theorem writeOperations_returns [Unicode] (d : Definition) (oc : Nat) (ops : List Operation)
    (m : MarkdownWriter)
    (hex : ∀ o ∈ ops, (∀ e ∈ o.ExampleRequests, e.indexable = true) ∧
      (∀ e ∈ o.ExampleResponses, e.indexable = true)) :
    ∃ m', writeOperations d oc ops m = .ok m' := by
  induction ops generalizing m with
  | nil => exact ⟨m, rfl⟩
  | cons o os ih =>
    have ho := hex o (List.mem_cons_self _ _)
    obtain ⟨m1, h1⟩ := writeOperation_returns d oc o m ho.1 ho.2
    obtain ⟨m2, h2⟩ := ih m1 (fun x hx => hex x (List.mem_cons_of_mem _ hx))
    exact ⟨m2, by simp [writeOperations, bind, Except.bind, h1, h2]⟩

theorem writeCategory_same [Unicode] (d : Definition) (c : OperationCategory) (m m' : MarkdownWriter)
    (h : writeCategory d c m = .ok m') : SameButHeap m m' := by
  unfold writeCategory at h
  split at h
  · have e : m = m' := by simpa using h
    rw [← e]
    exact sameButHeap_refl m
  · simp only [bind, Except.bind, appendToCurrent] at h
    cases hc : m.CurrentSection with
    | none => simp [hc] at h
    | some a =>
      simp only [hc] at h
      have := writeOperations_same d _ _ _ _ h
      exact ⟨this.1, this.2.1, this.2.2.1.trans hc.symm, this.2.2.2⟩

theorem writeCategories_same [Unicode] (d : Definition) (cs : List OperationCategory)
    (m m' : MarkdownWriter) (h : writeCategories d cs m = .ok m') : SameButHeap m m' := by
  induction cs generalizing m with
  | nil =>
    have e : m = m' := by simpa [writeCategories] using h
    rw [← e]
    exact sameButHeap_refl m
  | cons c cs ih =>
    simp only [writeCategories, bind, Except.bind] at h
    cases h1 : writeCategory d c m with
    | error e => simp [h1] at h
    | ok m1 =>
      simp only [h1] at h
      exact sameButHeap_trans (writeCategory_same d c m m1 h1) (ih m1 h)

theorem writeCategories_heap [Unicode] (d : Definition) (a : Nat) (cs : List OperationCategory)
    (m m' : MarkdownWriter) (ha : a < m.heap.length) (hcur : m.CurrentSection = some a)
    (h : writeCategories d cs m = .ok m') :
    ∃ new, HeapGrows m.heap m'.heap a new ∧
      CategoryItems d m'.heap new (cs.filter OperationCategory.hasOperations) := by
  induction cs generalizing m with
  | nil =>
    have e : m = m' := by simpa [writeCategories] using h
    rw [← e]
    exact ⟨[], heapGrows_refl _ _, List.Forall₂.nil⟩
  | cons c cs ih =>
    simp only [writeCategories, bind, Except.bind] at h
    cases h1 : writeCategory d c m with
    | error e => simp [h1] at h
    | ok m2 =>
      simp only [h1] at h
      have s12 := writeCategory_same d c m m2 h1
      by_cases hz : c.Operations.length = 0
      · have e2 : m = m2 := by simpa [writeCategory, hz] using h1
        rw [← e2] at h
        obtain ⟨new, g, items⟩ := ih m ha hcur h
        refine ⟨new, g, ?_⟩
        have hf : (c :: cs).filter OperationCategory.hasOperations =
            cs.filter OperationCategory.hasOperations :=
          List.filter_cons_of_neg (by simp [OperationCategory.hasOperations, hz])
        rw [hf]
        exact items
      · simp only [writeCategory, hz, if_false, bind, Except.bind, appendToCurrent, hcur] at h1
        have hoc : m.heap.length <
            (heapAppendSub (m.heap ++ [OCItem d c]) a m.heap.length).length := by
          rw [length_heapAppendSub]; simp
        obtain ⟨subs, g2, items2⟩ := writeOperations_heap d m.heap.length c.Operations _ m2 hoc h1
        have g1 := heapGrows_alloc m.heap (OCItem d c) a ha
        have g12 := heapGrows_other g1 g2 ha (Nat.le_refl _)
        have ha2 : a < m2.heap.length := Nat.lt_of_lt_of_le ha g12.le
        have hcur2 : m2.CurrentSection = some a := by rw [s12.2.2.1, hcur]
        obtain ⟨new, g3, items3⟩ := ih m2 ha2 hcur2 h
        refine ⟨[m.heap.length] ++ new, heapGrows_trans g12 g3, ?_⟩
        have hlt : m.heap.length < m2.heap.length := Nat.lt_of_lt_of_le hoc g2.le
        have hne : m.heap.length ≠ a := by omega
        have hhead : m'.heap[m.heap.length]? = some ((OCItem d c).addSubs subs) := by
          rw [g3.frame _ hlt hne, g2.at_p, getElem?_alloc _ _ _ ha]
          rfl
        have hsubs : subs.map (fun x => m'.heap[x]?) = subs.map (fun x => m2.heap[x]?) := by
          apply List.map_congr_left
          intro x hx
          have hf := g2.fresh x hx
          rw [length_heapAppendSub] at hf
          simp only [List.length_append, List.length_singleton] at hf
          exact g3.frame x hf.2 (by omega)
        have hf : (c :: cs).filter OperationCategory.hasOperations =
            c :: cs.filter OperationCategory.hasOperations :=
          List.filter_cons_of_pos (decide_eq_true hz)
        rw [hf]
        exact List.Forall₂.cons ⟨subs, hhead, by rw [hsubs, items2]⟩ items3

end MarkdownWriter

namespace MarkdownWriter

theorem writeCategories_returns [Unicode] (d : Definition) (cs : List OperationCategory)
    (m : MarkdownWriter) (a : Nat) (hcur : m.CurrentSection = some a)
    (hex : ∀ c ∈ cs, ∀ o ∈ c.Operations, (∀ e ∈ o.ExampleRequests, e.indexable = true) ∧
      (∀ e ∈ o.ExampleResponses, e.indexable = true)) :
    ∃ m', writeCategories d cs m = .ok m' := by
  induction cs generalizing m with
  | nil => exact ⟨m, rfl⟩
  | cons c cs ih =>
    have hc : ∃ m1, writeCategory d c m = .ok m1 := by
      unfold writeCategory
      split
      · exact ⟨m, rfl⟩
      · simp only [bind, Except.bind, appendToCurrent, hcur]
        exact writeOperations_returns d _ _ _ (hex c (List.mem_cons_self _ _))
    obtain ⟨m1, h1⟩ := hc
    have hcur1 : m1.CurrentSection = some a := by
      rw [(writeCategory_same d c m m1 h1).2.2.1, hcur]
    obtain ⟨m2, h2⟩ := ih m1 hcur1 (fun x hx => hex x (List.mem_cons_of_mem _ hx))
    exact ⟨m2, by simp [writeCategories, bind, Except.bind, h1, h2]⟩

theorem WriteResource_returns [Unicode] (env : Env) (r : Resource) (d : Definition) (m : MarkdownWriter)
    (hd : r.Definition = some d)
    (hcreate : env.createFails (env.Join (env.Join env.BuildDir "resources") (fileName d)) = false)
    (hex : d.examplesIndexable = true) :
    ∃ m', WriteResource env r m = .ok m' := by
  unfold WriteResource
  simp only [hd, hcreate, Bool.false_eq_true, if_false]
  split
  · exact ⟨_, rfl⟩
  · refine writeCategories_returns d _ _ m.heap.length rfl ?_
    intro c hc o ho
    simp only [Definition.examplesIndexable, List.all_eq_true, Bool.and_eq_true] at hex
    exact hex c hc o ho

theorem WriteResource_spec [Unicode] (env : Env) (r : Resource) (m m' : MarkdownWriter)
    (h : WriteResource env r m = .ok m') :
    ∃ d, r.Definition = some d ∧
      m'.Config = m.Config ∧ m'.IndexFile = m.IndexFile ∧
      m'.TOC = { m.TOC with Sections := m.TOC.Sections ++ [m.heap.length] } ∧
      m'.CurrentSection = some m.heap.length ∧
      m.heap.length < m'.heap.length ∧
      (∀ x, x < m.heap.length → m'.heap[x]? = m.heap[x]?) ∧
      ∃ new, m'.heap[m.heap.length]? = some ((resourceItem r d).addSubs new) ∧
        CategoryItems d m'.heap new (d.OperationCategories.filter OperationCategory.hasOperations) := by
  unfold WriteResource at h
  cases hd : r.Definition with
  | none => simp [hd] at h
  | some d =>
    simp only [hd] at h
    refine ⟨d, rfl, ?_⟩
    split at h
    · exact absurd h (by simp)
    · have hlen1 : (m.appendSection (resourceItem r d)).heap.length = m.heap.length + 1 := by
        simp [appendSection]
      have hat1 : (m.appendSection (resourceItem r d)).heap[m.heap.length]? =
          some (resourceItem r d) := by
        simp [appendSection]
      have hframe1 : ∀ x, x < m.heap.length →
          (m.appendSection (resourceItem r d)).heap[x]? = m.heap[x]? := by
        intro x hx
        simp [appendSection, List.getElem?_append_left hx]
      split at h
      · rename_i hz
        have e : m.appendSection (resourceItem r d) = m' := Except.ok.inj h
        rw [← e]
        refine ⟨rfl, rfl, rfl, rfl, by omega, hframe1, [], ?_, ?_⟩
        · rw [hat1, addSubs_nil]
        · have : d.OperationCategories = [] := List.length_eq_zero.mp hz
          rw [this]
          exact List.Forall₂.nil
      · have s := writeCategories_same d _ _ _ h
        obtain ⟨new, g, items⟩ := writeCategories_heap d m.heap.length _ _ m'
          (by omega) rfl h
        refine ⟨s.1, s.2.2.2, s.2.1, s.2.2.1, by have := g.le; omega, ?_, new, ?_, items⟩
        · intro x hx
          rw [g.frame x (by omega) (by omega), hframe1 x hx]
        · rw [g.at_p, hat1]
          rfl

end MarkdownWriter

theorem writeStaticFile_returns (env : Env) (location : String)
    (h : staticFileWritable env location = true) : writeStaticFile env location = .ok () := by
  unfold staticFileWritable at h
  unfold writeStaticFile
  cases hs : env.stat (env.Join env.SectionsDir location) with
  | found => simp [hs]
  | otherError => simp [hs] at h
  | notExist =>
    simp only [hs, Bool.not_eq_true'] at h
    simp [h, hs]

namespace MarkdownWriter

/-- What every section-level operation does to the table of contents. -/
theorem appendSection_spec (m : MarkdownWriter) (item : TOCItem) (hl : item.Level = 1) :
    (m.appendSection item).TOC.Sections = m.TOC.Sections ++ [m.heap.length] ∧
    (∃ it, (m.appendSection item).heap[m.heap.length]? = some it ∧ it.Level = 1) ∧
    (m.appendSection item).CurrentSection = some m.heap.length ∧
    (∀ x, x < m.heap.length → (m.appendSection item).heap[x]? = m.heap[x]?) := by
  refine ⟨rfl, ⟨item, by simp [appendSection], hl⟩, rfl, ?_⟩
  intro x hx
  simp [appendSection, List.getElem?_append_left hx]

theorem sectionCall_spec [Unicode] (env : Env) (c : Call) (m m' : MarkdownWriter)
    (hc : c.isSectionLevel = true) (h : c.run docWriter env m = .ok m') :
    m'.TOC.Sections = m.TOC.Sections ++ [m.heap.length] ∧
    (∃ it, m'.heap[m.heap.length]? = some it ∧ it.Level = 1) ∧
    m'.CurrentSection = some m.heap.length ∧
    (∀ x, x < m.heap.length → m'.heap[x]? = m.heap[x]?) := by
  cases c with
  | WriteOverview =>
    have e : _ = m' := Except.ok.inj h
    rw [← e]
    exact appendSection_spec m _ rfl
  | WriteAPIGroupVersions gvs =>
    simp only [Call.run, docWriter, WriteAPIGroupVersions] at h
    split at h
    · exact absurd h (by simp)
    · have e : _ = m' := Except.ok.inj h
      rw [← e]
      exact appendSection_spec m _ rfl
  | WriteResourceCategory name file =>
    have e : _ = m' := Except.ok.inj h
    rw [← e]
    exact appendSection_spec m _ rfl
  | WriteResource r =>
    obtain ⟨d, _, _, _, htoc, hcur, _, hframe, new, hat, _⟩ := WriteResource_spec env r m m' h
    refine ⟨by rw [htoc], ⟨_, hat, rfl⟩, hcur, hframe⟩
  | WriteDefinitionsOverview =>
    simp only [Call.run, docWriter, WriteDefinitionsOverview, bind, Except.bind] at h
    split at h
    · exact absurd h (by simp)
    · have e : _ = m' := Except.ok.inj h
      rw [← e]
      exact appendSection_spec m _ rfl
  | WriteOldVersionsOverview =>
    simp only [Call.run, docWriter, WriteOldVersionsOverview, bind, Except.bind] at h
    split at h
    · exact absurd h (by simp)
    · have e : _ = m' := Except.ok.inj h
      rw [← e]
      exact appendSection_spec m _ rfl
  | WriteDefinition d => simp [Call.isSectionLevel] at hc
  | Finalize => simp [Call.isSectionLevel] at hc

theorem sectionCall_returns [Unicode] (env : Env) (c : Call) (m : MarkdownWriter)
    (h : sectionCallReturns env c = true) : ∃ m', c.run docWriter env m = .ok m' := by
  cases c with
  | WriteOverview => exact ⟨_, rfl⟩
  | WriteAPIGroupVersions gvs =>
    simp only [sectionCallReturns, Bool.not_eq_true'] at h
    simp only [Call.run, docWriter, WriteAPIGroupVersions, h]
    exact ⟨_, rfl⟩
  | WriteResourceCategory name file => exact ⟨_, rfl⟩
  | WriteResource r =>
    simp only [sectionCallReturns] at h
    cases hd : r.Definition with
    | none => simp [hd] at h
    | some d =>
      simp only [hd, Bool.and_eq_true, Bool.not_eq_true'] at h
      exact WriteResource_returns env r d m hd h.1 h.2
  | WriteDefinitionsOverview =>
    simp only [sectionCallReturns] at h
    simp only [Call.run, docWriter, WriteDefinitionsOverview, writeStaticFile_returns env _ h,
      bind, Except.bind]
    exact ⟨_, rfl⟩
  | WriteOldVersionsOverview =>
    simp only [sectionCallReturns] at h
    simp only [Call.run, docWriter, WriteOldVersionsOverview, writeStaticFile_returns env _ h,
      bind, Except.bind]
    exact ⟨_, rfl⟩
  | WriteDefinition d => simp [sectionCallReturns] at h
  | Finalize => simp [sectionCallReturns] at h

theorem runAll_sections [Unicode] (env : Env) (cs : List Call) (s s' : Run MarkdownWriter)
    (hcs : ∀ c ∈ cs, c.isSectionLevel = true)
    (h : Call.runAll docWriter env cs s = .ok s') :
    s'.writer.TOC.Sections.length = s.writer.TOC.Sections.length + cs.length ∧
      s'.stdout = s.stdout := by
  induction cs generalizing s with
  | nil =>
    have e : s = s' := by simpa [Call.runAll] using h
    rw [← e]; simp
  | cons c cs ih =>
    simp only [Call.runAll, Run.call, bind, Except.bind] at h
    cases h1 : c.run docWriter env s.writer with
    | error e => simp [h1] at h
    | ok m1 =>
      simp only [h1] at h
      have sp := sectionCall_spec env c s.writer m1 (hcs c (List.mem_cons_self _ _)) h1
      have := ih _ (fun x hx => hcs x (List.mem_cons_of_mem _ hx)) h
      have hlen : m1.TOC.Sections.length = s.writer.TOC.Sections.length + 1 := by
        rw [sp.1]; simp
      simp only [hlen, List.length_cons] at this ⊢
      exact ⟨by omega, this.2⟩

end MarkdownWriter

theorem categoryItems_titles [Unicode] (d : Definition) (heap : List TOCItem) (new : List Nat)
    (cats : List OperationCategory) (h : MarkdownWriter.CategoryItems d heap new cats) :
    new.map (fun b => (itemTitle heap b, (itemSubs heap b).map (itemTitle heap))) =
      cats.map (fun c => (some c.Name, c.Operations.map (fun o => some o.TypeName))) := by
  induction h with
  | nil => rfl
  | @cons b c bs cs hbc _ ih =>
    obtain ⟨subs, hb, hsubs⟩ := hbc
    have ht : itemTitle heap b = some c.Name := by
      simp [itemTitle, hb, TOCItem.addSubs, MarkdownWriter.OCItem]
    have hs : itemSubs heap b = subs := by
      simp [itemSubs, hb, TOCItem.addSubs, MarkdownWriter.OCItem]
    have hst : subs.map (itemTitle heap) = c.Operations.map (fun o => some o.TypeName) := by
      have := congrArg (List.map (Option.map (fun it : TOCItem => it.Title))) hsubs
      simpa [itemTitle, List.map_map, Function.comp_def, MarkdownWriter.OPItem] using this
    simp [ht, hs, hst, ih]

theorem resourceCategoryCalls_sectionLevel (cats : List ResourceCategory) :
    ∀ c ∈ resourceCategoryCalls cats, c.isSectionLevel = true := by
  induction cats with
  | nil => simp [resourceCategoryCalls]
  | cons k ks ih =>
    intro c hc
    simp only [resourceCategoryCalls, List.mem_cons, List.mem_append, List.mem_map] at hc
    rcases hc with rfl | ⟨r, _, rfl⟩ | hc
    · rfl
    · rfl
    · exact ih c hc

theorem mem_resourceCategoryCalls (cats : List ResourceCategory) (r : Resource) :
    Call.WriteResource r ∈ resourceCategoryCalls cats ↔
      ∃ c ∈ cats, r ∈ c.Resources ∧ r.Definition.isSome = true := by
  induction cats with
  | nil => simp [resourceCategoryCalls]
  | cons k ks ih =>
    simp [resourceCategoryCalls, ih]

/-! ## The calls of `GenerateFiles` -/

theorem run_recorder (env : Env) (c : Call) (log : List Call) :
    c.run recorder env log = .ok (log ++ [c]) := by
  cases c <;> rfl

theorem runAll_recorder (env : Env) (cs : List Call) (s : Run (List Call)) :
    Call.runAll recorder env cs s = .ok { s with writer := s.writer ++ cs } := by
  induction cs generalizing s with
  | nil => simp [Call.runAll]
  | cons c cs ih =>
    simp [Call.runAll, Run.call, run_recorder, bind, Except.bind, ih]

theorem runAll_append {W : Type} (dw : DocWriter W) (env : Env) (xs ys : List Call)
    (s : Run W) :
    Call.runAll dw env (xs ++ ys) s =
      (Call.runAll dw env xs s).bind (Call.runAll dw env ys) := by
  induction xs generalizing s with
  | nil => rfl
  | cons c cs ih =>
    simp only [List.cons_append, Call.runAll, bind]
    cases h : s.call (c.run dw env) with
    | error e => rfl
    | ok s1 => simp [Except.bind, ih]

theorem writeDefinitions_runAll {W : Type} (dw : DocWriter W) (env : Env)
    (ds : List Definition) (s : Run W) :
    writeDefinitions dw env ds s = Call.runAll dw env (ds.map Call.WriteDefinition) s := by
  induction ds generalizing s with
  | nil => rfl
  | cons d ds ih =>
    simp only [writeDefinitions, List.map_cons, Call.runAll, Call.run, bind]
    cases h : s.call (dw.WriteDefinition env d) with
    | error e => rfl
    | ok s1 => simp [Except.bind, ih]

theorem writeOldVersions_runAll {W : Type} (dw : DocWriter W) (env : Env)
    (ds : List Definition) (s : Run W) :
    writeOldVersions dw env ds s = Call.runAll dw env
      ((ds.filter (fun d => !d.IsInlined)).map (fun d => Call.WriteResource (oldVersionResource d)))
      s := by
  induction ds generalizing s with
  | nil => rfl
  | cons d ds ih =>
    by_cases hd : d.IsInlined = true
    · simp [writeOldVersions, hd, ih]
    · simp only [Bool.not_eq_true] at hd
      simp only [writeOldVersions, hd, Bool.false_eq_true, if_false, List.filter_cons,
        Bool.not_false, if_true, List.map_cons, Call.runAll, Call.run, bind, oldVersionResource]
      cases h : s.call (dw.WriteResource env
        { Definition := some d, Name := d.Name, DescriptionWarning := "",
          DescriptionNote := "" }) with
      | error e => rfl
      | ok s1 =>
        have := ih s1
        simp only [oldVersionResource] at this
        simp [Except.bind, this]

theorem call_print {W : Type} (f : W → Except Fault W) (lines : List String) (s : Run W) :
    (s.print lines).call f = (s.call f).map (Run.print lines) := by
  simp only [Run.call, Run.print, bind, Except.bind]
  cases f s.writer <;> rfl

theorem runAll_print {W : Type} (dw : DocWriter W) (env : Env) (cs : List Call)
    (lines : List String) (s : Run W) :
    Call.runAll dw env cs (s.print lines) =
      (Call.runAll dw env cs s).map (Run.print lines) := by
  induction cs generalizing s with
  | nil => rfl
  | cons c cs ih =>
    simp only [Call.runAll, bind, call_print]
    cases h : s.call (c.run dw env) with
    | error e => rfl
    | ok s1 => simp [Except.bind, Except.map, ih]

theorem map_print_print {W : Type} (a b : List String) (r : Except Fault (Run W)) :
    (r.map (Run.print a)).map (Run.print b) = r.map (Run.print (a ++ b)) := by
  cases r <;> simp [Except.map, Run.print]

theorem writeResources_runAll {W : Type} (dw : DocWriter W) (env : Env)
    (rs : List Resource) (s : Run W) :
    writeResources dw env rs s =
      (Call.runAll dw env
        ((rs.filter (fun r => r.Definition.isSome)).map Call.WriteResource) s).map
        (Run.print (missingWarnings rs)) := by
  induction rs generalizing s with
  | nil => simp [writeResources, Call.runAll, Except.map, missingWarnings, Run.print]
  | cons r rs ih =>
    cases hd : r.Definition with
    | none =>
      have h1 := ih (s.print ["Warning: Missing definition for item in TOC " ++ r.Name ++ "\n"])
      rw [runAll_print, map_print_print] at h1
      have hf : (r :: rs).filter (fun r => r.Definition.isSome) =
          rs.filter (fun r => r.Definition.isSome) :=
        List.filter_cons_of_neg (by simp [hd])
      have hw : missingWarnings (r :: rs) =
          ["Warning: Missing definition for item in TOC " ++ r.Name ++ "\n"] ++
            missingWarnings rs := by
        simp [missingWarnings, List.filter_cons, hd]
      rw [hf, hw, ← h1]
      simp [writeResources, hd, Run.print]
    | some d =>
      have hf : (r :: rs).filter (fun r => r.Definition.isSome) =
          r :: rs.filter (fun r => r.Definition.isSome) :=
        List.filter_cons_of_pos (by simp [hd])
      have hw : missingWarnings (r :: rs) = missingWarnings rs := by
        simp [missingWarnings, List.filter_cons, hd]
      rw [hf, hw]
      simp only [writeResources, hd, List.map_cons, Call.runAll, Call.run, bind]
      cases h : s.call (dw.WriteResource env r) with
      | error e => rfl
      | ok s1 => simp [Except.bind, ih]

theorem writeResourceCategories_runAll {W : Type} (dw : DocWriter W) (env : Env)
    (cats : List ResourceCategory) (s : Run W) :
    writeResourceCategories dw env cats s =
      (Call.runAll dw env (resourceCategoryCalls cats) s).map
        (Run.print (resourceCategoryWarnings cats)) := by
  induction cats generalizing s with
  | nil => simp [writeResourceCategories, Call.runAll, Except.map, resourceCategoryCalls,
      resourceCategoryWarnings, Run.print]
  | cons c cs ih =>
    simp only [writeResourceCategories, resourceCategoryCalls, resourceCategoryWarnings,
      Call.runAll, Call.run, bind]
    cases h : s.call (dw.WriteResourceCategory env c.Name c.Include) with
    | error e => rfl
    | ok s1 =>
      simp only [Except.bind]
      rw [writeResources_runAll, runAll_append]
      cases h2 : Call.runAll dw env
          (List.map Call.WriteResource (List.filter (fun r => r.Definition.isSome) c.Resources))
          s1 with
      | error e => rfl
      | ok s2 =>
        simp only [Except.map, Except.bind]
        rw [ih, runAll_print, map_print_print]
        cases Call.runAll dw env (resourceCategoryCalls cs) s2 <;> rfl

theorem definitionsPass_runAll {W : Type} (dw : DocWriter W) (env : Env) (config : Config)
    (s : Run W) :
    definitionsPass dw env config s = Call.runAll dw env
      (Call.WriteDefinitionsOverview :: (sortedDefinitions env config).map Call.WriteDefinition)
      s := by
  simp only [definitionsPass, Call.runAll, Call.run, bind]
  cases h : s.call (dw.WriteDefinitionsOverview env) with
  | error e => rfl
  | ok s1 => simp [Except.bind, writeDefinitions_runAll]

theorem oldVersionsPass_runAll {W : Type} (dw : DocWriter W) (env : Env) (config : Config)
    (s : Run W) :
    oldVersionsPass dw env config s = Call.runAll dw env
      (Call.WriteOldVersionsOverview ::
        ((sortedOldVersions env config).filter (fun d => !d.IsInlined)).map
          (fun d => Call.WriteResource (oldVersionResource d))) s := by
  simp only [oldVersionsPass, Call.runAll, Call.run, bind]
  cases h : s.call (dw.WriteOldVersionsOverview env) with
  | error e => rfl
  | ok s1 => simp [Except.bind, writeOldVersions_runAll]

/-! ## Claims -/

/-- C1: `main` calls `GenerateFiles` exactly when the value of the flag `-f` is
"html" or "markdown", and then with that value; for every other value it
panics with the "unsupported format" error and `GenerateFiles` is not
called. -/
theorem main_accepts_html_and_markdown_only [Unicode] (html : HTMLBackend) (env : Env) (config : Config)
    (flFormat : String) :
    ((∃ format result, main html env config flFormat = .generated format result) ↔
        (flFormat = "html" ∨ flFormat = "markdown")) ∧
    (∀ format result, main html env config flFormat = .generated format result →
        format = flFormat ∧ result = GenerateFiles html env config flFormat) ∧
    ((∃ msg, main html env config flFormat = .panicked msg) ↔
        ¬(flFormat = "html" ∨ flFormat = "markdown")) ∧
    (∀ msg, main html env config flFormat = .panicked msg →
        msg = "unsupported format '" ++ flFormat ++ "' specified") := by
  by_cases h : flFormat = "html" ∨ flFormat = "markdown"
  · simp [main, h]
  · simp [main, h]

/-- Witness of C1 at the flag value "markdown". -/
theorem main_accepts_html_and_markdown_only_witness :
    ∃ format result, main sampleHTML sampleEnv sampleConfig "markdown" =
      .generated format result :=
  (main_accepts_html_and_markdown_only sampleHTML sampleEnv sampleConfig "markdown").1.mpr
    (Or.inr rfl)

/-- Counterexample to C2: whatever the configuration and the value of the
format, `GenerateFiles` does not construct a TeX writer. -/
theorem tex_writer_never_constructed :
    ¬ ∃ (html : HTMLBackend) (env : Env) (config : Config) (format : String) (t : TexWriter),
      GenerateFiles.writer html env config format = Writer.TexWriter t := by
  rintro ⟨html, env, config, format, t, h⟩
  unfold GenerateFiles.writer at h
  split at h <;> exact Writer.noConfusion h

/-- C2, amended: the Markdown and the HTML renderers are selectable, by the flag
values "markdown" and "html", which `main` accepts; for no value of the format
is the TeX renderer constructed. -/
theorem markdown_and_html_selectable [Unicode] (html : HTMLBackend) (env : Env) (config : Config) :
    ((∃ result, main html env config "markdown" = .generated "markdown" result) ∧
      ∃ m, GenerateFiles.writer html env config "markdown" = Writer.MarkdownWriter m) ∧
    ((∃ result, main html env config "html" = .generated "html" result) ∧
      ∃ h, GenerateFiles.writer html env config "html" = Writer.HTMLWriter h) ∧
    (∀ format t, GenerateFiles.writer html env config format ≠ Writer.TexWriter t) := by
  refine ⟨⟨⟨GenerateFiles html env config "markdown", by simp [main]⟩,
      ⟨NewMarkdownWriter config (GenerateFiles.copyright env "markdown")
        (GenerateFiles.title env), by simp [GenerateFiles.writer]⟩⟩,
    ⟨⟨GenerateFiles html env config "html", by simp [main]⟩,
      ⟨html.NewHTMLWriter config (GenerateFiles.copyright env "html")
        (GenerateFiles.title env), by simp [GenerateFiles.writer]⟩⟩, ?_⟩
  intro format t h
  unfold GenerateFiles.writer at h
  split at h <;> exact Writer.noConfusion h

/-- C3: `GenerateFiles` constructs the HTML writer exactly when the format is
"html" and the Markdown writer otherwise; the copyright handed to the writer is
an HTML anchor exactly in the first case and a Markdown link exactly in the
second. -/
theorem writer_and_copyright_follow_format (html : HTMLBackend) (env : Env) (config : Config)
    (format : String) :
    ((∃ h, GenerateFiles.writer html env config format = Writer.HTMLWriter h) ↔
        format = "html") ∧
    ((∃ m, GenerateFiles.writer html env config format = Writer.MarkdownWriter m) ↔
        format ≠ "html") ∧
    (∀ h, GenerateFiles.writer html env config format = Writer.HTMLWriter h →
        h = html.NewHTMLWriter config (GenerateFiles.copyright env format)
          (GenerateFiles.title env)) ∧
    (∀ m, GenerateFiles.writer html env config format = Writer.MarkdownWriter m →
        m = NewMarkdownWriter config (GenerateFiles.copyright env format)
          (GenerateFiles.title env) ∧
        m.TOC.Copyright = GenerateFiles.copyright env format) ∧
    (isHTMLAnchor (GenerateFiles.copyright env format) = true ↔ format = "html") ∧
    (isMarkdownLink (GenerateFiles.copyright env format) = true ↔ format ≠ "html") ∧
    (format = "html" → GenerateFiles.copyright env format =
        "<a href=\"https://github.com/kubernetes/kubernetes\">Copyright 2016-" ++ env.year ++
          " The Kubernetes Authors.</a>") ∧
    (format ≠ "html" → GenerateFiles.copyright env format =
        "[Copyright 2016-" ++ env.year ++
          " The Kubernetes Authors](https://github.com/kubernetes/kubernetes)") := by
  by_cases h : format = "html"
  · subst h
    simp [GenerateFiles.writer, GenerateFiles.copyright, isHTMLAnchor, isMarkdownLink,
      String.data_append]
  · simp [GenerateFiles.writer, GenerateFiles.copyright, isHTMLAnchor, isMarkdownLink,
      String.data_append, h, NewMarkdownWriter]

/-- Witness of C3 at the format "html". -/
theorem writer_and_copyright_follow_format_witness :
    GenerateFiles.copyright sampleEnv "html" =
      "<a href=\"https://github.com/kubernetes/kubernetes\">Copyright 2016-2020 The Kubernetes Authors.</a>" :=
  (writer_and_copyright_follow_format sampleHTML sampleEnv sampleConfig "html").2.2.2.2.2.2.1 rfl

/-- C4: every section-level operation of the Markdown writer (`WriteOverview`,
`WriteAPIGroupVersions`, `WriteResourceCategory`, `WriteDefinitionsOverview`,
`WriteOldVersionsOverview`, `WriteResource`) returns when the files it needs
can be written, and whenever it returns it has appended one pointer, to a new
item of level 1, at the end of `TOC.Sections`, that item is the current
section, and the items allocated before are as they were. -/
theorem section_operations_append_one_section [Unicode] (env : Env) (c : Call) (m : MarkdownWriter)
    (hc : c.isSectionLevel = true) :
    (MarkdownWriter.sectionCallReturns env c = true →
      ∃ m', c.run MarkdownWriter.docWriter env m = .ok m') ∧
    ∀ m', c.run MarkdownWriter.docWriter env m = .ok m' →
      m'.TOC.Sections = m.TOC.Sections ++ [m.heap.length] ∧
      (∃ item, m'.heap[m.heap.length]? = some item ∧ item.Level = 1) ∧
      m'.CurrentSection = some m.heap.length ∧
      (∀ x, x < m.heap.length → m'.heap[x]? = m.heap[x]?) :=
  ⟨MarkdownWriter.sectionCall_returns env c m,
    fun m' h => MarkdownWriter.sectionCall_spec env c m m' hc h⟩

/-- Witness of C4: `WriteResource` on the sample resource. -/
theorem section_operations_append_one_section_witness :
    ∃ m', (Call.WriteResource sampleResource).run MarkdownWriter.docWriter sampleEnv
        sampleWriter = .ok m' ∧
      m'.TOC.Sections = [0, 1] ∧ m'.CurrentSection = some 1 := by
  have h := section_operations_append_one_section sampleEnv (Call.WriteResource sampleResource)
    sampleWriter rfl
  obtain ⟨m', hm'⟩ := h.1 rfl
  exact ⟨m', hm', (h.2 m' hm').1, (h.2 m' hm').2.2.1⟩

/-- C5: when `WriteResource(r)` returns, the sub-sections of the section it
appended are, in order, one item per operation category of `r.Definition` with
at least one operation, titled with the category name, and the sub-sections of
each such item are, in order, one item per operation of the category, titled
with the name of the operation type; it returns when the resource file can be
created and the examples can be indexed. -/
theorem write_resource_nests_categories_and_operations [Unicode] (env : Env) (r : Resource)
    (d : Definition) (m : MarkdownWriter) (hd : r.Definition = some d) :
    (env.createFails (env.Join (env.Join env.BuildDir "resources")
        (MarkdownWriter.fileName d)) = false → d.examplesIndexable = true →
      ∃ m', MarkdownWriter.WriteResource env r m = .ok m') ∧
    ∀ m', MarkdownWriter.WriteResource env r m = .ok m' →
      m'.TOC.Sections = m.TOC.Sections ++ [m.heap.length] ∧
      (itemSubs m'.heap m.heap.length).map
          (fun b => (itemTitle m'.heap b, (itemSubs m'.heap b).map (itemTitle m'.heap))) =
        (d.OperationCategories.filter OperationCategory.hasOperations).map
          (fun c => (some c.Name, c.Operations.map (fun o => some o.TypeName))) := by
  refine ⟨fun h1 h2 => MarkdownWriter.WriteResource_returns env r d m hd h1 h2, ?_⟩
  intro m' h
  obtain ⟨d', hd', _, _, htoc, _, _, _, new, hat, items⟩ :=
    MarkdownWriter.WriteResource_spec env r m m' h
  have e : d' = d := Option.some.inj (hd'.symm.trans hd)
  subst e
  refine ⟨by rw [htoc], ?_⟩
  have hs : itemSubs m'.heap m.heap.length = new := by
    simp [itemSubs, hat, TOCItem.addSubs, MarkdownWriter.resourceItem]
  rw [hs]
  exact categoryItems_titles d' m'.heap new _ items

/-- Witness of C5: the sample resource has two categories with operations and
one without. -/
theorem write_resource_nests_categories_and_operations_witness :
    ∃ m', MarkdownWriter.WriteResource sampleEnv sampleResource sampleWriter = .ok m' ∧
      (itemSubs m'.heap 1).map
          (fun b => (itemTitle m'.heap b, (itemSubs m'.heap b).map (itemTitle m'.heap))) =
        [(some "Write Operations", [some "Create", some "Patch"]),
         (some "Read Operations", [some "Read"])] := by
  have h := write_resource_nests_categories_and_operations sampleEnv sampleResource
    sampleDefinition sampleWriter rfl
  obtain ⟨m', hm'⟩ := h.1 rfl rfl
  exact ⟨m', hm', (h.2 m' hm').2⟩

/-- Counterexample to C6: for a definition whose name has 51 dots the file of
the appended item is not the name with every dot replaced; the name has no
letter, so that lower-casing plays no part. -/
theorem write_definition_file_keeps_dot_51 :
    ∃ m', MarkdownWriter.WriteDefinition sampleEnv sampleDots sampleWriter = .ok m' ∧
      (m'.heap[sampleWriter.heap.length]?).map (fun it => it.File) ≠
        some (stringsToLower (stringsReplace sampleDots.Name "." "-" (-1)) ++ "-" ++
          sampleDots.Version ++ "-" ++ sampleDots.Group ++ ".md") := by
  refine ⟨_, rfl, ?_⟩
  decide

/-- C6, amended: for a Markdown writer with a current section, `WriteDefinition(d)`
returns when the definition file can be created, and whenever it returns the
top-level sections are unchanged and one pointer is appended at the end of the
current section's `SubSections`, to a new item of level 2, with title
"Name (GroupDisplayName/Version)", link `getLink` of the title, and file
"n-Version-Group.md" where n is the name lower-cased after its first 50 dots are
replaced by '-'.  Lower-casing is `strings.ToLower`, for every case mapping
`unicode.ToLower`. -/
theorem write_definition_appends_subsection [Unicode] (env : Env) (d : Definition) (m : MarkdownWriter)
    (cur : Nat) (hcur : m.CurrentSection = some cur) (hvalid : cur < m.heap.length) :
    (env.createFails (env.Join (env.Join env.BuildDir "definitions")
        (MarkdownWriter.fileName d)) = false →
      ∃ m', MarkdownWriter.WriteDefinition env d m = .ok m') ∧
    ∀ m', MarkdownWriter.WriteDefinition env d m = .ok m' →
      m'.TOC = m.TOC ∧ m'.CurrentSection = some cur ∧
      itemSubs m'.heap cur = itemSubs m.heap cur ++ [m.heap.length] ∧
      m'.heap[cur]? = (m.heap[cur]?).map (fun it => it.addSubs [m.heap.length]) ∧
      m'.heap[m.heap.length]? = some
        { Level := 2
          Title := d.Name ++ " (" ++ d.GroupDisplayName ++ "/" ++ d.Version ++ ")"
          Link := getLink (d.Name ++ " (" ++ d.GroupDisplayName ++ "/" ++ d.Version ++ ")")
          File := stringsToLower (stringsReplace d.Name "." "-" 50) ++ "-" ++ d.Version ++
            "-" ++ d.Group ++ ".md"
          SubSections := [] } ∧
      m'.heap.length = m.heap.length + 1 ∧
      (∀ x, x < m.heap.length → x ≠ cur → m'.heap[x]? = m.heap[x]?) := by
  constructor
  · intro hc
    simp only [MarkdownWriter.WriteDefinition, MarkdownWriter.appendToCurrent, hc, hcur,
      Bool.false_eq_true, if_false]
    exact ⟨_, rfl⟩
  · intro m' h
    simp only [MarkdownWriter.WriteDefinition, MarkdownWriter.appendToCurrent, hcur] at h
    split at h
    · exact absurd h (by simp)
    · have e : _ = m' := Except.ok.inj h
      rw [← e]
      have g := heapGrows_alloc m.heap (MarkdownWriter.definitionItem d) cur hvalid
      refine ⟨rfl, rfl, ?_, g.at_p, getElem?_alloc _ _ _ hvalid, ?_, g.frame⟩
      · obtain ⟨it, hit⟩ : ∃ it, m.heap[cur]? = some it :=
          ⟨m.heap[cur], List.getElem?_eq_getElem hvalid⟩
        have := g.at_p
        simp only [hit, Option.map_some'] at this
        simp [itemSubs, this, hit, TOCItem.addSubs]
      · simp [length_heapAppendSub]

/-- Witness of C6: `WriteDefinition` on the sample writer, whose current
section is the overview. -/
theorem write_definition_appends_subsection_witness :
    ∃ m', MarkdownWriter.WriteDefinition sampleEnv sampleOther sampleWriter = .ok m' ∧
      itemSubs m'.heap 0 = [1] ∧ m'.TOC = sampleWriter.TOC := by
  have h := write_definition_appends_subsection sampleEnv sampleOther sampleWriter 0 rfl
    (by decide)
  obtain ⟨m', hm'⟩ := h.1 rfl
  exact ⟨m', hm', (h.2 m' hm').2.2.1, (h.2 m' hm').1⟩

/-- C7: in the definitions pass of `GenerateFiles`, after
`WriteDefinitionsOverview`, `WriteDefinition` is called on the definitions of
`config.Definitions.All` whose `InToc`, `IsInlined` and `IsOldVersion` are all
false and on no other, once per occurrence, in the order of the sorted list;
`sort.Sort` is taken to permute its argument. -/
theorem definitions_pass_writes_other_definitions (env : Env) (config : Config)
    (hsort : ∀ l, (env.SortDefinitionsByName l).Perm l) :
    ∃ ds : List Definition,
      (∀ s : Run (List Call), definitionsPass recorder env config s =
        .ok { writer :=
                (s.writer ++ Call.WriteDefinitionsOverview :: ds.map Call.WriteDefinition),
              stdout := s.stdout }) ∧
      (∀ (W : Type) (dw : DocWriter W) (s : Run W), definitionsPass dw env config s =
        Call.runAll dw env (Call.WriteDefinitionsOverview :: ds.map Call.WriteDefinition) s) ∧
      ds = env.SortDefinitionsByName (config.Definitions.All.filter
        (fun d => !d.InToc && !d.IsInlined && !d.IsOldVersion)) ∧
      (∀ d, d ∈ ds ↔ d ∈ config.Definitions.All ∧
        d.InToc = false ∧ d.IsInlined = false ∧ d.IsOldVersion = false) ∧
      (∀ d, d.InToc = false → d.IsInlined = false → d.IsOldVersion = false →
        ds.count d = config.Definitions.All.count d) := by
  have hfilter : (fun d : Definition => !(d.InToc || d.IsInlined || d.IsOldVersion)) =
      (fun d => !d.InToc && !d.IsInlined && !d.IsOldVersion) := by
    funext d
    cases d.InToc <;> cases d.IsInlined <;> cases d.IsOldVersion <;> rfl
  have hds : sortedDefinitions env config = env.SortDefinitionsByName
      (config.Definitions.All.filter
        (fun d => !d.InToc && !d.IsInlined && !d.IsOldVersion)) := by
    simp only [sortedDefinitions, hfilter]
  refine ⟨sortedDefinitions env config, ?_, ?_, hds, ?_, ?_⟩
  · intro s
    rw [definitionsPass_runAll, runAll_recorder]
  · intro W dw s
    exact definitionsPass_runAll dw env config s
  · intro d
    rw [hds, (hsort _).mem_iff]
    simp [List.mem_filter, and_assoc]
  · intro d h1 h2 h3
    rw [hds, (hsort _).count_eq]
    exact List.count_filter (by simp [h1, h2, h3])

/-- Witness of C7: the sample environment sorts by insertion. -/
theorem definitions_pass_writes_other_definitions_witness :
    ∃ ds : List Definition,
      (∀ s : Run (List Call), definitionsPass recorder sampleEnv sampleConfig s =
        .ok { writer :=
                (s.writer ++ Call.WriteDefinitionsOverview :: ds.map Call.WriteDefinition),
              stdout := s.stdout }) ∧
      ds = [sampleOther] := by
  obtain ⟨ds, h1, _, h3, _⟩ := definitions_pass_writes_other_definitions sampleEnv sampleConfig
    (fun l => List.perm_insertionSort _ l)
  exact ⟨ds, h1, h3.trans rfl⟩

/-- C8: in the old-versions pass of `GenerateFiles`, after
`WriteOldVersionsOverview`, `WriteResource` is called on a definition of
`config.Definitions.All` exactly when its `IsOldVersion` is true and its
`IsInlined` is false, with a resource whose `Definition` is that definition and
whose `Name` is its name; `sort.Sort` is taken to permute its argument. -/
theorem old_versions_pass_writes_old_definitions (env : Env) (config : Config)
    (hsort : ∀ l, (env.SortDefinitionsByName l).Perm l) :
    ∃ ds : List Definition,
      (∀ s : Run (List Call), oldVersionsPass recorder env config s =
        .ok { writer := (s.writer ++ Call.WriteOldVersionsOverview ::
                ds.map (fun d => Call.WriteResource
                  { Definition := some d, Name := d.Name, DescriptionWarning := "",
                    DescriptionNote := "" })),
              stdout := s.stdout }) ∧
      (∀ (W : Type) (dw : DocWriter W) (s : Run W), oldVersionsPass dw env config s =
        Call.runAll dw env (Call.WriteOldVersionsOverview ::
          ds.map (fun d => Call.WriteResource
            { Definition := some d, Name := d.Name, DescriptionWarning := "",
              DescriptionNote := "" })) s) ∧
      (∀ d, d ∈ ds ↔ d ∈ config.Definitions.All ∧
        d.IsOldVersion = true ∧ d.IsInlined = false) := by
  refine ⟨(sortedOldVersions env config).filter (fun d => !d.IsInlined), ?_, ?_, ?_⟩
  · intro s
    rw [oldVersionsPass_runAll, runAll_recorder]
    rfl
  · intro W dw s
    exact oldVersionsPass_runAll dw env config s
  · intro d
    simp only [sortedOldVersions, List.mem_filter, (hsort _).mem_iff]
    simp [and_assoc]

/-- Witness of C8: the sample configuration has one old version. -/
theorem old_versions_pass_writes_old_definitions_witness :
    ∃ ds : List Definition,
      (∀ d, d ∈ ds ↔ d ∈ sampleConfig.Definitions.All ∧
        d.IsOldVersion = true ∧ d.IsInlined = false) ∧ sampleOld ∈ ds := by
  obtain ⟨ds, _, _, h3⟩ := old_versions_pass_writes_old_definitions sampleEnv sampleConfig
    (fun l => List.perm_insertionSort _ l)
  exact ⟨ds, h3, (h3 sampleOld).mpr (by decide)⟩

/-- C9 at its failing input: the old-versions pass calls `WriteResource` on a
definition that is in the table of contents. -/
theorem old_versions_pass_writes_toc_definition :
    sampleOld ∈ sampleConfig.Definitions.All ∧ sampleOld.InToc = true ∧
      oldVersionsPass recorder sampleEnv sampleConfig { writer := [], stdout := [] } =
        .ok { writer := [Call.WriteOldVersionsOverview,
                Call.WriteResource
                  { Definition := some sampleOld, Name := "Job", DescriptionWarning := "",
                    DescriptionNote := "" }],
              stdout := [] } :=
  ⟨by decide, rfl, rfl⟩

/-- C10: in the resource-category pass of `GenerateFiles`, for every category
`WriteResourceCategory` is called once and then `WriteResource` on the
resources of the category whose `Definition` is not nil, in order; a resource
with a nil `Definition` gets a warning and no call, and with the Markdown writer
every call adds one section and a skipped resource none. -/
theorem resource_category_pass_skips_missing_definitions [Unicode] (env : Env)
    (cats : List ResourceCategory) :
    (∀ s : Run (List Call), writeResourceCategories recorder env cats s =
      .ok { writer := s.writer ++ resourceCategoryCalls cats,
            stdout := s.stdout ++ resourceCategoryWarnings cats }) ∧
    (∀ (W : Type) (dw : DocWriter W) (s : Run W), writeResourceCategories dw env cats s =
      (Call.runAll dw env (resourceCategoryCalls cats) s).map
        (Run.print (resourceCategoryWarnings cats))) ∧
    (∀ r, Call.WriteResource r ∈ resourceCategoryCalls cats ↔
      ∃ c ∈ cats, r ∈ c.Resources ∧ r.Definition ≠ none) ∧
    (∀ s s', writeResourceCategories MarkdownWriter.docWriter env cats s = .ok s' →
      s'.writer.TOC.Sections.length =
        s.writer.TOC.Sections.length + (resourceCategoryCalls cats).length) := by
  refine ⟨?_, ?_, ?_, ?_⟩
  · intro s
    rw [writeResourceCategories_runAll, runAll_recorder]
    rfl
  · intro W dw s
    exact writeResourceCategories_runAll dw env cats s
  · intro r
    rw [mem_resourceCategoryCalls]
    simp [Option.isSome_iff_ne_none]
  · intro s s' h
    rw [writeResourceCategories_runAll] at h
    cases h1 : Call.runAll MarkdownWriter.docWriter env (resourceCategoryCalls cats) s with
    | error e => simp [h1, Except.map] at h
    | ok s1 =>
      simp only [h1, Except.map] at h
      have e : Run.print (resourceCategoryWarnings cats) s1 = s' := Except.ok.inj h
      rw [← e]
      exact (MarkdownWriter.runAll_sections env _ s s1
        (resourceCategoryCalls_sectionLevel cats) h1).1

/-- Witness of C10: the sample category has one resource with a definition and
one without. -/
theorem resource_category_pass_skips_missing_definitions_witness :
    ∃ s', writeResourceCategories MarkdownWriter.docWriter sampleEnv
        sampleConfig.ResourceCategories { writer := sampleWriter, stdout := [] } = .ok s' ∧
      s'.writer.TOC.Sections.length = 3 ∧
      s'.stdout = ["Warning: Missing definition for item in TOC Ghost\n"] :=
  ⟨_, rfl,
    (resource_category_pass_skips_missing_definitions sampleEnv
      sampleConfig.ResourceCategories).2.2.2 { writer := sampleWriter, stdout := [] } _ rfl,
    rfl⟩

/-! ## Lemmas on strings -/

theorem lastIndexGo_not_mem (sep : Nat) (i : Nat) (last : Int) (l : List Nat)
    (h : sep ∉ l) : lastIndexGo sep i last l = last := by
  induction l generalizing i last with
  | nil => rfl
  | cons c cs ih =>
    have hc : c ≠ sep := fun e => h (by simp [e])
    have hcs : sep ∉ cs := fun e => h (List.mem_cons_of_mem _ e)
    simp [lastIndexGo, hc, ih _ _ hcs]

theorem lastIndexGo_last (sep : Nat) (i : Nat) (last : Int) (pre post : List Nat)
    (h : sep ∉ post) : lastIndexGo sep i last (pre ++ sep :: post) = ((i + pre.length : Nat) : Int) := by
  induction pre generalizing i last with
  | nil => simp [lastIndexGo, lastIndexGo_not_mem _ _ _ _ h]
  | cons c cs ih =>
    show lastIndexGo sep (i + 1) (if c = sep then (i : Int) else last) (cs ++ sep :: post) = _
    rw [ih]
    simp only [List.length_cons]
    congr 1
    omega

theorem splitGo_not_mem (sep : Char) (cur l : List Char) (h : sep ∉ l) :
    splitGo sep cur l = [cur.reverse ++ l] := by
  induction l generalizing cur with
  | nil => simp [splitGo]
  | cons c cs ih =>
    have hc : c ≠ sep := fun e => h (by simp [e])
    have hcs : sep ∉ cs := fun e => h (List.mem_cons_of_mem _ e)
    simp [splitGo, hc, ih _ hcs]

theorem splitGo_first (sep : Char) (cur a b : List Char) (h : sep ∉ a) :
    splitGo sep cur (a ++ sep :: b) = (cur.reverse ++ a) :: splitGo sep [] b := by
  induction a generalizing cur with
  | nil => simp [splitGo]
  | cons c cs ih =>
    have hc : c ≠ sep := fun e => h (by simp [e])
    have hcs : sep ∉ cs := fun e => h (List.mem_cons_of_mem _ e)
    simp [splitGo, hc, ih _ hcs]

theorem stringsSplit_second (s a b : String) (sep : Char) (hs : s.data = a.data ++ sep :: b.data)
    (ha : sep ∉ a.data) (hb : sep ∉ b.data) : (stringsSplit s sep)[1]? = some b := by
  simp [stringsSplit, hs, splitGo_first _ _ _ _ ha, splitGo_not_mem _ _ _ hb]

theorem indexable_of_hasShape (e : ExampleText) (pre kind lang : String)
    (h : e.HasShape pre kind lang) :
    (stringsSplit e.Tab ':')[1]? = some kind ∧
    (stringsSplit e.Type_ ':')[1]? = some (kind ++ "_" ++ lang) ∧
    (stringsSplit (kind ++ "_" ++ lang) '_')[1]? = some lang := by
  refine ⟨?_, ?_, ?_⟩
  · exact stringsSplit_second _ pre kind ':' (by simp [h.tab, String.data_append]) h.pre_colon
      h.kind_colon
  · refine stringsSplit_second _ pre (kind ++ "_" ++ lang) ':'
      (by simp [h.type, String.data_append]) h.pre_colon ?_
    simp [String.data_append, h.kind_colon, h.lang_colon]
  · exact stringsSplit_second _ kind lang '_' (by simp [String.data_append]) h.kind_underscore
      h.lang_underscore

theorem sliceString_release (s pre post : List Nat)
    (hs : s = pre ++ 46 :: post) (hpre : pre ≠ []) :
    sliceString s 1 ((0 + pre.length : Nat) : Int) = .ok pre.tail := by
  cases pre with
  | nil => exact absurd rfl hpre
  | cons c cs =>
    have hcond : (0 : Int) ≤ 1 ∧ (1 : Int) ≤ ((0 + (c :: cs).length : Nat) : Int) ∧
        ((0 + (c :: cs).length : Nat) : Int) ≤ (s.length : Int) := by
      rw [hs]
      simp only [List.length_cons, List.length_append]
      omega
    unfold sliceString
    rw [if_pos hcond]
    simp [hs]

theorem utf8Char_mem_dot (c : Char) : 46 ∈ utf8Char c ↔ c = '.' := by
  unfold utf8Char
  simp only []
  split_ifs with h1 h2 h3
  · simp only [List.mem_singleton]
    constructor
    · intro h
      rw [← Char.ofNat_toNat c, ← h]
    · intro h
      rw [h]
      rfl
  · have hne : c ≠ '.' := fun e => h1 (by rw [e]; decide)
    constructor
    · intro h
      simp only [List.mem_cons, List.mem_singleton, List.not_mem_nil, or_false] at h
      omega
    · intro h
      exact absurd h hne
  · have hne : c ≠ '.' := fun e => h1 (by rw [e]; decide)
    constructor
    · intro h
      simp only [List.mem_cons, List.mem_singleton, List.not_mem_nil, or_false] at h
      omega
    · intro h
      exact absurd h hne
  · have hne : c ≠ '.' := fun e => h1 (by rw [e]; decide)
    constructor
    · intro h
      simp only [List.mem_cons, List.mem_singleton, List.not_mem_nil, or_false] at h
      omega
    · intro h
      exact absurd h hne

theorem utf8Chars_mem_dot (l : List Char) : 46 ∈ utf8Chars l ↔ '.' ∈ l := by
  induction l with
  | nil => simp [utf8Chars]
  | cons c cs ih =>
    simp only [utf8Chars, List.mem_append, utf8Char_mem_dot, ih, List.mem_cons]
    constructor
    · rintro (h | h)
      · exact Or.inl h.symm
      · exact Or.inr h
    · rintro (h | h)
      · exact Or.inl h.symm
      · exact Or.inr h

theorem append_eq_last_split (a b pre post : List Nat) (h : a ++ b = pre ++ 46 :: post)
    (hpost : 46 ∉ post) (hb : 46 ∈ b) : ∃ mid, pre = a ++ mid ∧ b = mid ++ 46 :: post := by
  rcases List.append_eq_append_iff.mp h with ⟨mid, h1, h2⟩ | ⟨mid, h1, h2⟩
  · exact ⟨mid, h1, h2⟩
  · cases mid with
    | nil =>
      refine ⟨[], ?_, ?_⟩
      · simpa using h1.symm
      · simpa using h2.symm
    | cons x xs =>
      simp only [List.cons_append, List.cons.injEq] at h2
      exact absurd (h2.2 ▸ List.mem_append_right xs hb) hpost

theorem utf8Chars_beforeLastDot (l : List Char) (pre post : List Nat)
    (h : utf8Chars l = pre ++ 46 :: post) (hpost : 46 ∉ post) :
    utf8Chars (beforeLastDot l) = pre := by
  induction l generalizing pre with
  | nil =>
    have : (utf8Chars []).length = (pre ++ 46 :: post).length := by rw [h]
    simp only [utf8Chars, List.length_nil, List.length_append, List.length_cons] at this
    omega
  | cons c cs ih =>
    simp only [utf8Chars] at h
    by_cases hdot : '.' ∈ cs
    · obtain ⟨mid, h1, h2⟩ := append_eq_last_split _ _ _ _ h hpost
        ((utf8Chars_mem_dot cs).mpr hdot)
      simp only [beforeLastDot, if_pos hdot, utf8Chars, ih mid h2, h1]
    · have hcs : 46 ∉ utf8Chars cs := fun e => hdot ((utf8Chars_mem_dot cs).mp e)
      have hc : 46 ∈ utf8Char c := by
        have : 46 ∈ utf8Char c ++ utf8Chars cs := by rw [h]; simp
        rcases List.mem_append.mp this with e | e
        · exact e
        · exact absurd e hcs
      have hdotc : c = '.' := (utf8Char_mem_dot c).mp hc
      have hone : utf8Char c = [46] := by rw [hdotc]; rfl
      rw [hone] at h
      simp only [beforeLastDot, if_neg hdot, utf8Chars]
      cases pre with
      | nil => rfl
      | cons x xs =>
        simp only [List.cons_append, List.singleton_append, List.cons.injEq] at h
        have h2 : utf8Chars cs = xs ++ 46 :: post := by simpa using h.2
        exact absurd (h2 ▸ (by simp : (46 : Nat) ∈ xs ++ 46 :: post)) hcs

theorem release_of_ascii_head (c : Char) (cs : List Char) (pre post : List Nat)
    (h : utf8Chars (c :: cs) = pre ++ 46 :: post) (hpost : 46 ∉ post) (hpre : pre ≠ [])
    (hc : c.toNat < 128) : pre.tail = utf8Chars ((beforeLastDot (c :: cs)).drop 1) := by
  have hb := utf8Chars_beforeLastDot (c :: cs) pre post h hpost
  by_cases hdot : '.' ∈ cs
  · simp only [beforeLastDot, if_pos hdot, utf8Chars] at hb
    have hone : utf8Char c = [c.toNat] := by
      unfold utf8Char
      simp only [hc, if_true]
    rw [hone] at hb
    simp only [beforeLastDot, if_pos hdot, List.drop_succ_cons, List.drop_zero, ← hb]
    rfl
  · simp only [beforeLastDot, if_neg hdot, utf8Chars] at hb
    exact absurd hb.symm hpre

theorem finalize_frame (env : Env) (m m' : MarkdownWriter)
    (h : MarkdownWriter.Finalize env m = .ok m') :
    m'.Config = m.Config ∧ m'.TOC = m.TOC ∧ m'.CurrentSection = m.CurrentSection ∧
    m'.heap = m.heap := by
  simp only [MarkdownWriter.Finalize, bind, Except.bind] at h
  split at h
  · exact absurd h (by simp)
  · split at h
    · rw [← Except.ok.inj h]
      exact ⟨rfl, rfl, rfl, rfl⟩
    · rw [← Except.ok.inj h]
      exact ⟨rfl, rfl, rfl, rfl⟩

/-- C11, amended: when the last '.' of `Config.SpecVersion` is not its first
byte and `_index.md` can be written, `MarkdownWriter.Finalize` returns and the
content it writes to `_index.md` is the index template (the empty string when it
cannot be read) with every "TIMESTAMP" replaced by the formatted time and then
every "RELEASE" replaced by the release string: the bytes of the version without
the first byte and without the last '.' and what follows it.  When the first
character of the version is ASCII these are the bytes of the version without its
first character and without its last '.' and what follows it. -/
theorem finalize_writes_index_with_release (env : Env) (m : MarkdownWriter)
    (pre post : List Nat) (hversion : utf8 m.Config.SpecVersion = pre ++ 46 :: post)
    (hlast : 46 ∉ post) (hpre : pre ≠ [])
    (hwrite : env.createFails (env.Join env.BuildDir "_index.md") = false) :
    MarkdownWriter.Finalize env m =
      .ok { m with IndexFile := some (expectedIndex env pre.tail) } ∧
    ∀ (c : Char) (cs : List Char), m.Config.SpecVersion.data = c :: cs → c.toNat < 128 →
      pre.tail = utf8 (releaseByCharacters m.Config.SpecVersion) := by
  constructor
  · have hpos : stringsLastIndex (utf8 m.Config.SpecVersion) 46 =
        ((0 + pre.length : Nat) : Int) := by
      rw [stringsLastIndex, hversion, lastIndexGo_last _ _ _ _ _ hlast]
    have htmpl : (match env.readFile (env.Join env.SectionsDir "index.md") with
        | some data => [] ++ utf8 data
        | none => []) = indexTemplate env := by
      unfold indexTemplate
      cases env.readFile (env.Join env.SectionsDir "index.md") with
      | none => rfl
      | some data => simp
    simp only [MarkdownWriter.Finalize, hpos, sliceString_release _ pre post hversion hpre,
      htmpl, bind, Except.bind, expectedIndex, hwrite, Bool.false_eq_true, if_false]
  · intro c cs hdata hc
    have h : utf8Chars (c :: cs) = pre ++ 46 :: post := by
      rw [← hdata]
      exact hversion
    have := release_of_ascii_head c cs pre post h hlast hpre hc
    rw [this, utf8, releaseByCharacters, hdata]

set_option maxRecDepth 100000

/-- Witness of C11: the version "v1.20.3", whose first character is ASCII,
gives the release "1.20". -/
theorem finalize_writes_index_with_release_witness :
    MarkdownWriter.Finalize sampleEnv sampleWriter =
      .ok { sampleWriter with
            IndexFile := some (utf8 "Release 1.20, generated 2020-01-01 00:00:00 (UTC)") } ∧
    (utf8 "v1.20").tail = utf8 (releaseByCharacters "v1.20.3") ∧
    releaseByCharacters "v1.20.3" = "1.20" :=
  have h := finalize_writes_index_with_release sampleEnv sampleWriter (utf8 "v1.20") (utf8 "3")
    rfl (by decide) (by decide) rfl
  ⟨h.1, h.2 'v' "1.20.3".data rfl (by decide), by decide⟩

/-- C11 as stated fails on a version whose first character is not ASCII: for
"é1.20.3" the release read by characters is "1.20", while `Finalize` cuts the
version at byte 1, inside the two bytes 0xC3 0xA9 of "é", and the content of
`_index.md` has the byte 0xA9 before "1.20". -/
theorem finalize_release_drops_first_byte_only :
    MarkdownWriter.Finalize sampleEnv (sampleWriterOfVersion "é1.20.3") =
      .ok { sampleWriterOfVersion "é1.20.3" with
            IndexFile := some (utf8 "Release " ++ [0xA9] ++
              utf8 "1.20, generated 2020-01-01 00:00:00 (UTC)") } ∧
    releaseByCharacters "é1.20.3" = "1.20" ∧
    utf8 "Release " ++ [0xA9] ++ utf8 "1.20, generated 2020-01-01 00:00:00 (UTC)" ≠
      expectedIndex sampleEnv (utf8 (releaseByCharacters "é1.20.3")) :=
  ⟨rfl, by decide, by decide⟩

/-- C12: for examples of the documented shape `writeOperationSample` returns,
and the text it writes is, for each example in order, the line
"**kind request example**" ("response" when `req` is false) followed by a
fenced code block of language `lang` whose body is the text of the example. -/
theorem write_operation_sample_emits_examples (req : Bool) (op : String)
    (examples : List ExampleText) (shapes : List (String × String × String))
    (h : List.Forall₂ (fun e s => ExampleText.HasShape e s.1 s.2.1 s.2.2) examples shapes) :
    MarkdownWriter.writeOperationSample req op examples =
      .ok (expectedSampleText req examples shapes) := by
  induction h with
  | nil => rfl
  | @cons e s es ss hes _ ih =>
    obtain ⟨pre, kind, lang⟩ := s
    obtain ⟨h1, h2, h3⟩ := indexable_of_hasShape e pre kind lang hes
    simp only [MarkdownWriter.writeOperationSample, indexSlice_ok _ _ _ h1,
      indexSlice_ok _ _ _ h2, indexSlice_ok _ _ _ h3, ih, bind, Except.bind,
      expectedSampleText]
    cases req <;>
      simp only [String.append_assoc, if_true, if_false, Bool.false_eq_true]

/-- Witness of C12: the documented example, Tab "bdocs-tab:kubectl" and Type
"bdocs-tab:kubectl_shell". -/
theorem write_operation_sample_emits_examples_witness :
    MarkdownWriter.writeOperationSample true "create-pod-v1-core" [sampleExample] =
      .ok "**kubectl request example**\n\n```shell\nkubectl get pods\n```\n\n" :=
  write_operation_sample_emits_examples true "create-pod-v1-core" [sampleExample]
    [("bdocs-tab", "kubectl", "shell")]
    (List.Forall₂.cons
      { tab := rfl, type := rfl, pre_colon := by decide, kind_colon := by decide,
        kind_underscore := by decide, lang_colon := by decide, lang_underscore := by decide }
      List.Forall₂.nil)

/-- C15 at its failing inputs: for a version that is empty, has no '.', or has
its only '.' at index 0, the slice expression of `Finalize` is out of range and
the process panics. -/
theorem finalize_panics_without_inner_dot :
    MarkdownWriter.Finalize sampleEnv (sampleWriterOfVersion "") = .error .indexOutOfRange ∧
    MarkdownWriter.Finalize sampleEnv (sampleWriterOfVersion "v1") = .error .indexOutOfRange ∧
    MarkdownWriter.Finalize sampleEnv (sampleWriterOfVersion ".5") = .error .indexOutOfRange :=
  ⟨rfl, rfl, rfl⟩

/-! ## Lemmas on the TeX writer -/

theorem tex_sampleButtons_returns (es : List ExampleText) (h : ∀ e ∈ es, e.indexable = true) :
    TexWriter.sampleButtons es = .ok () := by
  induction es with
  | nil => rfl
  | cons e es ih =>
    have he := h e (List.mem_cons_self _ _)
    unfold ExampleText.indexable at he
    cases h1 : (stringsSplit e.Tab ':')[1]? with
    | none => simp [h1] at he
    | some eType =>
      simp only [TexWriter.sampleButtons, indexSlice_ok _ _ _ h1, bind, Except.bind]
      exact ih (fun x hx => h x (List.mem_cons_of_mem _ hx))

theorem tex_samplePanels_returns (es : List ExampleText) (h : ∀ e ∈ es, e.indexable = true) :
    TexWriter.samplePanels es = .ok () := by
  induction es with
  | nil => rfl
  | cons e es ih =>
    have he := h e (List.mem_cons_self _ _)
    unfold ExampleText.indexable at he
    cases h1 : (stringsSplit e.Tab ':')[1]? with
    | none => simp [h1] at he
    | some eType =>
      cases h2 : (stringsSplit e.Type_ ':')[1]? with
      | none => simp [h1, h2] at he
      | some lType =>
        cases h3 : (stringsSplit lType '_')[1]? with
        | none => simp [h1, h2, h3] at he
        | some lang =>
          simp only [TexWriter.samplePanels, indexSlice_ok _ _ _ h1, indexSlice_ok _ _ _ h2,
            indexSlice_ok _ _ _ h3, bind, Except.bind]
          exact ih (fun x hx => h x (List.mem_cons_of_mem _ hx))

theorem tex_writeOperationSample_returns (es : List ExampleText)
    (h : ∀ e ∈ es, e.indexable = true) : TexWriter.writeOperationSample es = .ok () := by
  simp [TexWriter.writeOperationSample, tex_sampleButtons_returns es h,
    tex_samplePanels_returns es h, bind, Except.bind]

theorem tex_writeOperation_ok [Unicode] (d : Definition) (oc : Nat) (o : Operation) (h h' : TexWriter)
    (e : TexWriter.writeOperation d oc o h = .ok h') :
    ∃ item : TOCItem, item.skeleton = (2, []) ∧
      h' = { h with heap := heapAppendSub (h.heap ++ [item]) oc h.heap.length } := by
  unfold TexWriter.writeOperation at e
  simp only [bind, Except.bind, pure, Except.pure] at e
  refine ⟨{ Level := 2, Title := o.TypeName,
            Link := stringsReplace (stringsToLower o.TypeName) " " "-" (-1) ++ "-" ++ d.LinkID,
            File := "", SubSections := [] }, rfl, ?_⟩
  split at e
  · split at e
    · exact absurd e (by simp)
    · split at e
      · split at e
        · exact absurd e (by simp)
        · exact (Except.ok.inj e).symm
      · exact (Except.ok.inj e).symm
  · split at e
    · split at e
      · exact absurd e (by simp)
      · exact (Except.ok.inj e).symm
    · exact (Except.ok.inj e).symm

theorem tex_writeOperation_returns [Unicode] (d : Definition) (oc : Nat) (o : Operation) (h : TexWriter)
    (h1 : ∀ e ∈ o.ExampleRequests, e.indexable = true)
    (h2 : ∀ e ∈ o.ExampleResponses, e.indexable = true) :
    ∃ h', TexWriter.writeOperation d oc o h = .ok h' := by
  unfold TexWriter.writeOperation
  simp only [bind, Except.bind, pure, Except.pure, tex_writeOperationSample_returns _ h1,
    tex_writeOperationSample_returns _ h2]
  split <;> split <;> exact ⟨_, rfl⟩

theorem tex_writeOperations_same [Unicode] (d : Definition) (oc : Nat) (ops : List Operation)
    (h h' : TexWriter) (e : TexWriter.writeOperations d oc ops h = .ok h') :
    h'.toc = h.toc ∧ h'.CurrentSection = h.CurrentSection := by
  induction ops generalizing h with
  | nil =>
    have e1 : h = h' := by simpa [TexWriter.writeOperations] using e
    rw [← e1]
    exact ⟨rfl, rfl⟩
  | cons o os ih =>
    simp only [TexWriter.writeOperations, bind, Except.bind] at e
    cases h1 : TexWriter.writeOperation d oc o h with
    | error x => simp [h1] at e
    | ok t1 =>
      simp only [h1] at e
      obtain ⟨item, _, e1⟩ := tex_writeOperation_ok d oc o h t1 h1
      have := ih t1 e
      rw [e1] at this
      exact this

theorem tex_writeOperations_returns [Unicode] (d : Definition) (oc : Nat) (ops : List Operation)
    (h : TexWriter)
    (hex : ∀ o ∈ ops, (∀ e ∈ o.ExampleRequests, e.indexable = true) ∧
      (∀ e ∈ o.ExampleResponses, e.indexable = true)) :
    ∃ h', TexWriter.writeOperations d oc ops h = .ok h' := by
  induction ops generalizing h with
  | nil => exact ⟨h, rfl⟩
  | cons o os ih =>
    have ho := hex o (List.mem_cons_self _ _)
    obtain ⟨t1, h1⟩ := tex_writeOperation_returns d oc o h ho.1 ho.2
    obtain ⟨t2, h2⟩ := ih t1 (fun x hx => hex x (List.mem_cons_of_mem _ hx))
    exact ⟨t2, by simp [TexWriter.writeOperations, bind, Except.bind, h1, h2]⟩

theorem tex_writeCategory_same [Unicode] (d : Definition) (c : OperationCategory) (h h' : TexWriter)
    (e : TexWriter.writeCategory d c h = .ok h') :
    h'.toc = h.toc ∧ h'.CurrentSection = h.CurrentSection := by
  unfold TexWriter.writeCategory at e
  split at e
  · have e1 : h = h' := by simpa using e
    rw [← e1]
    exact ⟨rfl, rfl⟩
  · simp only [bind, Except.bind, TexWriter.appendToCurrent] at e
    cases hc : h.CurrentSection with
    | none => simp [hc] at e
    | some a =>
      simp only [hc] at e
      have := tex_writeOperations_same d _ _ _ _ e
      exact ⟨this.1, this.2⟩

theorem tex_writeCategories_same [Unicode] (d : Definition) (cs : List OperationCategory)
    (h h' : TexWriter) (e : TexWriter.writeCategories d cs h = .ok h') :
    h'.toc = h.toc ∧ h'.CurrentSection = h.CurrentSection := by
  induction cs generalizing h with
  | nil =>
    have e1 : h = h' := by simpa [TexWriter.writeCategories] using e
    rw [← e1]
    exact ⟨rfl, rfl⟩
  | cons c cs ih =>
    simp only [TexWriter.writeCategories, bind, Except.bind] at e
    cases h1 : TexWriter.writeCategory d c h with
    | error x => simp [h1] at e
    | ok t1 =>
      simp only [h1] at e
      have s1 := tex_writeCategory_same d c h t1 h1
      have s2 := ih t1 e
      exact ⟨s2.1.trans s1.1, s2.2.trans s1.2⟩

theorem tex_writeCategories_returns [Unicode] (d : Definition) (cs : List OperationCategory)
    (h : TexWriter) (a : Nat) (hcur : h.CurrentSection = some a)
    (hex : ∀ c ∈ cs, ∀ o ∈ c.Operations, (∀ e ∈ o.ExampleRequests, e.indexable = true) ∧
      (∀ e ∈ o.ExampleResponses, e.indexable = true)) :
    ∃ h', TexWriter.writeCategories d cs h = .ok h' := by
  induction cs generalizing h with
  | nil => exact ⟨h, rfl⟩
  | cons c cs ih =>
    have hc : ∃ t1, TexWriter.writeCategory d c h = .ok t1 := by
      unfold TexWriter.writeCategory
      split
      · exact ⟨h, rfl⟩
      · simp only [bind, Except.bind, TexWriter.appendToCurrent, hcur]
        exact tex_writeOperations_returns d _ _ _ (hex c (List.mem_cons_self _ _))
    obtain ⟨t1, h1⟩ := hc
    have hcur1 : t1.CurrentSection = some a := by
      rw [(tex_writeCategory_same d c h t1 h1).2, hcur]
    obtain ⟨t2, h2⟩ := ih t1 hcur1 (fun x hx => hex x (List.mem_cons_of_mem _ hx))
    exact ⟨t2, by simp [TexWriter.writeCategories, bind, Except.bind, h1, h2]⟩

/-! ## The Markdown and the TeX writers in step -/

theorem getElem?_skeleton (h1 h2 : List TOCItem)
    (hs : h1.map TOCItem.skeleton = h2.map TOCItem.skeleton) (x : Nat) :
    (h1[x]?).map TOCItem.skeleton = (h2[x]?).map TOCItem.skeleton := by
  have := congrArg (fun l => l[x]?) hs
  simpa [List.getElem?_map] using this

theorem length_of_skeleton (h1 h2 : List TOCItem)
    (hs : h1.map TOCItem.skeleton = h2.map TOCItem.skeleton) : h1.length = h2.length := by
  have := congrArg List.length hs
  simpa using this

theorem skeleton_addSubs_map (o : Option TOCItem) (q : Nat) :
    (o.map (fun it => it.addSubs [q])).map TOCItem.skeleton =
      (o.map TOCItem.skeleton).map (fun s => (s.1, s.2 ++ [q])) := by
  cases o <;> rfl

theorem skeleton_heapAppendSub (h1 h2 : List TOCItem) (p q : Nat)
    (hs : h1.map TOCItem.skeleton = h2.map TOCItem.skeleton) :
    (heapAppendSub h1 p q).map TOCItem.skeleton =
      (heapAppendSub h2 p q).map TOCItem.skeleton := by
  apply List.ext_getElem?
  intro x
  rw [List.getElem?_map, List.getElem?_map, getElem?_heapAppendSub, getElem?_heapAppendSub]
  by_cases hx : x = p
  · rw [if_pos hx, if_pos hx, skeleton_addSubs_map, skeleton_addSubs_map,
      getElem?_skeleton h1 h2 hs p]
  · rw [if_neg hx, if_neg hx]
    exact getElem?_skeleton h1 h2 hs x

theorem skeleton_alloc (h1 h2 : List TOCItem) (i1 i2 : TOCItem) (p : Nat)
    (hs : h1.map TOCItem.skeleton = h2.map TOCItem.skeleton)
    (hi : i1.skeleton = i2.skeleton) :
    (heapAppendSub (h1 ++ [i1]) p h1.length).map TOCItem.skeleton =
      (heapAppendSub (h2 ++ [i2]) p h2.length).map TOCItem.skeleton := by
  rw [length_of_skeleton h1 h2 hs]
  apply skeleton_heapAppendSub
  simp [hs, hi]

theorem shapeAt_skeleton (h1 h2 : List TOCItem)
    (hs : h1.map TOCItem.skeleton = h2.map TOCItem.skeleton) (depth a : Nat) :
    shapeAt h1 depth a = shapeAt h2 depth a := by
  induction depth generalizing a with
  | zero =>
    have := getElem?_skeleton h1 h2 hs a
    cases e1 : h1[a]? <;> cases e2 : h2[a]? <;> simp [e1, e2, TOCItem.skeleton] at this
    · simp [shapeAt, e1, e2]
    · simp [shapeAt, e1, e2, this.1, this.2]
  | succ n ih =>
    have := getElem?_skeleton h1 h2 hs a
    cases e1 : h1[a]? <;> cases e2 : h2[a]? <;> simp [e1, e2, TOCItem.skeleton] at this
    · simp [shapeAt, e1, e2]
    · have hfun : shapeAt h1 n = shapeAt h2 n := funext ih
      simp [shapeAt, e1, e2, this.1, this.2, hfun]

theorem sync_writeOperations [Unicode] (d : Definition) (oc : Nat) (ops : List Operation)
    (m m' : MarkdownWriter) (t t' : TexWriter)
    (hs : m.heap.map TOCItem.skeleton = t.heap.map TOCItem.skeleton)
    (hm : MarkdownWriter.writeOperations d oc ops m = .ok m')
    (ht : TexWriter.writeOperations d oc ops t = .ok t') :
    m'.heap.map TOCItem.skeleton = t'.heap.map TOCItem.skeleton := by
  induction ops generalizing m t with
  | nil =>
    have e1 : m = m' := by simpa [MarkdownWriter.writeOperations] using hm
    have e2 : t = t' := by simpa [TexWriter.writeOperations] using ht
    rw [← e1, ← e2]
    exact hs
  | cons o os ih =>
    simp only [MarkdownWriter.writeOperations, bind, Except.bind] at hm
    simp only [TexWriter.writeOperations, bind, Except.bind] at ht
    cases h1 : MarkdownWriter.writeOperation d oc o m with
    | error x => simp [h1] at hm
    | ok m1 =>
      cases h2 : TexWriter.writeOperation d oc o t with
      | error x => simp [h2] at ht
      | ok t1 =>
        simp only [h1] at hm
        simp only [h2] at ht
        have e1 := MarkdownWriter.writeOperation_ok d oc o m m1 h1
        obtain ⟨item, hitem, e2⟩ := tex_writeOperation_ok d oc o t t1 h2
        refine ih m1 t1 ?_ hm ht
        rw [e1, e2]
        exact skeleton_alloc _ _ _ _ _ hs hitem.symm

theorem sync_writeCategory [Unicode] (d : Definition) (c : OperationCategory)
    (m m' : MarkdownWriter) (t t' : TexWriter)
    (hs : m.heap.map TOCItem.skeleton = t.heap.map TOCItem.skeleton)
    (hcur : m.CurrentSection = t.CurrentSection)
    (hm : MarkdownWriter.writeCategory d c m = .ok m')
    (ht : TexWriter.writeCategory d c t = .ok t') :
    m'.heap.map TOCItem.skeleton = t'.heap.map TOCItem.skeleton := by
  unfold MarkdownWriter.writeCategory at hm
  unfold TexWriter.writeCategory at ht
  by_cases hz : c.Operations.length = 0
  · simp only [hz, if_true] at hm ht
    have e1 : m = m' := by simpa using hm
    have e2 : t = t' := by simpa using ht
    rw [← e1, ← e2]
    exact hs
  · simp only [hz, if_false, bind, Except.bind, MarkdownWriter.appendToCurrent,
      TexWriter.appendToCurrent] at hm ht
    cases hc : m.CurrentSection with
    | none => simp [hc] at hm
    | some a =>
      have hc2 : t.CurrentSection = some a := by rw [← hcur, hc]
      simp only [hc] at hm
      simp only [hc2] at ht
      rw [← length_of_skeleton _ _ hs] at ht
      refine sync_writeOperations d m.heap.length c.Operations _ m' _ t' ?_ hm ht
      have := skeleton_alloc m.heap t.heap (MarkdownWriter.OCItem d c)
        { Level := 2, Title := c.Name,
          Link := "-strong-" ++ (stringsReplace (stringsToLower c.Name) " " "-" (-1) ++ "-" ++
            d.LinkID) ++ "-strong-",
          File := "", SubSections := [] } a hs rfl
      rw [← length_of_skeleton _ _ hs] at this
      exact this

theorem sync_writeCategories [Unicode] (d : Definition) (cs : List OperationCategory)
    (m m' : MarkdownWriter) (t t' : TexWriter)
    (hs : m.heap.map TOCItem.skeleton = t.heap.map TOCItem.skeleton)
    (hcur : m.CurrentSection = t.CurrentSection)
    (hm : MarkdownWriter.writeCategories d cs m = .ok m')
    (ht : TexWriter.writeCategories d cs t = .ok t') :
    m'.heap.map TOCItem.skeleton = t'.heap.map TOCItem.skeleton := by
  induction cs generalizing m t with
  | nil =>
    have e1 : m = m' := by simpa [MarkdownWriter.writeCategories] using hm
    have e2 : t = t' := by simpa [TexWriter.writeCategories] using ht
    rw [← e1, ← e2]
    exact hs
  | cons c cs ih =>
    simp only [MarkdownWriter.writeCategories, bind, Except.bind] at hm
    simp only [TexWriter.writeCategories, bind, Except.bind] at ht
    cases h1 : MarkdownWriter.writeCategory d c m with
    | error x => simp [h1] at hm
    | ok m1 =>
      cases h2 : TexWriter.writeCategory d c t with
      | error x => simp [h2] at ht
      | ok t1 =>
        simp only [h1] at hm
        simp only [h2] at ht
        have s1 := MarkdownWriter.writeCategory_same d c m m1 h1
        have s2 := tex_writeCategory_same d c t t1 h2
        exact ih m1 t1 (sync_writeCategory d c m m1 t t1 hs hcur h1 h2)
          (by rw [s1.2.2.1, s2.2, hcur]) hm ht

theorem sync_appendSection (m : MarkdownWriter) (t : TexWriter) (i1 i2 : TOCItem)
    (hs : InSync m t) (hi : i1.skeleton = i2.skeleton) :
    InSync (m.appendSection i1) (t.appendSection i2) := by
  obtain ⟨h1, _, h3⟩ := hs
  refine ⟨?_, ?_, ?_⟩
  · simp [MarkdownWriter.appendSection, TexWriter.appendSection, h1, length_of_skeleton _ _ h3]
  · simp [MarkdownWriter.appendSection, TexWriter.appendSection, length_of_skeleton _ _ h3]
  · simp [MarkdownWriter.appendSection, TexWriter.appendSection, h3, hi]

theorem sync_appendToCurrent (m m' : MarkdownWriter) (t t' : TexWriter) (i1 i2 : TOCItem)
    (hs : InSync m t) (hi : i1.skeleton = i2.skeleton)
    (hm : m.appendToCurrent i1 = .ok m') (ht : t.appendToCurrent i2 = .ok t') :
    InSync m' t' := by
  obtain ⟨h1, h2, h3⟩ := hs
  unfold MarkdownWriter.appendToCurrent at hm
  unfold TexWriter.appendToCurrent at ht
  cases hc : m.CurrentSection with
  | none => simp [hc] at hm
  | some a =>
    have hc2 : t.CurrentSection = some a := by rw [← h2, hc]
    simp only [hc] at hm
    simp only [hc2] at ht
    have e1 := Except.ok.inj hm
    have e2 := Except.ok.inj ht
    rw [← e1, ← e2]
    exact ⟨h1, rfl, skeleton_alloc _ _ _ _ a h3 hi⟩

theorem sync_WriteResource [Unicode] (env : Env) (r : Resource) (m m' : MarkdownWriter)
    (t t' : TexWriter) (hs : InSync m t)
    (hm : MarkdownWriter.WriteResource env r m = .ok m')
    (ht : TexWriter.WriteResource env r t = .ok t') : InSync m' t' := by
  unfold MarkdownWriter.WriteResource at hm
  unfold TexWriter.WriteResource at ht
  cases hd : r.Definition with
  | none => simp [hd] at hm
  | some d =>
    simp only [hd] at hm ht
    split at hm
    · exact absurd hm (by simp)
    · split at ht
      · exact absurd ht (by simp)
      · simp only [bind, Except.bind] at ht
        split at ht
        · exact absurd ht (by simp)
        · have s1 := sync_appendSection m t (MarkdownWriter.resourceItem r d)
            { Level := 1, Title := r.Name ++ " " ++ d.Version ++ " " ++ d.GroupDisplayName,
              Link := getLink (r.Name ++ " " ++ d.Version ++ " " ++ d.GroupDisplayName),
              File := "_" ++ conceptFileName d ++ ".tex", SubSections := [] } hs rfl
          by_cases hz : d.OperationCategories.length = 0
          · simp only [hz, if_true] at hm ht
            have e1 := Except.ok.inj hm
            have e2 := Except.ok.inj ht
            rw [← e1, ← e2]
            exact s1
          · simp only [hz, if_false] at hm ht
            have a1 := MarkdownWriter.writeCategories_same d _ _ _ hm
            have a2 := tex_writeCategories_same d _ _ _ ht
            have hh := sync_writeCategories d _ _ m' _ t' s1.2.2 s1.2.1 hm ht
            exact ⟨by rw [a1.2.1, a2.1]; exact s1.1, by rw [a1.2.2.1, a2.2]; exact s1.2.1, hh⟩

theorem sync_call [Unicode] (env : Env) (c : Call) (m m' : MarkdownWriter) (t t' : TexWriter)
    (hs : InSync m t) (hm : c.run MarkdownWriter.docWriter env m = .ok m')
    (ht : c.run TexWriter.docWriter env t = .ok t') : InSync m' t' := by
  cases c with
  | WriteOverview =>
    simp only [Call.run, MarkdownWriter.docWriter, MarkdownWriter.WriteOverview] at hm
    simp only [Call.run, TexWriter.docWriter, TexWriter.WriteOverview, bind, Except.bind] at ht
    split at ht
    · exact absurd ht (by simp)
    · rw [← Except.ok.inj hm, ← Except.ok.inj ht]
      exact sync_appendSection m t _ _ hs rfl
  | WriteAPIGroupVersions gvs => exact absurd ht (by simp [Call.run, TexWriter.docWriter])
  | WriteResourceCategory name file =>
    simp only [Call.run, MarkdownWriter.docWriter, MarkdownWriter.WriteResourceCategory] at hm
    simp only [Call.run, TexWriter.docWriter, TexWriter.WriteResourceCategory, bind,
      Except.bind] at ht
    split at ht
    · exact absurd ht (by simp)
    · rw [← Except.ok.inj hm, ← Except.ok.inj ht]
      exact sync_appendSection m t _ _ hs rfl
  | WriteResource r => exact sync_WriteResource env r m m' t t' hs hm ht
  | WriteDefinitionsOverview =>
    simp only [Call.run, MarkdownWriter.docWriter, MarkdownWriter.WriteDefinitionsOverview,
      bind, Except.bind] at hm
    simp only [Call.run, TexWriter.docWriter, TexWriter.WriteDefinitionsOverview, bind,
      Except.bind] at ht
    split at hm
    · exact absurd hm (by simp)
    · split at ht
      · exact absurd ht (by simp)
      · rw [← Except.ok.inj hm, ← Except.ok.inj ht]
        exact sync_appendSection m t _ _ hs rfl
  | WriteDefinition d =>
    simp only [Call.run, MarkdownWriter.docWriter, MarkdownWriter.WriteDefinition] at hm
    simp only [Call.run, TexWriter.docWriter, TexWriter.WriteDefinition] at ht
    split at hm
    · exact absurd hm (by simp)
    · split at ht
      · exact absurd ht (by simp)
      · exact sync_appendToCurrent m m' t t' (MarkdownWriter.definitionItem d)
          { Level := 2, Title := d.Name ++ " " ++ d.Version ++ " " ++ d.GroupDisplayName,
            Link := getLink (d.Name ++ " " ++ d.Version ++ " " ++ d.GroupDisplayName),
            File := "_" ++ definitionFileName d ++ ".tex", SubSections := [] } hs rfl hm ht
  | WriteOldVersionsOverview =>
    simp only [Call.run, MarkdownWriter.docWriter, MarkdownWriter.WriteOldVersionsOverview,
      bind, Except.bind] at hm
    simp only [Call.run, TexWriter.docWriter, TexWriter.WriteOldVersionsOverview, bind,
      Except.bind] at ht
    split at hm
    · exact absurd hm (by simp)
    · split at ht
      · exact absurd ht (by simp)
      · rw [← Except.ok.inj hm, ← Except.ok.inj ht]
        exact sync_appendSection m t _ _ hs rfl
  | Finalize =>
    simp only [Call.run, MarkdownWriter.docWriter] at hm
    simp only [Call.run, TexWriter.docWriter, TexWriter.Finalize] at ht
    obtain ⟨_, f2, f3, f4⟩ := finalize_frame env m m' hm
    split at ht
    · exact absurd ht (by simp)
    · rw [← Except.ok.inj ht]
      unfold InSync
      rw [f2, f3, f4]
      exact hs

theorem sync_applyAll [Unicode] (env : Env) (cs : List Call) (m m' : MarkdownWriter) (t t' : TexWriter)
    (hs : InSync m t) (hm : Call.applyAll MarkdownWriter.docWriter env cs m = .ok m')
    (ht : Call.applyAll TexWriter.docWriter env cs t = .ok t') : InSync m' t' := by
  induction cs generalizing m t with
  | nil =>
    have e1 : m = m' := by simpa [Call.applyAll] using hm
    have e2 : t = t' := by simpa [Call.applyAll] using ht
    rw [← e1, ← e2]
    exact hs
  | cons c cs ih =>
    simp only [Call.applyAll, bind, Except.bind] at hm ht
    cases h1 : c.run MarkdownWriter.docWriter env m with
    | error x => simp [h1] at hm
    | ok m1 =>
      cases h2 : c.run TexWriter.docWriter env t with
      | error x => simp [h2] at ht
      | ok t1 =>
        simp only [h1] at hm
        simp only [h2] at ht
        exact ih m1 t1 (sync_call env c m m1 t t1 hs h1 h2) hm ht

theorem md_sharedCall_returns [Unicode] (env : Env) (c : Call) (m : MarkdownWriter)
    (hshared : c.isShared = true) (hret : MarkdownWriter.sharedCallReturns env c = true)
    (hcur : c.isSectionLevel = true ∨ m.CurrentSection ≠ none) :
    ∃ m', c.run MarkdownWriter.docWriter env m = .ok m' ∧ m'.CurrentSection ≠ none := by
  by_cases hsec : c.isSectionLevel = true
  · have hret' : MarkdownWriter.sectionCallReturns env c = true := by
      cases c <;> first | exact hret | simp [Call.isSectionLevel] at hsec
    obtain ⟨m', hm'⟩ := MarkdownWriter.sectionCall_returns env c m hret'
    have sp := MarkdownWriter.sectionCall_spec env c m m' hsec hm'
    exact ⟨m', hm', by rw [sp.2.2.1]; simp⟩
  · cases c with
    | WriteDefinition d =>
      have hc : m.CurrentSection ≠ none := hcur.resolve_left hsec
      obtain ⟨a, ha⟩ := Option.ne_none_iff_exists'.mp hc
      simp only [MarkdownWriter.sharedCallReturns, Bool.not_eq_true'] at hret
      simp only [Call.run, MarkdownWriter.docWriter, MarkdownWriter.WriteDefinition, hret,
        MarkdownWriter.appendToCurrent, ha, Bool.false_eq_true, if_false]
      exact ⟨_, rfl, by simp⟩
    | WriteOverview => simp [Call.isSectionLevel] at hsec
    | WriteAPIGroupVersions gvs => simp [Call.isSectionLevel] at hsec
    | WriteResourceCategory name file => simp [Call.isSectionLevel] at hsec
    | WriteResource r => simp [Call.isSectionLevel] at hsec
    | WriteDefinitionsOverview => simp [Call.isSectionLevel] at hsec
    | WriteOldVersionsOverview => simp [Call.isSectionLevel] at hsec
    | Finalize => simp [Call.isShared] at hshared

theorem tex_writeSample_returns (d : Definition)
    (h : (decide (d.SampleSample = "") || d.Samples.all ExampleText.indexable) = true) :
    TexWriter.writeSample d = .ok () := by
  unfold TexWriter.writeSample
  by_cases hs : d.SampleSample = ""
  · simp [hs]
  · simp only [hs, decide_False, Bool.false_or, List.all_eq_true] at h
    simp [hs, tex_sampleButtons_returns _ h, tex_samplePanels_returns _ h, bind, Except.bind]

theorem tex_WriteResource_returns [Unicode] (env : Env) (r : Resource) (d : Definition) (h : TexWriter)
    (hd : r.Definition = some d)
    (hcreate : env.createFails
      (env.ConfigDir ++ "/includes/" ++ ("_" ++ conceptFileName d ++ ".tex")) = false)
    (hsample : (decide (d.SampleSample = "") || d.Samples.all ExampleText.indexable) = true)
    (hex : d.examplesIndexable = true) :
    ∃ h', TexWriter.WriteResource env r h = .ok h' ∧ h'.CurrentSection ≠ none := by
  unfold TexWriter.WriteResource
  simp only [hd, hcreate, Bool.false_eq_true, if_false, tex_writeSample_returns d hsample, bind,
    Except.bind]
  split
  · exact ⟨_, rfl, by simp [TexWriter.appendSection]⟩
  · have hex' : ∀ c ∈ d.OperationCategories, ∀ o ∈ c.Operations,
        (∀ e ∈ o.ExampleRequests, e.indexable = true) ∧
        (∀ e ∈ o.ExampleResponses, e.indexable = true) := by
      intro c hc o ho
      simp only [Definition.examplesIndexable, List.all_eq_true, Bool.and_eq_true] at hex
      exact hex c hc o ho
    obtain ⟨h', hh'⟩ := tex_writeCategories_returns d d.OperationCategories
      (h.appendSection
        { Level := 1, Title := r.Name ++ " " ++ d.Version ++ " " ++ d.GroupDisplayName,
          Link := getLink (r.Name ++ " " ++ d.Version ++ " " ++ d.GroupDisplayName),
          File := "_" ++ conceptFileName d ++ ".tex", SubSections := [] })
      h.heap.length rfl hex'
    refine ⟨h', hh', ?_⟩
    rw [(tex_writeCategories_same d _ _ _ hh').2]
    simp [TexWriter.appendSection]

theorem tex_sharedCall_returns [Unicode] (env : Env) (c : Call) (h : TexWriter)
    (hret : TexWriter.sharedCallReturns env c = true)
    (hcur : c.isSectionLevel = true ∨ h.CurrentSection ≠ none) :
    ∃ h', c.run TexWriter.docWriter env h = .ok h' ∧ h'.CurrentSection ≠ none := by
  cases c with
  | WriteOverview =>
    simp only [TexWriter.sharedCallReturns] at hret
    simp only [Call.run, TexWriter.docWriter, TexWriter.WriteOverview,
      writeStaticFile_returns env _ hret, bind, Except.bind]
    exact ⟨_, rfl, by simp [TexWriter.appendSection]⟩
  | WriteAPIGroupVersions gvs => simp [TexWriter.sharedCallReturns] at hret
  | WriteResourceCategory name file =>
    simp only [TexWriter.sharedCallReturns] at hret
    simp only [Call.run, TexWriter.docWriter, TexWriter.WriteResourceCategory,
      writeStaticFile_returns env _ hret, bind, Except.bind]
    exact ⟨_, rfl, by simp [TexWriter.appendSection]⟩
  | WriteResource r =>
    simp only [TexWriter.sharedCallReturns] at hret
    cases hd : r.Definition with
    | none => simp [hd] at hret
    | some d =>
      simp only [hd, Bool.and_eq_true, Bool.not_eq_true'] at hret
      exact tex_WriteResource_returns env r d h hd hret.1.1 hret.1.2 hret.2
  | WriteDefinitionsOverview =>
    simp only [TexWriter.sharedCallReturns] at hret
    simp only [Call.run, TexWriter.docWriter, TexWriter.WriteDefinitionsOverview,
      writeStaticFile_returns env _ hret, bind, Except.bind]
    exact ⟨_, rfl, by simp [TexWriter.appendSection]⟩
  | WriteDefinition d =>
    have hc : h.CurrentSection ≠ none := hcur.resolve_left (by simp [Call.isSectionLevel])
    obtain ⟨a, ha⟩ := Option.ne_none_iff_exists'.mp hc
    simp only [TexWriter.sharedCallReturns, Bool.not_eq_true'] at hret
    simp only [Call.run, TexWriter.docWriter, TexWriter.WriteDefinition, hret,
      TexWriter.appendToCurrent, ha, Bool.false_eq_true, if_false]
    exact ⟨_, rfl, by simp⟩
  | WriteOldVersionsOverview =>
    simp only [TexWriter.sharedCallReturns] at hret
    simp only [Call.run, TexWriter.docWriter, TexWriter.WriteOldVersionsOverview,
      writeStaticFile_returns env _ hret, bind, Except.bind]
    exact ⟨_, rfl, by simp [TexWriter.appendSection]⟩
  | Finalize => simp [TexWriter.sharedCallReturns] at hret

theorem md_applyAll_returns [Unicode] (env : Env) (cs : List Call) (m : MarkdownWriter)
    (hall : ∀ c ∈ cs, c.isShared = true ∧ MarkdownWriter.sharedCallReturns env c = true)
    (hcur : m.CurrentSection ≠ none) :
    ∃ m', Call.applyAll MarkdownWriter.docWriter env cs m = .ok m' := by
  induction cs generalizing m with
  | nil => exact ⟨m, rfl⟩
  | cons c cs ih =>
    have hc := hall c (List.mem_cons_self _ _)
    obtain ⟨m1, h1, hcur1⟩ := md_sharedCall_returns env c m hc.1 hc.2 (Or.inr hcur)
    obtain ⟨m2, h2⟩ := ih m1 (fun x hx => hall x (List.mem_cons_of_mem _ hx)) hcur1
    exact ⟨m2, by simp [Call.applyAll, bind, Except.bind, h1, h2]⟩

theorem tex_applyAll_returns [Unicode] (env : Env) (cs : List Call) (h : TexWriter)
    (hall : ∀ c ∈ cs, TexWriter.sharedCallReturns env c = true)
    (hcur : h.CurrentSection ≠ none) :
    ∃ h', Call.applyAll TexWriter.docWriter env cs h = .ok h' := by
  induction cs generalizing h with
  | nil => exact ⟨h, rfl⟩
  | cons c cs ih =>
    obtain ⟨t1, h1, hcur1⟩ := tex_sharedCall_returns env c h (hall c (List.mem_cons_self _ _))
      (Or.inr hcur)
    obtain ⟨t2, h2⟩ := ih t1 (fun x hx => hall x (List.mem_cons_of_mem _ hx)) hcur1
    exact ⟨t2, by simp [Call.applyAll, bind, Except.bind, h1, h2]⟩

/-- C13: for every sequence of shared writer operations that starts with a
section-level operation, applied to a fresh Markdown writer and to a fresh TeX
writer: both runs return when the files can be written and the examples can be
indexed, and whenever both return the two tables of contents have the same
number of sections and, read to any depth, items of the same level and the same
number of sub-sections. -/
theorem markdown_and_tex_toc_in_sync [Unicode] (env : Env) (config : Config) (copyright title : String)
    (c : Call) (cs : List Call) (hstart : c.isSectionLevel = true)
    (hshared : ∀ x ∈ c :: cs, x.isShared = true) :
    ((∀ x ∈ c :: cs, MarkdownWriter.sharedCallReturns env x = true ∧
        TexWriter.sharedCallReturns env x = true) →
      ∃ m' t',
        Call.applyAll MarkdownWriter.docWriter env (c :: cs)
          (NewMarkdownWriter config copyright title) = .ok m' ∧
        Call.applyAll TexWriter.docWriter env (c :: cs)
          (NewTexWriter config copyright title) = .ok t') ∧
    ∀ m' t',
      Call.applyAll MarkdownWriter.docWriter env (c :: cs)
        (NewMarkdownWriter config copyright title) = .ok m' →
      Call.applyAll TexWriter.docWriter env (c :: cs)
        (NewTexWriter config copyright title) = .ok t' →
      m'.TOC.Sections.length = t'.toc.Sections.length ∧
      ∀ depth, m'.TOC.Sections.map (shapeAt m'.heap depth) =
        t'.toc.Sections.map (shapeAt t'.heap depth) := by
  constructor
  · intro hret
    have hc := hret c (List.mem_cons_self _ _)
    obtain ⟨m1, hm1, hcm⟩ := md_sharedCall_returns env c
      (NewMarkdownWriter config copyright title) (hshared c (List.mem_cons_self _ _)) hc.1
      (Or.inl hstart)
    obtain ⟨t1, ht1, hct⟩ := tex_sharedCall_returns env c (NewTexWriter config copyright title)
      hc.2 (Or.inl hstart)
    obtain ⟨m2, hm2⟩ := md_applyAll_returns env cs m1
      (fun x hx => ⟨hshared x (List.mem_cons_of_mem _ hx),
        (hret x (List.mem_cons_of_mem _ hx)).1⟩) hcm
    obtain ⟨t2, ht2⟩ := tex_applyAll_returns env cs t1
      (fun x hx => (hret x (List.mem_cons_of_mem _ hx)).2) hct
    exact ⟨m2, t2, by simp [Call.applyAll, bind, Except.bind, hm1, hm2],
      by simp [Call.applyAll, bind, Except.bind, ht1, ht2]⟩
  · intro m' t' hm ht
    have hs : InSync (NewMarkdownWriter config copyright title)
        (NewTexWriter config copyright title) := ⟨rfl, rfl, rfl⟩
    obtain ⟨h1, _, h3⟩ := sync_applyAll env (c :: cs) _ m' _ t' hs hm ht
    refine ⟨by rw [h1], fun depth => ?_⟩
    rw [h1, funext (shapeAt_skeleton m'.heap t'.heap h3 depth)]

/-- Witness of C13: a sample sequence of the six shared operations. -/
theorem markdown_and_tex_toc_in_sync_witness :
    ∃ m' t',
      Call.applyAll MarkdownWriter.docWriter sampleEnv (Call.WriteOverview :: sampleCalls)
        (NewMarkdownWriter sampleConfig "c" "t") = .ok m' ∧
      Call.applyAll TexWriter.docWriter sampleEnv (Call.WriteOverview :: sampleCalls)
        (NewTexWriter sampleConfig "c" "t") = .ok t' ∧
      m'.TOC.Sections.length = t'.toc.Sections.length := by
  have h := markdown_and_tex_toc_in_sync sampleEnv sampleConfig "c" "t" Call.WriteOverview
    sampleCalls rfl (by decide)
  obtain ⟨m', t', hm, ht⟩ := h.1 (by decide)
  exact ⟨m', t', hm, ht, (h.2 m' t' hm ht).1⟩

/-! ## Lemmas on valid pointers -/

theorem heapForward_alloc (h : List TOCItem) (item : TOCItem) (p : Nat)
    (hf : HeapForward h) (hi : item.SubSections = []) (hp : p < h.length) :
    HeapForward (heapAppendSub (h ++ [item]) p h.length) := by
  intro x it hx b hb
  rw [length_heapAppendSub]
  simp only [List.length_append, List.length_singleton]
  rw [getElem?_heapAppendSub] at hx
  by_cases hxp : x = p
  · rw [if_pos hxp, List.getElem?_append_left hp] at hx
    cases hpe : h[p]? with
    | none => simp [hpe] at hx
    | some it0 =>
      simp only [hpe, Option.map_some', Option.some.injEq] at hx
      rw [← hx] at hb
      simp only [TOCItem.addSubs, List.mem_append, List.mem_singleton] at hb
      rcases hb with hb | hb
      · have := hf p it0 hpe b hb
        omega
      · omega
  · rw [if_neg hxp] at hx
    by_cases hlt : x < h.length
    · rw [List.getElem?_append_left hlt] at hx
      have := hf x it hx b hb
      omega
    · have hxe : x = h.length := by
        have : x < (h ++ [item]).length := by
          rcases List.getElem?_eq_some.mp hx with ⟨hlt', _⟩
          exact hlt'
        simp at this
        omega
      rw [hxe, List.getElem?_concat_length] at hx
      have : it = item := (Option.some.inj hx).symm
      rw [this, hi] at hb
      simp at hb

theorem heapForward_snoc (h : List TOCItem) (item : TOCItem) (hf : HeapForward h)
    (hi : item.SubSections = []) : HeapForward (h ++ [item]) := by
  intro x it hx b hb
  simp only [List.length_append, List.length_singleton]
  by_cases hlt : x < h.length
  · rw [List.getElem?_append_left hlt] at hx
    have := hf x it hx b hb
    omega
  · have hxe : x = h.length := by
      have : x < (h ++ [item]).length := by
        rcases List.getElem?_eq_some.mp hx with ⟨hlt', _⟩
        exact hlt'
      simp at this
      omega
    rw [hxe, List.getElem?_concat_length] at hx
    have : it = item := (Option.some.inj hx).symm
    rw [this, hi] at hb
    simp at hb

namespace MarkdownWriter

theorem wellFormed_new (config : GenApidocs.Config) (copyright title : String) :
    (NewMarkdownWriter config copyright title).WellFormed := by
  refine ⟨?_, ?_⟩
  · intro x it hx
    simp [NewMarkdownWriter] at hx
  · intro a ha
    simp [NewMarkdownWriter] at ha

theorem wellFormed_appendSection (m : MarkdownWriter) (item : TOCItem) (hw : m.WellFormed)
    (hi : item.SubSections = []) : (m.appendSection item).WellFormed := by
  refine ⟨heapForward_snoc _ _ hw.1 hi, ?_⟩
  intro a ha
  simp only [appendSection, Option.some.injEq] at ha
  simp [appendSection, ← ha]

theorem wellFormed_appendToCurrent (m m' : MarkdownWriter) (item : TOCItem)
    (hw : m.WellFormed) (hi : item.SubSections = [])
    (h : m.appendToCurrent item = .ok m') : m'.WellFormed := by
  unfold appendToCurrent at h
  cases hc : m.CurrentSection with
  | none => simp [hc] at h
  | some a =>
    simp only [hc] at h
    rw [← Except.ok.inj h]
    have ha : (a : Nat) < m.heap.length := hw.2 a hc
    refine ⟨heapForward_alloc _ _ _ hw.1 hi ha, ?_⟩
    intro b hb
    simp only [Option.some.injEq] at hb
    rw [length_heapAppendSub]
    simp only [List.length_append, List.length_singleton]
    rw [← hb]
    exact Nat.lt_succ_of_lt ha

theorem wellFormed_writeOperations [Unicode] (d : Definition) (oc : Nat) (ops : List Operation)
    (m m' : MarkdownWriter) (hw : m.WellFormed) (hoc : oc < m.heap.length)
    (h : writeOperations d oc ops m = .ok m') : m'.WellFormed := by
  induction ops generalizing m with
  | nil =>
    have e : m = m' := by simpa [writeOperations] using h
    rw [← e]
    exact hw
  | cons o os ih =>
    simp only [writeOperations, bind, Except.bind] at h
    cases h1 : writeOperation d oc o m with
    | error x => simp [h1] at h
    | ok m1 =>
      simp only [h1] at h
      have e1 := writeOperation_ok d oc o m m1 h1
      have hw1 : m1.WellFormed := by
        rw [e1]
        refine ⟨heapForward_alloc _ _ _ hw.1 rfl hoc, ?_⟩
        intro a ha
        have hlt : (a : Nat) < m.heap.length := hw.2 a ha
        simp only [length_heapAppendSub, List.length_append, List.length_singleton]
        exact Nat.lt_succ_of_lt hlt
      have hoc1 : oc < m1.heap.length := by
        rw [e1]
        simp only [length_heapAppendSub, List.length_append, List.length_singleton]
        omega
      exact ih m1 hw1 hoc1 h

theorem wellFormed_writeCategories [Unicode] (d : Definition) (cs : List OperationCategory)
    (m m' : MarkdownWriter) (hw : m.WellFormed)
    (h : writeCategories d cs m = .ok m') : m'.WellFormed := by
  induction cs generalizing m with
  | nil =>
    have e : m = m' := by simpa [writeCategories] using h
    rw [← e]
    exact hw
  | cons c cs ih =>
    simp only [writeCategories, bind, Except.bind] at h
    cases h1 : writeCategory d c m with
    | error x => simp [h1] at h
    | ok m1 =>
      simp only [h1] at h
      refine ih m1 ?_ h
      unfold writeCategory at h1
      split at h1
      · have e : m = m1 := by simpa using h1
        rw [← e]
        exact hw
      · simp only [bind, Except.bind] at h1
        cases h2 : m.appendToCurrent (OCItem d c) with
        | error x => simp [h2] at h1
        | ok m2 =>
          simp only [h2] at h1
          have hw2 := wellFormed_appendToCurrent m m2 _ hw rfl h2
          have hlen : m.heap.length < m2.heap.length := by
            unfold appendToCurrent at h2
            cases hc : m.CurrentSection with
            | none => simp [hc] at h2
            | some a =>
              simp only [hc] at h2
              rw [← Except.ok.inj h2]
              simp only [length_heapAppendSub, List.length_append, List.length_singleton]
              omega
          exact wellFormed_writeOperations d _ _ m2 m1 hw2 hlen h1

theorem wellFormed_call [Unicode] (env : Env) (c : Call) (m m' : MarkdownWriter) (hw : m.WellFormed)
    (h : c.run docWriter env m = .ok m') : m'.WellFormed := by
  cases c with
  | WriteOverview =>
    rw [← Except.ok.inj h]
    exact wellFormed_appendSection m _ hw rfl
  | WriteAPIGroupVersions gvs =>
    simp only [Call.run, docWriter, WriteAPIGroupVersions] at h
    split at h
    · exact absurd h (by simp)
    · rw [← Except.ok.inj h]
      exact wellFormed_appendSection m _ hw rfl
  | WriteResourceCategory name file =>
    rw [← Except.ok.inj h]
    exact wellFormed_appendSection m _ hw rfl
  | WriteResource r =>
    simp only [Call.run, docWriter, WriteResource] at h
    cases hd : r.Definition with
    | none => simp [hd] at h
    | some d =>
      simp only [hd] at h
      split at h
      · exact absurd h (by simp)
      · have hw1 := wellFormed_appendSection m (resourceItem r d) hw rfl
        split at h
        · rw [← Except.ok.inj h]
          exact hw1
        · exact wellFormed_writeCategories d _ _ m' hw1 h
  | WriteDefinitionsOverview =>
    simp only [Call.run, docWriter, WriteDefinitionsOverview, bind, Except.bind] at h
    split at h
    · exact absurd h (by simp)
    · rw [← Except.ok.inj h]
      exact wellFormed_appendSection m _ hw rfl
  | WriteDefinition d =>
    simp only [Call.run, docWriter, WriteDefinition] at h
    split at h
    · exact absurd h (by simp)
    · exact wellFormed_appendToCurrent m m' _ hw rfl h
  | WriteOldVersionsOverview =>
    simp only [Call.run, docWriter, WriteOldVersionsOverview, bind, Except.bind] at h
    split at h
    · exact absurd h (by simp)
    · rw [← Except.ok.inj h]
      exact wellFormed_appendSection m _ hw rfl
  | Finalize =>
    simp only [Call.run, docWriter] at h
    obtain ⟨_, _, f3, f4⟩ := finalize_frame env m m' h
    unfold WellFormed
    rw [f3, f4]
    exact hw

theorem wellFormed_applyAll [Unicode] (env : Env) (cs : List Call) (m m' : MarkdownWriter)
    (hw : m.WellFormed) (h : Call.applyAll docWriter env cs m = .ok m') : m'.WellFormed := by
  induction cs generalizing m with
  | nil =>
    have e : m = m' := by simpa [Call.applyAll] using h
    rw [← e]
    exact hw
  | cons c cs ih =>
    simp only [Call.applyAll, bind, Except.bind] at h
    cases h1 : c.run docWriter env m with
    | error x => simp [h1] at h
    | ok m1 =>
      simp only [h1] at h
      exact ih m1 (wellFormed_call env c m m1 hw h1) h

end MarkdownWriter

/-! ## The run of `GenerateFiles` as a sequence of calls -/

theorem applyAll_append {W : Type} (dw : DocWriter W) (env : Env) (xs ys : List Call) (w : W) :
    Call.applyAll dw env (xs ++ ys) w =
      (Call.applyAll dw env xs w).bind (Call.applyAll dw env ys) := by
  induction xs generalizing w with
  | nil => rfl
  | cons c cs ih =>
    simp only [List.cons_append, Call.applyAll, bind]
    cases h : c.run dw env w with
    | error e => rfl
    | ok w1 => simp [Except.bind, ih]

theorem runAll_eq_applyAll {W : Type} (dw : DocWriter W) (env : Env) (cs : List Call)
    (s : Run W) :
    Call.runAll dw env cs s =
      (Call.applyAll dw env cs s.writer).map (fun w => { s with writer := w }) := by
  induction cs generalizing s with
  | nil => rfl
  | cons c cs ih =>
    simp only [Call.runAll, Call.applyAll, Run.call, bind, Except.bind]
    cases h : c.run dw env s.writer with
    | error e => rfl
    | ok w1 => simp [ih, Except.map]

theorem bind_map_print {W : Type} (lines : List String) (r : Except Fault (Run W))
    (f : Run W → Except Fault (Run W))
    (hf : ∀ s, f (s.print lines) = (f s).map (Run.print lines)) :
    (r.map (Run.print lines)).bind f = (r.bind f).map (Run.print lines) := by
  cases r with
  | error e => rfl
  | ok s => exact hf s

theorem generate_tail_runAll {W : Type} (dw : DocWriter W) (env : Env) (config : Config)
    (s : Run W) :
    ((definitionsPass dw env config s).bind (oldVersionsPass dw env config)).bind
        (Run.call (dw.Finalize env)) =
      Call.runAll dw env
        ((Call.WriteDefinitionsOverview ::
            (sortedDefinitions env config).map Call.WriteDefinition) ++
          callsAfterDefinitions env config) s := by
  have hafter : callsAfterDefinitions env config =
      (Call.WriteOldVersionsOverview ::
        ((sortedOldVersions env config).filter (fun d => !d.IsInlined)).map
          (fun d => Call.WriteResource (oldVersionResource d))) ++ [Call.Finalize] := by
    simp [callsAfterDefinitions]
  rw [hafter, runAll_append, definitionsPass_runAll]
  cases Call.runAll dw env (Call.WriteDefinitionsOverview ::
      (sortedDefinitions env config).map Call.WriteDefinition) s with
  | error e => rfl
  | ok s4 =>
    simp only [Except.bind]
    rw [oldVersionsPass_runAll, runAll_append]
    cases Call.runAll dw env (Call.WriteOldVersionsOverview ::
        ((sortedOldVersions env config).filter (fun d => !d.IsInlined)).map
          (fun d => Call.WriteResource (oldVersionResource d))) s4 with
    | error e => rfl
    | ok s5 =>
      simp only [Call.runAll, Call.run, bind, Except.bind]
      cases s5.call (dw.Finalize env) <;> rfl

theorem generate_runAll {W : Type} (dw : DocWriter W) (env : Env) (config : Config)
    (s : Run W) :
    generate dw env config s =
      (Call.runAll dw env (generateCalls env config) s).map
        (Run.print (resourceCategoryWarnings config.ResourceCategories)) := by
  have hgen : generate dw env config s =
      ((s.call (dw.WriteOverview env)).bind
        (Run.call (dw.WriteAPIGroupVersions env config.Definitions.GroupVersions))).bind
        (fun s2 => (writeResourceCategories dw env config.ResourceCategories s2).bind
          (fun s3 => ((definitionsPass dw env config s3).bind
            (oldVersionsPass dw env config)).bind (Run.call (dw.Finalize env)))) := by
    simp only [generate, bind]
    cases s.call (dw.WriteOverview env) with
    | error e => rfl
    | ok s1 =>
      simp only [Except.bind]
      cases s1.call (dw.WriteAPIGroupVersions env config.Definitions.GroupVersions) with
      | error e => rfl
      | ok s2 =>
        simp only [Except.bind]
        cases writeResourceCategories dw env config.ResourceCategories s2 with
        | error e => rfl
        | ok s3 =>
          simp only [Except.bind]
          cases definitionsPass dw env config s3 with
          | error e => rfl
          | ok s4 => rfl
  have hcalls : generateCalls env config =
      [Call.WriteOverview, Call.WriteAPIGroupVersions config.Definitions.GroupVersions] ++
        (resourceCategoryCalls config.ResourceCategories ++
          ((Call.WriteDefinitionsOverview ::
              (sortedDefinitions env config).map Call.WriteDefinition) ++
            callsAfterDefinitions env config)) := by
    simp [generateCalls, callsBeforeDefinitions]
  have hhead : ∀ s0 : Run W,
      Call.runAll dw env
        [Call.WriteOverview, Call.WriteAPIGroupVersions config.Definitions.GroupVersions] s0 =
      (s0.call (dw.WriteOverview env)).bind
        (Run.call (dw.WriteAPIGroupVersions env config.Definitions.GroupVersions)) := by
    intro s0
    simp only [Call.runAll, Call.run, bind]
    cases s0.call (dw.WriteOverview env) with
    | error e => rfl
    | ok s1 =>
      simp only [Except.bind]
      cases s1.call (dw.WriteAPIGroupVersions env config.Definitions.GroupVersions) <;> rfl
  rw [hgen, hcalls, runAll_append, hhead]
  cases (s.call (dw.WriteOverview env)).bind
      (Run.call (dw.WriteAPIGroupVersions env config.Definitions.GroupVersions)) with
  | error e => rfl
  | ok s2 =>
    have hfun : (fun s3 => ((definitionsPass dw env config s3).bind
        (oldVersionsPass dw env config)).bind (Run.call (dw.Finalize env))) =
        Call.runAll dw env ((Call.WriteDefinitionsOverview ::
            (sortedDefinitions env config).map Call.WriteDefinition) ++
          callsAfterDefinitions env config) :=
      funext (generate_tail_runAll dw env config)
    show (writeResourceCategories dw env config.ResourceCategories s2).bind _ =
      Except.map _ (Call.runAll dw env _ s2)
    rw [hfun, runAll_append, writeResourceCategories_runAll]
    exact bind_map_print (resourceCategoryWarnings config.ResourceCategories)
      (Call.runAll dw env (resourceCategoryCalls config.ResourceCategories) s2)
      (Call.runAll dw env ((Call.WriteDefinitionsOverview ::
            (sortedDefinitions env config).map Call.WriteDefinition) ++
          callsAfterDefinitions env config))
      (fun s0 => runAll_print dw env _ _ s0)

theorem run_markdown_lift [Unicode] {H : Type} (html : DocWriter H) (env : Env) (c : Call)
    (m : MarkdownWriter) :
    c.run (Writer.docWriter html) env (Writer.MarkdownWriter m) =
      (c.run MarkdownWriter.docWriter env m).map Writer.MarkdownWriter := by
  cases c <;> rfl

theorem applyAll_markdown_lift [Unicode] {H : Type} (html : DocWriter H) (env : Env) (cs : List Call)
    (m : MarkdownWriter) :
    Call.applyAll (Writer.docWriter html) env cs (Writer.MarkdownWriter m) =
      (Call.applyAll MarkdownWriter.docWriter env cs m).map Writer.MarkdownWriter := by
  induction cs generalizing m with
  | nil => rfl
  | cons c cs ih =>
    simp only [Call.applyAll, bind, run_markdown_lift]
    cases h : c.run MarkdownWriter.docWriter env m with
    | error e => rfl
    | ok m1 => simp [Except.bind, Except.map, ih]

theorem generateFiles_markdown [Unicode] (html : HTMLBackend) (env : Env) (config : Config)
    (format : String) (hf : format ≠ "html") :
    GenerateFiles html env config format =
      (Call.applyAll MarkdownWriter.docWriter env (generateCalls env config)
        (NewMarkdownWriter config (GenerateFiles.copyright env format)
          (GenerateFiles.title env))).map
        (fun m => { writer := Writer.MarkdownWriter m,
                    stdout := env.PrintInfo config ++
                      resourceCategoryWarnings config.ResourceCategories }) := by
  simp only [GenerateFiles, GenerateFiles.writer, hf, if_false, generate_runAll,
    runAll_eq_applyAll, applyAll_markdown_lift]
  cases Call.applyAll MarkdownWriter.docWriter env (generateCalls env config)
    (NewMarkdownWriter config (GenerateFiles.copyright env format) (GenerateFiles.title env)) <;>
    rfl

/-! ## The definitions pass of the Markdown writer -/

theorem applyAll_append_ok {W : Type} (dw : DocWriter W) (env : Env) (xs ys : List Call)
    (w w' : W) (h : Call.applyAll dw env (xs ++ ys) w = .ok w') :
    ∃ w1, Call.applyAll dw env xs w = .ok w1 ∧ Call.applyAll dw env ys w1 = .ok w' := by
  rw [applyAll_append] at h
  cases h1 : Call.applyAll dw env xs w with
  | error e => simp [h1, Except.bind] at h
  | ok w1 =>
    simp only [h1, Except.bind] at h
    exact ⟨w1, rfl, h⟩

theorem applyAll_cons_ok {W : Type} (dw : DocWriter W) (env : Env) (c : Call) (cs : List Call)
    (w w' : W) (h : Call.applyAll dw env (c :: cs) w = .ok w') :
    ∃ w1, c.run dw env w = .ok w1 ∧ Call.applyAll dw env cs w1 = .ok w' := by
  simp only [Call.applyAll, bind, Except.bind] at h
  cases h1 : c.run dw env w with
  | error e => simp [h1] at h
  | ok w1 =>
    simp only [h1] at h
    exact ⟨w1, rfl, h⟩

namespace MarkdownWriter

theorem WriteDefinition_ok [Unicode] (env : Env) (d : Definition) (m m' : MarkdownWriter)
    (h : WriteDefinition env d m = .ok m') :
    ∃ cur, m.CurrentSection = some cur ∧
      m' = { m with heap := heapAppendSub (m.heap ++ [definitionItem d]) cur m.heap.length } := by
  simp only [WriteDefinition] at h
  split at h
  · exact absurd h (by simp)
  · unfold appendToCurrent at h
    cases hc : m.CurrentSection with
    | none => simp [hc] at h
    | some cur =>
      simp only [hc] at h
      exact ⟨cur, rfl, (Except.ok.inj h).symm⟩

theorem WriteDefinitionsOverview_ok (env : Env) (m m' : MarkdownWriter)
    (h : WriteDefinitionsOverview env m = .ok m') :
    m' = m.appendSection
      { Level := 1, Title := "DEFINITIONS", Link := "definitions", File := "definitions.md",
        SubSections := [] } := by
  simp only [WriteDefinitionsOverview, bind, Except.bind] at h
  split at h
  · exact absurd h (by simp)
  · exact (Except.ok.inj h).symm

theorem writeDefinitions_structure [Unicode] (env : Env) (ds : List Definition) (m m' : MarkdownWriter)
    (a : Nat) (hcur : m.CurrentSection = some a) (ha : a < m.heap.length)
    (h : Call.applyAll docWriter env (ds.map Call.WriteDefinition) m = .ok m') :
    m'.TOC = m.TOC ∧ m'.CurrentSection = some a ∧
    m'.heap.length = m.heap.length + ds.length ∧
    m'.heap[a]? = (m.heap[a]?).map
      (fun it => it.addSubs (List.range' m.heap.length ds.length)) ∧
    (∀ x, x < m.heap.length → x ≠ a → m'.heap[x]? = m.heap[x]?) ∧
    (∀ i d, ds[i]? = some d → m'.heap[m.heap.length + i]? = some (definitionItem d)) := by
  induction ds generalizing m with
  | nil =>
    have e : m = m' := by simpa [Call.applyAll] using h
    rw [← e]
    refine ⟨rfl, hcur, rfl, ?_, fun _ _ _ => rfl, ?_⟩
    · cases m.heap[a]? <;> simp [addSubs_nil]
    · intro i d hi
      simp at hi
  | cons d0 ds ih =>
    obtain ⟨m1, h1, h2⟩ := applyAll_cons_ok docWriter env _ _ m m' h
    obtain ⟨cur, hc, e1⟩ := WriteDefinition_ok env d0 m m1 h1
    have hca : cur = a := Option.some.inj (hc.symm.trans hcur)
    rw [hca] at e1
    have hheap : m1.heap = heapAppendSub (m.heap ++ [definitionItem d0]) a m.heap.length := by
      rw [e1]
    have hlen : m1.heap.length = m.heap.length + 1 := by
      rw [hheap, length_heapAppendSub]; simp
    have hcur1 : m1.CurrentSection = some a := by rw [e1]; exact hcur
    have htoc1 : m1.TOC = m.TOC := by rw [e1]
    have g := heapGrows_alloc m.heap (definitionItem d0) a ha
    rw [← hheap] at g
    obtain ⟨i1, i2, i3, i4, i5, i6⟩ := ih m1 hcur1 (by omega) h2
    refine ⟨i1.trans htoc1, i2, by rw [i3, hlen]; simp; omega, ?_, ?_, ?_⟩
    · rw [i4, g.at_p, hlen]
      cases m.heap[a]? with
      | none => rfl
      | some it =>
        simp only [Option.map_some', addSubs_addSubs, List.length_cons]
        rfl
    · intro x hx hxa
      rw [i5 x (by omega) hxa, g.frame x hx hxa]
    · intro i d hi
      cases i with
      | zero =>
        simp only [List.getElem?_cons_zero, Option.some.injEq] at hi
        have hne : m.heap.length ≠ a := by omega
        rw [Nat.add_zero, i5 _ (by omega) hne, hheap, getElem?_alloc _ _ _ ha, hi]
      | succ j =>
        simp only [List.getElem?_cons_succ] at hi
        have := i6 j d hi
        rw [hlen] at this
        rw [← this]
        congr 1
        omega

theorem frame_call [Unicode] (env : Env) (c : Call) (m m' : MarkdownWriter)
    (hc : c.isSectionLevel = true ∨ c = Call.Finalize)
    (h : c.run docWriter env m = .ok m') :
    m.heap.length ≤ m'.heap.length ∧
    (∀ x, x < m.heap.length → m'.heap[x]? = m.heap[x]?) ∧
    (∀ a ∈ m.TOC.Sections, a ∈ m'.TOC.Sections) := by
  rcases hc with hc | hc
  · obtain ⟨s1, ⟨it, hit, _⟩, _, s4⟩ := sectionCall_spec env c m m' hc h
    refine ⟨?_, s4, ?_⟩
    · rcases List.getElem?_eq_some.mp hit with ⟨hlt, _⟩
      omega
    · intro a ha
      rw [s1]
      exact List.mem_append_left _ ha
  · rw [hc] at h
    simp only [Call.run, docWriter] at h
    obtain ⟨_, f2, _, f4⟩ := finalize_frame env m m' h
    rw [f2, f4]
    exact ⟨Nat.le_refl _, fun _ _ => rfl, fun _ ha => ha⟩

theorem frame_applyAll [Unicode] (env : Env) (cs : List Call) (m m' : MarkdownWriter)
    (hcs : ∀ c ∈ cs, c.isSectionLevel = true ∨ c = Call.Finalize)
    (h : Call.applyAll docWriter env cs m = .ok m') :
    m.heap.length ≤ m'.heap.length ∧
    (∀ x, x < m.heap.length → m'.heap[x]? = m.heap[x]?) ∧
    (∀ a ∈ m.TOC.Sections, a ∈ m'.TOC.Sections) := by
  induction cs generalizing m with
  | nil =>
    have e : m = m' := by simpa [Call.applyAll] using h
    rw [← e]
    exact ⟨Nat.le_refl _, fun _ _ => rfl, fun _ ha => ha⟩
  | cons c cs ih =>
    obtain ⟨m1, h1, h2⟩ := applyAll_cons_ok docWriter env _ _ m m' h
    obtain ⟨f1, f2, f3⟩ := frame_call env c m m1 (hcs c (List.mem_cons_self _ _)) h1
    obtain ⟨g1, g2, g3⟩ := ih m1 (fun x hx => hcs x (List.mem_cons_of_mem _ hx)) h2
    exact ⟨Nat.le_trans f1 g1, fun x hx => by rw [g2 x (by omega), f2 x hx],
      fun a ha => g3 a (f3 a ha)⟩

end MarkdownWriter

theorem callsAfterDefinitions_kind (env : Env) (config : Config) :
    ∀ c ∈ callsAfterDefinitions env config, c.isSectionLevel = true ∨ c = Call.Finalize := by
  intro c hc
  simp only [callsAfterDefinitions, List.mem_cons, List.mem_append, List.mem_map,
    List.mem_singleton, List.not_mem_nil, or_false] at hc
  rcases hc with rfl | ⟨d, _, rfl⟩ | rfl
  · exact Or.inl rfl
  · exact Or.inl rfl
  · exact Or.inr rfl

theorem definitions_pass_state [Unicode] (env : Env) (before : List Call) (ds : List Definition)
    (m0 m : MarkdownWriter) (hw : m0.WellFormed)
    (h : Call.applyAll MarkdownWriter.docWriter env
      (before ++ Call.WriteDefinitionsOverview :: ds.map Call.WriteDefinition) m0 = .ok m) :
    ∃ m3, Call.applyAll MarkdownWriter.docWriter env before m0 = .ok m3 ∧ m3.WellFormed ∧
      m.TOC.Sections = m3.TOC.Sections ++ [m3.heap.length] ∧
      m.CurrentSection = some m3.heap.length ∧
      m.heap.length = m3.heap.length + 1 + ds.length ∧
      m.heap[m3.heap.length]? = some
        { Level := 1, Title := "DEFINITIONS", Link := "definitions", File := "definitions.md",
          SubSections := List.range' (m3.heap.length + 1) ds.length } ∧
      (∀ x, x < m3.heap.length → m.heap[x]? = m3.heap[x]?) ∧
      (∀ i d, ds[i]? = some d →
        m.heap[m3.heap.length + 1 + i]? = some (MarkdownWriter.definitionItem d)) := by
  obtain ⟨m3, h3, hrest⟩ := applyAll_append_ok _ env _ _ m0 m h
  obtain ⟨m4, h4, h5⟩ := applyAll_cons_ok _ env _ _ m3 m hrest
  have hw3 := MarkdownWriter.wellFormed_applyAll env before m0 m3 hw h3
  have e4 := MarkdownWriter.WriteDefinitionsOverview_ok env m3 m4 h4
  have hcur4 : m4.CurrentSection = some m3.heap.length := by
    rw [e4]; rfl
  have hlen4 : m4.heap.length = m3.heap.length + 1 := by
    rw [e4]; simp [MarkdownWriter.appendSection]
  have hat4 : m4.heap[m3.heap.length]? = some
      { Level := 1, Title := "DEFINITIONS", Link := "definitions", File := "definitions.md",
        SubSections := [] } := by
    rw [e4]; simp [MarkdownWriter.appendSection]
  have hframe4 : ∀ x, x < m3.heap.length → m4.heap[x]? = m3.heap[x]? := by
    intro x hx
    rw [e4]
    simp [MarkdownWriter.appendSection, List.getElem?_append_left hx]
  obtain ⟨s1, s2, s3, s4, s5, s6⟩ := MarkdownWriter.writeDefinitions_structure env ds m4 m
    m3.heap.length hcur4 (by omega) h5
  refine ⟨m3, h3, hw3, ?_, s2, by rw [s3, hlen4], ?_, ?_, ?_⟩
  · rw [s1, e4]; rfl
  · rw [s4, hat4, hlen4]
    rfl
  · intro x hx
    rw [s5 x (by omega) (by omega), hframe4 x hx]
  · intro i d hi
    have := s6 i d hi
    rw [hlen4] at this
    exact this

/-- C14: in `GenerateFiles` with the Markdown writer, which runs the calls of
`generateCalls`, every `WriteDefinition` is called in a state whose current
section is the DEFINITIONS section appended by `WriteDefinitionsOverview`, so it
does not dereference nil; and when the run returns, the item of every definition
is a sub-section of the DEFINITIONS section and of no other item. -/
theorem definitions_written_under_definitions_section [Unicode] (env : Env) (config : Config)
    (copyright title : String) :
    (∀ (html : HTMLBackend) (format : String), format ≠ "html" →
      GenerateFiles html env config format =
        (Call.applyAll MarkdownWriter.docWriter env (generateCalls env config)
          (NewMarkdownWriter config (GenerateFiles.copyright env format)
            (GenerateFiles.title env))).map
          (fun m => { writer := Writer.MarkdownWriter m,
                      stdout := env.PrintInfo config ++
                        resourceCategoryWarnings config.ResourceCategories })) ∧
    (∀ pre d post m, sortedDefinitions env config = pre ++ d :: post →
      Call.applyAll MarkdownWriter.docWriter env
        (callsBeforeDefinitions config ++
          Call.WriteDefinitionsOverview :: pre.map Call.WriteDefinition)
        (NewMarkdownWriter config copyright title) = .ok m →
      ∃ (a : Nat) (item : TOCItem), m.CurrentSection = some a ∧ m.heap[a]? = some item ∧
        item.Title = "DEFINITIONS" ∧ item.Level = 1 ∧ m.TOC.Sections.getLast? = some a ∧
        MarkdownWriter.WriteDefinition env d m ≠ .error .nilDereference) ∧
    (∀ mF, Call.applyAll MarkdownWriter.docWriter env (generateCalls env config)
        (NewMarkdownWriter config copyright title) = .ok mF →
      ∃ (a : Nat) (item : TOCItem), a ∈ mF.TOC.Sections ∧ mF.heap[a]? = some item ∧
        item.Title = "DEFINITIONS" ∧
        item.SubSections = List.range' (a + 1) (sortedDefinitions env config).length ∧
        (∀ i d, (sortedDefinitions env config)[i]? = some d →
          mF.heap[a + 1 + i]? = some (MarkdownWriter.definitionItem d)) ∧
        (∀ x : Nat, x ≠ a → ∀ b : Nat, b ∈ itemSubs mF.heap x →
          ¬(a < b ∧ b ≤ a + (sortedDefinitions env config).length))) := by
  refine ⟨fun html format hf => generateFiles_markdown html env config format hf, ?_, ?_⟩
  · intro pre d post m _ h
    obtain ⟨m3, _, _, h1, h2, _, h4, _, _⟩ := definitions_pass_state env _ pre _ m
      (MarkdownWriter.wellFormed_new config copyright title) h
    refine ⟨m3.heap.length, _, h2, h4, rfl, rfl, by rw [h1, List.getLast?_concat], ?_⟩
    simp only [MarkdownWriter.WriteDefinition, MarkdownWriter.appendToCurrent, h2]
    split <;> simp
  · intro mF h
    have hcalls : generateCalls env config =
        (callsBeforeDefinitions config ++ Call.WriteDefinitionsOverview ::
          (sortedDefinitions env config).map Call.WriteDefinition) ++
        callsAfterDefinitions env config := by
      simp [generateCalls]
    have hwF := MarkdownWriter.wellFormed_applyAll env _ _ mF
      (MarkdownWriter.wellFormed_new config copyright title) h
    rw [hcalls] at h
    obtain ⟨m5, h5, hafter⟩ := applyAll_append_ok _ env _ _ _ mF h
    obtain ⟨m3, _, hw3, d1, _, d3, d4, d5, d6⟩ := definitions_pass_state env _ _ _ m5
      (MarkdownWriter.wellFormed_new config copyright title) h5
    obtain ⟨f1, f2, f3⟩ := MarkdownWriter.frame_applyAll env _ m5 mF
      (callsAfterDefinitions_kind env config) hafter
    refine ⟨m3.heap.length,
      { Level := 1, Title := "DEFINITIONS", Link := "definitions", File := "definitions.md",
        SubSections := List.range' (m3.heap.length + 1) (sortedDefinitions env config).length },
      f3 _ (by rw [d1]; simp), ?_, rfl, rfl, ?_, ?_⟩
    · have hlt : m3.heap.length < m5.heap.length := by omega
      rw [f2 _ hlt, d4]
    · intro i d hi
      have hi' : i < (sortedDefinitions env config).length := by
        rcases List.getElem?_eq_some.mp hi with ⟨hlt, _⟩
        exact hlt
      have hlt : m3.heap.length + 1 + i < m5.heap.length := by omega
      rw [f2 _ hlt, d6 i d hi]
    · intro x hxa b hb hcontra
      by_cases hx1 : x < m3.heap.length
      · have hx5 : x < m5.heap.length := by omega
        have hx : mF.heap[x]? = m3.heap[x]? := by
          rw [f2 x hx5, d5 x hx1]
        cases hit : m3.heap[x]? with
        | none => simp [itemSubs, hx, hit] at hb
        | some it =>
          simp only [itemSubs, hx, hit] at hb
          have := hw3.1 x it hit b hb
          omega
      · by_cases hx2 : x < m5.heap.length
        · have hxa' : m3.heap.length < x := by omega
          obtain ⟨i, hi⟩ : ∃ i, x = m3.heap.length + 1 + i :=
            ⟨x - (m3.heap.length + 1), by omega⟩
          have hilt : i < (sortedDefinitions env config).length := by omega
          have hd := d6 i _ (List.getElem?_eq_getElem hilt)
          rw [← hi] at hd
          have hx : mF.heap[x]? = m5.heap[x]? := f2 x hx2
          simp [itemSubs, hx, hd, MarkdownWriter.definitionItem] at hb
        · cases hit : mF.heap[x]? with
          | none => simp [itemSubs, hit] at hb
          | some it =>
            simp only [itemSubs, hit] at hb
            have := hwF.1 x it hit b hb
            omega

/-- Witness of C14: the run of the sample configuration. -/
theorem definitions_written_under_definitions_section_witness :
    ∃ (mF : MarkdownWriter) (a : Nat) (item : TOCItem),
      Call.applyAll MarkdownWriter.docWriter sampleEnv (generateCalls sampleEnv sampleConfig)
        (NewMarkdownWriter sampleConfig "c" "t") = .ok mF ∧
      a ∈ mF.TOC.Sections ∧ mF.heap[a]? = some item ∧ item.Title = "DEFINITIONS" ∧
      item.SubSections = List.range' (a + 1) (sortedDefinitions sampleEnv sampleConfig).length := by
  have hrun : ∃ mF, Call.applyAll MarkdownWriter.docWriter sampleEnv
      (generateCalls sampleEnv sampleConfig) (NewMarkdownWriter sampleConfig "c" "t") =
      .ok mF := ⟨_, rfl⟩
  obtain ⟨mF, hF⟩ := hrun
  obtain ⟨a, item, h1, h2, h3, h4, _⟩ :=
    (definitions_written_under_definitions_section sampleEnv sampleConfig "c" "t").2.2 mF hF
  exact ⟨mF, a, item, hF, h1, h2, h3, h4⟩

end GenApidocs
